import Mathlib

/-!
Set-associative cache simulator (`cache.c`).

A shallow embedding of the cache engine of `cache.c`: address decomposition
(`address_to_block`, `cache_tag`, `cache_set`), the lookup `probe_cache`, the
hit / insert / victim / replace helpers, `cacheSetUp` and the entry point
`operateCache`, followed by theorems about them.

Conventions of the embedding.

* Addresses, tags and block addresses are `unsigned long long`: natural numbers
  below `2 ^ 64`; the arithmetic on them wraps modulo `2 ^ 64`.
* C leaves a shift undefined when its count lies outside `0 .. 63`.  The value
  such a shift yields is a parameter of the model (`ShiftModel`); inside the
  range the shift is the usual one.  `hwShift` is the behaviour of the x86-64,
  AArch64 and RISC-V shift instructions, which use the count modulo 64.
* The arrays `cache->sets` and `set->lines` are pointers without a length:
  they are functions from an index, and the loops run over the indices
  `0 .. linesPerSet - 1` exactly as in the source.
* `cache.h` is not part of the sources.  The records it declares are modelled
  from the data model of the specification, with the fields `cache.c` uses and
  the integer types `cache.c` uses them at.  The clock of a set and the
  timestamp of a line are `unsigned long long` (`victim_cacheline` keeps a
  timestamp in `unsigned long long minLru`): naturals, incremented modulo
  `2 ^ 64` (`inc64`).  `access_counter` and the three statistics are `int`
  (`victim_cacheline` keeps a counter in `int minaccess`, `printSummary` prints
  the statistics with `%d`): integers, incremented in two's complement, from
  `INT_MAX = 2 ^ 31 - 1` to `INT_MIN = -2 ^ 31` (`inc32`).  The bit counts and
  `linesPerSet` are naturals.
-/

namespace CacheSim

/-! ## Data model -/

/-- Modelled from the spec: `cache.h`, which declares the outcome codes `CACHE_HIT`,
`CACHE_MISS`, `CACHE_EVICT`, is not among the sources; the three outcomes of the
specification's `Outcome`. -/
inductive Status where
  | CACHE_HIT
  | CACHE_MISS
  | CACHE_EVICT
deriving DecidableEq

/-- Modelled from the spec: the `result` record of `cache.h` (not among the sources), with
the three fields `operateCache` fills. -/
structure result where
  status : Status
  victim_block_addr : Nat
  insert_block_addr : Nat
deriving DecidableEq

/-- Modelled from the spec: one cache line, `Line` of `cache.h` (not among the sources),
with the fields of the specification's Line under the names `cache.c` uses: `lru_clock` an
`unsigned long long`, `access_counter` an `int`. -/
structure Line where
  valid : Bool
  tag : Nat
  block_addr : Nat
  lru_clock : Nat
  access_counter : Int
deriving DecidableEq

/-- Modelled from the spec: one cache set, `Set` of `cache.h` (not among the sources): its
lines and its own clock, an `unsigned long long`. -/
structure CacheSet where
  lines : Nat → Line
  lru_clock : Nat

/-- Modelled from the spec: the engine, `Cache` of `cache.h` (not among the sources):
geometry, policy (`lfu = 0` is LRU, `lfu = 1` is LFU), sets and the three statistics, which
are `int`s. -/
structure Cache where
  setBits : Nat
  linesPerSet : Nat
  blockBits : Nat
  lfu : Int
  sets : Nat → CacheSet
  hit_count : Int
  miss_count : Int
  eviction_count : Int

/-! ## Machine arithmetic -/

/-- What a shift yields when its count is outside `0 .. 63` (undefined in C). -/
structure ShiftModel where
  shlOut : Nat → Int → Nat
  shrOut : Nat → Int → Nat

/-- Shifts as the x86-64, AArch64 and RISC-V instructions perform them: the
count is reduced modulo 64. -/
def hwShift : ShiftModel where
  shlOut := fun x n => x * 2 ^ (n % 64).toNat
  shrOut := fun x n => x / 2 ^ (n % 64).toNat

/-- `INT64_MAX`. -/
def INT64_MAX : Nat := 2 ^ 63 - 1

/-- `INT32_MAX`. -/
def INT32_MAX : Int := 2 ^ 31 - 1

/-- `x << n` on `unsigned long long`. -/
def shl64 (P : ShiftModel) (x : Nat) (n : Int) : Nat :=
  if 0 ≤ n ∧ n < 64 then (x * 2 ^ n.toNat) % 2 ^ 64 else P.shlOut x n % 2 ^ 64

/-- `x >> n` on `unsigned long long`. -/
def shr64 (P : ShiftModel) (x : Nat) (n : Int) : Nat :=
  if 0 ≤ n ∧ n < 64 then x / 2 ^ n.toNat else P.shrOut x n % 2 ^ 64

/-- `x - y` on `unsigned long long` (wraps). -/
def sub64 (x y : Nat) : Nat := (x % 2 ^ 64 + (2 ^ 64 - y % 2 ^ 64)) % 2 ^ 64

/-- `~x` on `unsigned long long`. -/
def not64 (x : Nat) : Nat := 2 ^ 64 - 1 - x % 2 ^ 64

/-- `x++` on `unsigned long long`, the type of the clocks (`victim_cacheline` keeps a line's
`lru_clock` in `unsigned long long minLru`): after `2 ^ 64 - 1` comes 0. -/
def inc64 (x : Nat) : Nat := (x + 1) % 2 ^ 64

/-- `x++` on `int`, the type of `access_counter` (kept in `int minaccess`) and of the
statistics (`printSummary` prints them with `%d`): two's complement, after `INT_MAX` comes
`INT_MIN`. -/
def inc32 (x : Int) : Int := (x + 1 + 2 ^ 31) % 2 ^ 32 - 2 ^ 31

/-! ## Address decomposition -/

/-- `address & ~((1ULL << cache->blockBits) - 1)`. -/
def address_to_block (P : ShiftModel) (address : Nat) (cache : Cache) : Nat :=
  address &&& not64 (sub64 (shl64 P 1 cache.blockBits) 1)

/-- The tag of an address. -/
def cache_tag (P : ShiftModel) (address : Nat) (cache : Cache) : Nat :=
  let tagBits : Int := 64 - (cache.blockBits : Int) - (cache.setBits : Int)
  let shiftedAddress := shr64 P address (64 - tagBits)
  shiftedAddress &&& sub64 (shl64 P 1 tagBits) 1

/-- The set index of an address. -/
def cache_set (P : ShiftModel) (address : Nat) (cache : Cache) : Nat :=
  let setBits : Int := cache.setBits
  let shiftedAddress := shr64 P address cache.blockBits
  shiftedAddress &&& sub64 (shl64 P 1 setBits) 1

/-! ## State updates -/

/-- Array store `a[i] = v`. -/
def store {α : Type} (a : Nat → α) (i : Nat) (v : α) : Nat → α :=
  fun j => if j = i then v else a j

/-- Store a line: `cache->sets[s].lines[i] = l`. -/
def Cache.setLine (cache : Cache) (s i : Nat) (l : Line) : Cache :=
  let set : CacheSet := { lines := store (cache.sets s).lines i l,
                          lru_clock := (cache.sets s).lru_clock }
  { cache with sets := store cache.sets s set }

/-- Store a set clock: `cache->sets[s].lru_clock = v`. -/
def Cache.setClock (cache : Cache) (s : Nat) (v : Nat) : Cache :=
  let set : CacheSet := { lines := (cache.sets s).lines, lru_clock := v }
  { cache with sets := store cache.sets s set }

/-! ## Probe, hit, insert, victim, replace -/

/-- The loop of `probe_cache`, from index `i`, with `n` iterations left. -/
def probe_scan (set : CacheSet) (tag : Nat) : Nat → Nat → Bool
  | 0, _ => false
  | n + 1, i =>
    if (set.lines i).valid && (set.lines i).tag == tag then true
    else probe_scan set tag n (i + 1)

/-- Is the address in the cache? -/
def probe_cache (P : ShiftModel) (address : Nat) (cache : Cache) : Bool :=
  let setIndex := cache_set P address cache
  let tag := cache_tag P address cache
  probe_scan (cache.sets setIndex) tag cache.linesPerSet 0

/-- The loop of `hit_cacheline`. -/
def hit_scan (cache : Cache) (set_address cached_tag : Nat) : Nat → Nat → Cache
  | 0, _ => cache
  | n + 1, i =>
    let l := (cache.sets set_address).lines i
    if l.valid && l.tag == cached_tag then
      if cache.lfu = 0 then
        cache.setLine set_address i { l with lru_clock := (cache.sets set_address).lru_clock }
      else
        cache.setLine set_address i { l with access_counter := inc32 l.access_counter }
    else hit_scan cache set_address cached_tag n (i + 1)

/-- Update the counters of the line that holds the address. -/
def hit_cacheline (P : ShiftModel) (address : Nat) (cache : Cache) : Cache :=
  let set_address := cache_set P address cache
  let cached_tag := cache_tag P address cache
  hit_scan cache set_address cached_tag cache.linesPerSet 0

/-- The loop of `insert_cacheline`. -/
def insert_scan (P : ShiftModel) (address : Nat) (cache : Cache) (setIndex : Nat) :
    Nat → Nat → Bool × Cache
  | 0, _ => (false, cache)
  | n + 1, i =>
    if (((cache.sets setIndex).lines i).valid == false) then
      (true, cache.setLine setIndex i
        { valid := true
          block_addr := address_to_block P address cache
          tag := cache_tag P address cache
          lru_clock := (cache.sets setIndex).lru_clock
          access_counter := 1 })
    else insert_scan P address cache setIndex n (i + 1)

/-- Put the address into the first invalid line of its set, if there is one. -/
def insert_cacheline (P : ShiftModel) (address : Nat) (cache : Cache) : Bool × Cache :=
  let setIndex := cache_set P address cache
  insert_scan P address cache setIndex cache.linesPerSet 0

/-- The scan state of `victim_cacheline`: `vict_add`, `minLru`, `minaccess`. -/
structure VictimAcc where
  vict_add : Nat
  minLru : Nat
  minaccess : Int
deriving DecidableEq

/-- One iteration of the loop of `victim_cacheline` on line `l`. -/
def victim_step (lfu : Int) (acc : VictimAcc) (l : Line) : VictimAcc :=
  if (lfu = 0 ∧ l.lru_clock < acc.minLru) ∨ (lfu = 1 ∧ l.access_counter < acc.minaccess) then
    { vict_add := l.block_addr, minLru := l.lru_clock, minaccess := l.access_counter }
  else if lfu = 1 ∧ l.access_counter = acc.minaccess then
    if l.lru_clock < acc.minLru then
      { acc with vict_add := l.block_addr, minLru := l.lru_clock }
    else acc
  else acc

/-- The loop of `victim_cacheline`. -/
def victim_scan (lfu : Int) (set : CacheSet) : Nat → Nat → VictimAcc → VictimAcc
  | 0, _, acc => acc
  | n + 1, i, acc => victim_scan lfu set n (i + 1) (victim_step lfu acc (set.lines i))

/-- The block address of the line to replace. -/
def victim_cacheline (P : ShiftModel) (address : Nat) (cache : Cache) : Nat :=
  let setIndex := cache_set P address cache
  (victim_scan cache.lfu (cache.sets setIndex) cache.linesPerSet 0
    { vict_add := 0, minLru := INT64_MAX, minaccess := INT32_MAX }).vict_add

/-- The loop of `replace_cacheline`. -/
def replace_scan (P : ShiftModel) (victim_block_addr insert_addr ins_tag ins_set : Nat) :
    Nat → Nat → Cache → Cache
  | 0, _, cache => cache
  | n + 1, i, cache =>
    let line := (cache.sets ins_set).lines i
    let cache1 :=
      if line.block_addr = victim_block_addr then
        cache.setLine ins_set i
          { valid := true
            tag := ins_tag
            block_addr := address_to_block P insert_addr cache
            lru_clock := (cache.sets ins_set).lru_clock
            access_counter := 1 }
      else cache
    replace_scan P victim_block_addr insert_addr ins_tag ins_set n (i + 1) cache1

/-- Overwrite the victim line with the new address. -/
def replace_cacheline (P : ShiftModel) (victim_block_addr insert_addr : Nat)
    (cache : Cache) : Cache :=
  let ins_tag := cache_tag P insert_addr cache
  let ins_set := cache_set P insert_addr cache
  replace_scan P victim_block_addr insert_addr ins_tag ins_set cache.linesPerSet 0 cache

/-! ## Entry point and set-up -/

/-- One access of the trace. -/
def operateCache (P : ShiftModel) (address : Nat) (cache : Cache) : result × Cache :=
  let set_index := cache_set P address cache
  let cache := cache.setClock set_index (inc64 (cache.sets set_index).lru_clock)
  if probe_cache P address cache then
    let cache := hit_cacheline P address cache
    ({ status := Status.CACHE_HIT, victim_block_addr := 0, insert_block_addr := 0 },
      { cache with hit_count := inc32 cache.hit_count })
  else
    match insert_cacheline P address cache with
    | (true, cache) =>
      ({ status := Status.CACHE_MISS, victim_block_addr := 0,
         insert_block_addr := address_to_block P address cache },
        { cache with miss_count := inc32 cache.miss_count })
    | (false, cache) =>
      let victimBlockAddress := victim_cacheline P address cache
      let cache := replace_cacheline P victimBlockAddress address cache
      ({ status := Status.CACHE_EVICT, victim_block_addr := victimBlockAddress,
         insert_block_addr := address_to_block P address cache },
        { cache with miss_count := inc32 cache.miss_count,
                     eviction_count := inc32 cache.eviction_count })

/-- A counting loop `for (i = 0; i < n; i++) body`, from index `i`. -/
def forLoop {σ : Type} (body : Nat → σ → σ) : Nat → Nat → σ → σ
  | 0, _, s => s
  | n + 1, i, s => forLoop body n (i + 1) (body i s)

/-- The inner loop body of `cacheSetUp`: line `j` of set `i`. -/
def setUpLine (i j : Nat) (cache : Cache) : Cache :=
  cache.setLine i j
    { ((cache.sets i).lines j) with valid := false, lru_clock := 0, access_counter := 0 }

/-- Allocate and initialise the sets and lines.  The freshly allocated memory
holds whatever the argument held; the statistics are not touched. -/
def cacheSetUp (cache : Cache) : Cache :=
  forLoop (fun i c => forLoop (setUpLine i) c.linesPerSet 0 (c.setClock i 0))
    (2 ^ cache.setBits) 0 cache

/-- The trace loop: one `operateCache` per address, in order. -/
def runTrace (P : ShiftModel) : List Nat → Cache → Cache
  | [], cache => cache
  | a :: rest, cache => runTrace P rest (operateCache P a cache).2

/-- The outcomes of a trace, in order. -/
def traceResults (P : ShiftModel) : List Nat → Cache → List result
  | [], _ => []
  | a :: rest, cache =>
    (operateCache P a cache).1 :: traceResults P rest (operateCache P a cache).2

/-- States reachable from a set-up cache through accesses. -/
inductive Reachable (P : ShiftModel) : Cache → Prop where
  | setup (c0 : Cache) : Reachable P (cacheSetUp c0)
  | access (a : Nat) (c : Cache) : a < 2 ^ 64 → Reachable P c →
      Reachable P (operateCache P a c).2

/-- A cache record with geometry and policy set, everything else zero. -/
def blank (blockBits setBits linesPerSet : Nat) (lfu : Int) : Cache where
  setBits := setBits
  linesPerSet := linesPerSet
  blockBits := blockBits
  lfu := lfu
  sets := fun _ =>
    { lines := fun _ => { valid := false, tag := 0, block_addr := 0, lru_clock := 0,
                          access_counter := 0 },
      lru_clock := 0 }
  hit_count := 0
  miss_count := 0
  eviction_count := 0

/-! ## Auxiliary definitions for the statements -/

/-- The line written by a hit: the timestamp under LRU, the counter otherwise. -/
def touchLine (lfu : Int) (l : Line) (clk : Nat) : Line :=
  if lfu = 0 then { l with lru_clock := clk }
  else { l with access_counter := inc32 l.access_counter }

/-- The line written by an insertion or a replacement. -/
def freshLine (tag block clk : Nat) : Line :=
  { valid := true, tag := tag, block_addr := block, lru_clock := clk, access_counter := 1 }

/-- A line matches a tag when it is valid and stores the tag. -/
def Line.holds (l : Line) (tag : Nat) : Bool := l.valid && l.tag == tag

/-- The lines of a set after `replace_cacheline` scanned the indices `lo .. hi - 1`. -/
def replaceLines (lines : Nat → Line) (v : Nat) (nl : Line) (lo hi : Nat) : Nat → Line :=
  fun j => if lo ≤ j ∧ j < hi ∧ (lines j).block_addr = v then nl else lines j

/-- The state after a hit on line `j0` of set `s`. -/
def hitState (c : Cache) (s j0 : Nat) : Cache :=
  { c with
    sets := store c.sets s
      { lines := store (c.sets s).lines j0
          (touchLine c.lfu ((c.sets s).lines j0) (inc64 (c.sets s).lru_clock)),
        lru_clock := inc64 (c.sets s).lru_clock },
    hit_count := inc32 c.hit_count }

/-- The state after a miss that fills line `j0` of set `s`. -/
def missState (c : Cache) (s j0 t b : Nat) : Cache :=
  { c with
    sets := store c.sets s
      { lines := store (c.sets s).lines j0 (freshLine t b (inc64 (c.sets s).lru_clock)),
        lru_clock := inc64 (c.sets s).lru_clock },
    miss_count := inc32 c.miss_count }

/-- The state after an eviction of block address `v` from set `s`. -/
def evictState (c : Cache) (s v t b : Nat) : Cache :=
  { c with
    sets := store c.sets s
      { lines := replaceLines (c.sets s).lines v (freshLine t b (inc64 (c.sets s).lru_clock))
          0 c.linesPerSet,
        lru_clock := inc64 (c.sets s).lru_clock },
    miss_count := inc32 c.miss_count,
    eviction_count := inc32 c.eviction_count }

/-- The set index as a function of the geometry alone. -/
def setIdx (P : ShiftModel) (blockBits setBits a : Nat) : Nat :=
  shr64 P a blockBits &&& sub64 (shl64 P 1 setBits) 1

/-- The tag as a function of the geometry alone. -/
def tagOf (P : ShiftModel) (blockBits setBits a : Nat) : Nat :=
  shr64 P a (64 - (64 - (blockBits : Int) - (setBits : Int))) &&&
    sub64 (shl64 P 1 (64 - (blockBits : Int) - (setBits : Int))) 1

/-- The block address as a function of the geometry alone. -/
def blockOf (P : ShiftModel) (blockBits a : Nat) : Nat :=
  a &&& not64 (sub64 (shl64 P 1 blockBits) 1)

/-- A two-line LRU or LFU set for the examples: line `j` stores block `8 * j`, was touched
at time `5 - j` and has been used `j + 1` times. -/
def demoCache (lfu : Int) : Cache :=
  { blank 2 1 2 lfu with
    sets := fun _ =>
      { lines := fun j => { valid := true, tag := j, block_addr := 8 * j, lru_clock := 5 - j,
                            access_counter := (j : Int) + 1 },
        lru_clock := 5 } }

/-- An LFU cache with one line per set whose set 0 holds block 64 with the counters
`access_counter = INT32_MAX` and `lru_clock = INT64_MAX`. -/
def sentinelCache : Cache :=
  { blank 2 1 1 1 with
    sets := fun i =>
      { lines := fun _ =>
          { valid := decide (i = 0), tag := 8, block_addr := 64, lru_clock := 2 ^ 63 - 1,
            access_counter := 2 ^ 31 - 1 },
        lru_clock := 2 ^ 63 - 1 } }

/-- A line as `cacheSetUp` leaves it: invalid, with zeroed counters. -/
def resetLine (l : Line) : Line :=
  { l with valid := false, lru_clock := 0, access_counter := 0 }

/-- A set as `cacheSetUp` leaves it: clock zero, the first `n` lines reset. -/
def initSet (S : CacheSet) (n : Nat) : CacheSet :=
  { lines := fun j => if j < n then resetLine (S.lines j) else S.lines j, lru_clock := 0 }

/-- The trace that accesses address 4 `2 ^ 63 - 1` times in a row. -/
def longTrace : List Nat := List.replicate (2 ^ 63 - 1) 4

/-- The state a fresh LRU cache with `blockBits = 2`, `setBits = 1`, `linesPerSet = 1`
reaches through `longTrace`. -/
def agedCache : Cache := runTrace hwShift longTrace (cacheSetUp (blank 2 1 1 0))

/-- Set `s` of `c` holds `k` valid lines, with tags from `T`, followed by invalid lines. -/
def Filled (c : Cache) (s k : Nat) (T : List Nat) : Prop :=
  k ≤ c.linesPerSet ∧
  (∀ j, j < k → ((c.sets s).lines j).valid = true ∧ ((c.sets s).lines j).tag ∈ T) ∧
  (∀ j, k ≤ j → j < c.linesPerSet → ((c.sets s).lines j).valid = false)

/-- A two-line cache seen at set `s`: geometry, policy, the two lines and the clock. -/
def TwoLineSet (c : Cache) (bb sb : Nat) (lfu : Int) (s : Nat) (l0 l1 : Line) (clk : Nat) :
    Prop :=
  c.blockBits = bb ∧ c.setBits = sb ∧ c.linesPerSet = 2 ∧ c.lfu = lfu ∧
  (c.sets s).lines 0 = l0 ∧ (c.sets s).lines 1 = l1 ∧ (c.sets s).lru_clock = clk

/-- The victim the scan selects in a set of the two lines `l0`, `l1`. -/
def twoVictim (lfu : Int) (l0 l1 : Line) : Nat :=
  (victim_step lfu
    (victim_step lfu { vict_add := 0, minLru := INT64_MAX, minaccess := INT32_MAX } l0)
    l1).vict_add

/-- An engine record that has been used before: geometry `blockBits = 2`, `setBits = 1`,
`linesPerSet = 1`, with non-zero statistics. -/
def usedCache : Cache :=
  { blank 2 1 1 0 with hit_count := 7, miss_count := 5, eviction_count := 2 }

/-- Every valid line of the `2 ^ setBits` sets stores a block address that decomposes to
the index of its set and to its own tag, and that is block aligned. -/
def WellTagged (P : ShiftModel) (c : Cache) : Prop :=
  ∀ i j, i < 2 ^ c.setBits → j < c.linesPerSet → ((c.sets i).lines j).valid = true →
    cache_set P ((c.sets i).lines j).block_addr c = i ∧
    cache_tag P ((c.sets i).lines j).block_addr c = ((c.sets i).lines j).tag ∧
    address_to_block P ((c.sets i).lines j).block_addr c = ((c.sets i).lines j).block_addr

/-- No two valid lines of a set have the same tag. -/
def DistinctTags (c : Cache) : Prop :=
  ∀ i j k, i < 2 ^ c.setBits → j < c.linesPerSet → k < c.linesPerSet →
    ((c.sets i).lines j).valid = true → ((c.sets i).lines k).valid = true →
    ((c.sets i).lines j).tag = ((c.sets i).lines k).tag → j = k

/-- The timestamps of the valid lines of a set lie between 1 and the clock of the set and
are pairwise distinct. -/
def Timestamps (c : Cache) : Prop :=
  ∀ i, i < 2 ^ c.setBits →
    (∀ j, j < c.linesPerSet → ((c.sets i).lines j).valid = true →
      1 ≤ ((c.sets i).lines j).lru_clock ∧
      ((c.sets i).lines j).lru_clock ≤ (c.sets i).lru_clock) ∧
    (∀ j k, j < c.linesPerSet → k < c.linesPerSet →
      ((c.sets i).lines j).valid = true → ((c.sets i).lines k).valid = true →
      ((c.sets i).lines j).lru_clock = ((c.sets i).lines k).lru_clock → j = k)

/-- The two tagging invariants of the reachable states. -/
def TagInv (P : ShiftModel) (c : Cache) : Prop :=
  WellTagged P c ∧ DistinctTags c

/-- States reachable from a set-up cache through accesses each of which finds the clock of
the set of its address below `2 ^ 64 - 1`, so that no clock has wrapped around. -/
inductive ReachableNoWrap (P : ShiftModel) : Cache → Prop where
  | setup (c0 : Cache) : ReachableNoWrap P (cacheSetUp c0)
  | access (a : Nat) (c : Cache) : a < 2 ^ 64 →
      (c.sets (cache_set P a c)).lru_clock < 2 ^ 64 - 1 →
      ReachableNoWrap P c → ReachableNoWrap P (operateCache P a c).2

/-- A two-line LRU cache with `blockBits = 2`, `setBits = 1` after the accesses 0 and 8,
which fill set 0. -/
def fullCache : Cache := runTrace hwShift [0, 8] (cacheSetUp (blank 2 1 2 0))

/-- Two states that agree on everything except the tag, block address, timestamp and
counter of the lines whose valid flag is false. -/
def StaleEq (c d : Cache) : Prop :=
  c.setBits = d.setBits ∧ c.linesPerSet = d.linesPerSet ∧ c.blockBits = d.blockBits ∧
  c.lfu = d.lfu ∧ c.hit_count = d.hit_count ∧ c.miss_count = d.miss_count ∧
  c.eviction_count = d.eviction_count ∧
  (∀ i, (c.sets i).lru_clock = (d.sets i).lru_clock) ∧
  ∀ i j, ((c.sets i).lines j).valid = ((d.sets i).lines j).valid ∧
    (((c.sets i).lines j).valid = true → (c.sets i).lines j = (d.sets i).lines j)

/-- A cache record like `blank 2 1 1 0` whose memory holds block address 4 in every line. -/
def dirtyBlank : Cache :=
  { blank 2 1 1 0 with
    sets := fun _ =>
      { lines := fun _ => { valid := false, tag := 0, block_addr := 4, lru_clock := 0,
                            access_counter := 0 },
        lru_clock := 0 } }

/-- The one-line LRU example cache set up over zeroed memory. -/
def cleanSetUp : Cache := cacheSetUp (blank 2 1 1 0)

/-- The one-line LRU example cache set up over memory that held block address 4. -/
def dirtySetUp : Cache := cacheSetUp dirtyBlank

/-- The state `cleanSetUp` after the access of address 0, which fills set 0. -/
def cleanFilled : Cache := (operateCache hwShift 0 cleanSetUp).2

/-- The state `dirtySetUp` after the access of address 0, which fills set 0. -/
def dirtyFilled : Cache := (operateCache hwShift 0 dirtySetUp).2

/-- The `int` that represents `x`: `x` reduced into `-2 ^ 31 .. 2 ^ 31 - 1` modulo `2 ^ 32`. -/
def wrap32 (x : Int) : Int := (x + 2 ^ 31) % 2 ^ 32 - 2 ^ 31

/-- How many results of a trace have the status `st`. -/
def countStatus (st : Status) (rs : List result) : Nat :=
  (rs.filter (fun r => decide (r.status = st))).length

/-- The state a fresh cache with `blockBits = 2`, `setBits = 1`, `linesPerSet = 1` reaches
through `n` accesses of address 4. -/
def hotCache (lfu : Int) (n : Nat) : Cache :=
  runTrace hwShift (List.replicate n 4) (cacheSetUp (blank 2 1 1 lfu))

/-- The line of set 1 after `n` accesses of address 4: under LRU its timestamp follows the
clock, otherwise its counter counts the accesses as an `int`. -/
def hotLine (lfu : Int) (n : Nat) : Line :=
  { valid := true, tag := 0, block_addr := 4,
    lru_clock := if lfu = 0 then n % 2 ^ 64 else 1,
    access_counter := if lfu = 0 then 1 else wrap32 n }

/-- The shape of the example cache after `n ≥ 1` accesses of address 4: one miss and
`n - 1` hits, all in set 1. -/
def HotAt (lfu : Int) (n : Nat) (c : Cache) : Prop :=
  c.blockBits = 2 ∧ c.setBits = 1 ∧ c.linesPerSet = 1 ∧ c.lfu = lfu ∧
  (c.sets 1).lru_clock = n % 2 ^ 64 ∧
  (c.sets 1).lines 0 = hotLine lfu n ∧
  c.hit_count = wrap32 ((n : Int) - 1) ∧ c.miss_count = 1 ∧ c.eviction_count = 0

/-- The trace of length `n` that alternates between the addresses 0 and 8, which share
set 0 of the example geometry and differ in their tags: 0, 8, 0, 8, ... -/
def thrashTrace (n : Nat) : List Nat := (List.range n).map (fun k => 8 * (k % 2))

/-- The state a fresh LRU cache with `blockBits = 2`, `setBits = 1`, `linesPerSet = 1` and
zeroed statistics reaches through `thrashTrace n`. -/
def thrashCache (n : Nat) : Cache :=
  runTrace hwShift (thrashTrace n) (cacheSetUp (blank 2 1 1 0))

/-- The shape of the example cache after `n ≥ 1` accesses of `thrashTrace`: the line of
set 0 holds the address accessed last, set 1 is still empty, and the statistics count one
miss per access and one eviction per access but the first, as `int`s. -/
def ThrashAt (n : Nat) (c : Cache) : Prop :=
  c.blockBits = 2 ∧ c.setBits = 1 ∧ c.linesPerSet = 1 ∧ c.lfu = 0 ∧
  (c.sets 0).lru_clock = n ∧
  (c.sets 0).lines 0 =
    { valid := true, tag := (n + 1) % 2, block_addr := 8 * ((n + 1) % 2), lru_clock := n,
      access_counter := 1 } ∧
  ((c.sets 1).lines 0).valid = false ∧
  c.hit_count = 0 ∧ c.miss_count = wrap32 n ∧ c.eviction_count = wrap32 ((n : Int) - 1)

/-! ## Basic facts about stores and scans -/

theorem inc32_eq (x : Int) (h : -2 ^ 31 ≤ x ∧ x < 2 ^ 31 - 1) : inc32 x = x + 1 := by
  unfold inc32; omega

theorem inc32_wrap (x : Int) : inc32 (wrap32 x) = wrap32 (x + 1) := by
  unfold inc32 wrap32; omega

theorem wrap32_eq (x : Int) (h : -2 ^ 31 ≤ x ∧ x ≤ 2 ^ 31 - 1) : wrap32 x = x := by
  unfold wrap32; omega

theorem inc64_eq (x : Nat) (h : x < 2 ^ 64 - 1) : inc64 x = x + 1 := by
  unfold inc64; omega

theorem inc64_mod (n : Nat) : inc64 (n % 2 ^ 64) = (n + 1) % 2 ^ 64 := by
  unfold inc64; omega

@[simp] theorem inc64_zero : inc64 0 = 1 := by decide

@[simp] theorem inc64_one : inc64 1 = 2 := by decide

@[simp] theorem inc64_two : inc64 2 = 3 := by decide

@[simp] theorem inc64_three : inc64 3 = 4 := by decide

@[simp] theorem inc64_four : inc64 4 = 5 := by decide

@[simp] theorem inc32_one : inc32 1 = 2 := by decide

@[simp] theorem store_same {α : Type} (a : Nat → α) (i : Nat) (v : α) : store a i v i = v := by
  simp [store]

theorem store_other {α : Type} (a : Nat → α) (i j : Nat) (v : α) (h : j ≠ i) :
    store a i v j = a j := by
  simp [store, h]

theorem probe_scan_eq_true_iff (set : CacheSet) (tag : Nat) (n i : Nat) :
    probe_scan set tag n i = true ↔
      ∃ j, i ≤ j ∧ j < i + n ∧ (set.lines j).holds tag = true := by
  induction n generalizing i with
  | zero => simp [probe_scan]; intro j h1 h2; omega
  | succ n ih =>
    unfold probe_scan
    by_cases h : (set.lines i).holds tag = true
    · have h' : ((set.lines i).valid && (set.lines i).tag == tag) = true := h
      rw [if_pos h']
      simp only [true_iff]
      exact ⟨i, le_refl _, by omega, h⟩
    · have h' : ¬ ((set.lines i).valid && (set.lines i).tag == tag) = true := h
      rw [if_neg h', ih]
      constructor
      · rintro ⟨j, h1, h2, h3⟩
        exact ⟨j, by omega, by omega, h3⟩
      · rintro ⟨j, h1, h2, h3⟩
        have : j ≠ i := by
          rintro rfl
          exact h h3
        exact ⟨j, by omega, by omega, h3⟩

theorem hit_scan_first (c : Cache) (s t : Nat) (n i j0 : Nat) (h1 : i ≤ j0) (h2 : j0 < i + n)
    (hm : ((c.sets s).lines j0).holds t = true)
    (hfirst : ∀ j, i ≤ j → j < j0 → ((c.sets s).lines j).holds t = false) :
    hit_scan c s t n i =
      c.setLine s j0 (touchLine c.lfu ((c.sets s).lines j0) (c.sets s).lru_clock) := by
  induction n generalizing i with
  | zero => omega
  | succ n ih =>
    unfold hit_scan
    by_cases hi : i = j0
    · subst hi
      have h' : (((c.sets s).lines i).valid && ((c.sets s).lines i).tag == t) = true := hm
      simp only [h', if_true, touchLine]
      split <;> rfl
    · have hlt : i < j0 := by omega
      have h' : (((c.sets s).lines i).valid && ((c.sets s).lines i).tag == t) = false :=
        hfirst i (le_refl _) hlt
      simp only [h', Bool.false_eq_true, if_false]
      exact ih (i + 1) (by omega) (by omega) (fun j hj1 hj2 => hfirst j (by omega) hj2)

theorem insert_scan_first (P : ShiftModel) (a : Nat) (c : Cache) (s : Nat) (n i j0 : Nat)
    (h1 : i ≤ j0) (h2 : j0 < i + n)
    (hm : ((c.sets s).lines j0).valid = false)
    (hfirst : ∀ j, i ≤ j → j < j0 → ((c.sets s).lines j).valid = true) :
    insert_scan P a c s n i =
      (true, c.setLine s j0
        (freshLine (cache_tag P a c) (address_to_block P a c) (c.sets s).lru_clock)) := by
  induction n generalizing i with
  | zero => omega
  | succ n ih =>
    unfold insert_scan
    by_cases hi : i = j0
    · subst hi
      simp [hm, freshLine]
    · have hlt : i < j0 := by omega
      have h' := hfirst i (le_refl _) hlt
      simp only [h', Bool.true_eq_false, beq_iff_eq, if_false]
      exact ih (i + 1) (by omega) (by omega) (fun j hj1 hj2 => hfirst j (by omega) hj2)

theorem insert_scan_full (P : ShiftModel) (a : Nat) (c : Cache) (s : Nat) (n i : Nat)
    (hall : ∀ j, i ≤ j → j < i + n → ((c.sets s).lines j).valid = true) :
    insert_scan P a c s n i = (false, c) := by
  induction n generalizing i with
  | zero => rfl
  | succ n ih =>
    unfold insert_scan
    have h' := hall i (le_refl _) (by omega)
    simp only [h', Bool.true_eq_false, beq_iff_eq, if_false]
    exact ih (i + 1) (fun j hj1 hj2 => hall j (by omega) (by omega))

theorem store_store {α : Type} (a : Nat → α) (i : Nat) (v w : α) :
    store (store a i v) i w = store a i w := by
  funext j
  simp only [store]
  split <;> rfl

theorem store_self {α : Type} (a : Nat → α) (i : Nat) : store a i (a i) = a := by
  funext j
  simp only [store]
  split
  · next h => rw [h]
  · rfl

theorem replace_scan_eq (P : ShiftModel) (v a t s : Nat) (n i : Nat) (c : Cache) :
    replace_scan P v a t s n i c =
      { c with
        sets := store c.sets s
          { lines := replaceLines (c.sets s).lines v
              (freshLine t (address_to_block P a c) (c.sets s).lru_clock) i (i + n),
            lru_clock := (c.sets s).lru_clock } } := by
  induction n generalizing i c with
  | zero =>
    simp only [replace_scan]
    have : replaceLines (c.sets s).lines v
        (freshLine t (address_to_block P a c) (c.sets s).lru_clock) i (i + 0) = (c.sets s).lines := by
      funext j
      simp only [replaceLines]
      rw [if_neg]
      omega
    rw [this]
    have h2 : store c.sets s { lines := (c.sets s).lines, lru_clock := (c.sets s).lru_clock }
        = c.sets := store_self c.sets s
    rw [h2]
  | succ n ih =>
    unfold replace_scan
    rw [ih]
    have key : ∀ (L L2 : Nat → Line), L = L2 →
        ({ c with sets := store c.sets s { lines := L, lru_clock := (c.sets s).lru_clock } } : Cache)
          = { c with sets := store c.sets s { lines := L2, lru_clock := (c.sets s).lru_clock } } := by
      intro L L2 h
      rw [h]
    by_cases hb : ((c.sets s).lines i).block_addr = v
    · simp only [hb, if_true, Cache.setLine, store_same, store_store]
      apply key
      funext j
      show replaceLines _ v (freshLine t (address_to_block P a c) (c.sets s).lru_clock) _ _ j = _
      simp only [replaceLines, store]
      by_cases hj : j = i
      · subst hj
        simp [hb, freshLine]
      · simp only [hj, if_false]
        by_cases hc : (((c.sets s).lines j).block_addr = v)
        · have e1 : (i + 1 ≤ j ∧ j < i + 1 + n ∧ True) ↔ (i ≤ j ∧ j < i + (n + 1) ∧ True) := by
            constructor <;> intro h <;> refine ⟨by omega, by omega, trivial⟩
          simp only [hc, e1]
        · simp [hc]
    · simp only [hb, if_false]
      apply key
      funext j
      simp only [replaceLines]
      by_cases hj : j = i
      · subst hj
        simp [hb]
      · have e1 : (i + 1 ≤ j ∧ j < i + 1 + n ∧ ((c.sets s).lines j).block_addr = v) ↔
            (i ≤ j ∧ j < i + (n + 1) ∧ ((c.sets s).lines j).block_addr = v) := by
          constructor <;> intro h <;> refine ⟨by omega, by omega, h.2.2⟩
        simp only [e1]

theorem victim_scan_lines (lfu : Int) (S S2 : CacheSet) (h : S2.lines = S.lines) (n i : Nat)
    (acc : VictimAcc) : victim_scan lfu S2 n i acc = victim_scan lfu S n i acc := by
  induction n generalizing i acc with
  | zero => rfl
  | succ n ih => simp only [victim_scan, h, ih]

theorem cache_set_eq (P : ShiftModel) (a : Nat) (c : Cache) :
    cache_set P a c = setIdx P c.blockBits c.setBits a := rfl

theorem cache_tag_eq (P : ShiftModel) (a : Nat) (c : Cache) :
    cache_tag P a c = tagOf P c.blockBits c.setBits a := rfl

theorem address_to_block_eq (P : ShiftModel) (a : Nat) (c : Cache) :
    address_to_block P a c = blockOf P c.blockBits a := rfl

theorem setClock_sets_same (c : Cache) (s v : Nat) :
    (c.setClock s v).sets s = { lines := (c.sets s).lines, lru_clock := v } := by
  simp [Cache.setClock]

theorem probe_cache_setClock (P : ShiftModel) (a : Nat) (c : Cache) (v : Nat) :
    probe_cache P a (c.setClock (cache_set P a c) v) = probe_cache P a c := by
  have h : ∀ (S S2 : CacheSet) (t n i : Nat), S2.lines = S.lines →
      probe_scan S2 t n i = probe_scan S t n i := by
    intro S S2 t n
    induction n with
    | zero => intros; rfl
    | succ n ih =>
      intro i hl
      simp only [probe_scan, hl, ih (i + 1) hl]
  show probe_scan ((c.setClock (cache_set P a c) v).sets (cache_set P a c)) (cache_tag P a c)
      c.linesPerSet 0 = probe_scan (c.sets (cache_set P a c)) (cache_tag P a c) c.linesPerSet 0
  apply h
  rw [setClock_sets_same]

theorem probe_cache_eq_true_iff (P : ShiftModel) (a : Nat) (c : Cache) :
    probe_cache P a c = true ↔
      ∃ j, j < c.linesPerSet ∧
        ((c.sets (cache_set P a c)).lines j).holds (cache_tag P a c) = true := by
  unfold probe_cache
  simp only [probe_scan_eq_true_iff]
  constructor
  · rintro ⟨j, _, h2, h3⟩
    exact ⟨j, by omega, h3⟩
  · rintro ⟨j, h2, h3⟩
    exact ⟨j, Nat.zero_le _, by omega, h3⟩

theorem probe_cache_eq_false_iff (P : ShiftModel) (a : Nat) (c : Cache) :
    probe_cache P a c = false ↔
      ∀ j, j < c.linesPerSet →
        ((c.sets (cache_set P a c)).lines j).holds (cache_tag P a c) = false := by
  rw [← Bool.not_eq_true, probe_cache_eq_true_iff]
  constructor
  · intro h j hj
    rw [← Bool.not_eq_true]
    intro hh
    exact h ⟨j, hj, hh⟩
  · rintro h ⟨j, hj, hh⟩
    rw [h j hj] at hh
    exact Bool.false_ne_true hh

theorem operateCache_hit (P : ShiftModel) (a : Nat) (c : Cache) (j0 : Nat)
    (hj0 : j0 < c.linesPerSet)
    (hm : ((c.sets (cache_set P a c)).lines j0).holds (cache_tag P a c) = true)
    (hfirst : ∀ j, j < j0 →
      ((c.sets (cache_set P a c)).lines j).holds (cache_tag P a c) = false) :
    operateCache P a c =
      ({ status := Status.CACHE_HIT, victim_block_addr := 0, insert_block_addr := 0 },
        hitState c (cache_set P a c) j0) := by
  have hp : probe_cache P a (c.setClock (cache_set P a c)
      (inc64 (c.sets (cache_set P a c)).lru_clock)) = true := by
    rw [probe_cache_setClock, probe_cache_eq_true_iff]
    exact ⟨j0, hj0, hm⟩
  unfold operateCache
  simp only [hp, if_true]
  have hh : hit_cacheline P a (c.setClock (cache_set P a c)
      (inc64 (c.sets (cache_set P a c)).lru_clock)) = _ :=
    hit_scan_first (c.setClock (cache_set P a c) (inc64 (c.sets (cache_set P a c)).lru_clock))
      (cache_set P a c) (cache_tag P a c) c.linesPerSet 0 j0 (Nat.zero_le _) (by omega)
      (by rw [setClock_sets_same]; exact hm)
      (by intro j _ hj; rw [setClock_sets_same]; exact hfirst j hj)
  rw [hh]
  simp only [Cache.setLine, Cache.setClock, store_same, store_store, hitState]

theorem operateCache_miss (P : ShiftModel) (a : Nat) (c : Cache) (j0 : Nat)
    (hj0 : j0 < c.linesPerSet)
    (hp : probe_cache P a c = false)
    (hm : ((c.sets (cache_set P a c)).lines j0).valid = false)
    (hfirst : ∀ j, j < j0 → ((c.sets (cache_set P a c)).lines j).valid = true) :
    operateCache P a c =
      ({ status := Status.CACHE_MISS, victim_block_addr := 0,
         insert_block_addr := address_to_block P a c },
        missState c (cache_set P a c) j0 (cache_tag P a c) (address_to_block P a c)) := by
  have hp2 : probe_cache P a (c.setClock (cache_set P a c)
      (inc64 (c.sets (cache_set P a c)).lru_clock)) = false := by
    rw [probe_cache_setClock, hp]
  unfold operateCache
  simp only [hp2, Bool.false_eq_true, if_false]
  have hh : insert_cacheline P a (c.setClock (cache_set P a c)
      (inc64 (c.sets (cache_set P a c)).lru_clock)) = _ :=
    insert_scan_first P a (c.setClock (cache_set P a c) (inc64 (c.sets (cache_set P a c)).lru_clock))
      (cache_set P a c) c.linesPerSet 0 j0 (Nat.zero_le _) (by omega)
      (by rw [setClock_sets_same]; exact hm)
      (by intro j _ hj; rw [setClock_sets_same]; exact hfirst j hj)
  rw [hh]
  simp only [Cache.setLine, Cache.setClock, store_same, store_store, missState, cache_set_eq,
    cache_tag_eq, address_to_block_eq]

theorem operateCache_evict (P : ShiftModel) (a : Nat) (c : Cache)
    (hp : probe_cache P a c = false)
    (hall : ∀ j, j < c.linesPerSet → ((c.sets (cache_set P a c)).lines j).valid = true) :
    operateCache P a c =
      ({ status := Status.CACHE_EVICT, victim_block_addr := victim_cacheline P a c,
         insert_block_addr := address_to_block P a c },
        evictState c (cache_set P a c) (victim_cacheline P a c) (cache_tag P a c)
          (address_to_block P a c)) := by
  have hp2 : probe_cache P a (c.setClock (cache_set P a c)
      (inc64 (c.sets (cache_set P a c)).lru_clock)) = false := by
    rw [probe_cache_setClock, hp]
  unfold operateCache
  simp only [hp2, Bool.false_eq_true, if_false]
  have hh : insert_cacheline P a (c.setClock (cache_set P a c)
      (inc64 (c.sets (cache_set P a c)).lru_clock)) = _ :=
    insert_scan_full P a (c.setClock (cache_set P a c) (inc64 (c.sets (cache_set P a c)).lru_clock))
      (cache_set P a c) c.linesPerSet 0
      (by intro j _ hj; rw [setClock_sets_same]; exact hall j (by omega))
  rw [hh]
  have hv : victim_cacheline P a (c.setClock (cache_set P a c)
      (inc64 (c.sets (cache_set P a c)).lru_clock)) = victim_cacheline P a c := by
    show (victim_scan c.lfu ((c.setClock (cache_set P a c) _).sets (cache_set P a c))
      c.linesPerSet 0 _).vict_add = _
    rw [victim_scan_lines c.lfu (c.sets (cache_set P a c)) _ (by rw [setClock_sets_same])]
    rfl
  simp only [hv]
  unfold replace_cacheline
  rw [replace_scan_eq]
  simp only [Cache.setClock, store_same, store_store, evictState, Nat.zero_add, cache_set_eq,
    cache_tag_eq, address_to_block_eq]

theorem exists_first (p : Nat → Bool) (n : Nat) (h : ∃ j, j < n ∧ p j = true) :
    ∃ j0, j0 < n ∧ p j0 = true ∧ ∀ j, j < j0 → p j = false := by
  classical
  refine ⟨Nat.find h, (Nat.find_spec h).1, (Nat.find_spec h).2, ?_⟩
  intro j hj
  have hmin := Nat.find_min h hj
  rw [← Bool.not_eq_true]
  intro hp
  exact hmin ⟨lt_trans hj (Nat.find_spec h).1, hp⟩

/-- The three ways an access can go, each with the result and the state it produces. -/
theorem operateCache_cases (P : ShiftModel) (a : Nat) (c : Cache) :
    (probe_cache P a c = true ∧ ∃ j0, j0 < c.linesPerSet ∧
        ((c.sets (cache_set P a c)).lines j0).holds (cache_tag P a c) = true ∧
        (∀ j, j < j0 → ((c.sets (cache_set P a c)).lines j).holds (cache_tag P a c) = false) ∧
        operateCache P a c =
          ({ status := Status.CACHE_HIT, victim_block_addr := 0, insert_block_addr := 0 },
            hitState c (cache_set P a c) j0)) ∨
    (probe_cache P a c = false ∧ ∃ j0, j0 < c.linesPerSet ∧
        ((c.sets (cache_set P a c)).lines j0).valid = false ∧
        (∀ j, j < j0 → ((c.sets (cache_set P a c)).lines j).valid = true) ∧
        operateCache P a c =
          ({ status := Status.CACHE_MISS, victim_block_addr := 0,
             insert_block_addr := address_to_block P a c },
            missState c (cache_set P a c) j0 (cache_tag P a c) (address_to_block P a c))) ∨
    (probe_cache P a c = false ∧
        (∀ j, j < c.linesPerSet → ((c.sets (cache_set P a c)).lines j).valid = true) ∧
        operateCache P a c =
          ({ status := Status.CACHE_EVICT, victim_block_addr := victim_cacheline P a c,
             insert_block_addr := address_to_block P a c },
            evictState c (cache_set P a c) (victim_cacheline P a c) (cache_tag P a c)
              (address_to_block P a c))) := by
  by_cases hp : probe_cache P a c = true
  · left
    refine ⟨hp, ?_⟩
    obtain ⟨j0, h1, h2, h3⟩ := exists_first
      (fun j => ((c.sets (cache_set P a c)).lines j).holds (cache_tag P a c)) c.linesPerSet
      ((probe_cache_eq_true_iff P a c).1 hp)
    exact ⟨j0, h1, h2, h3, operateCache_hit P a c j0 h1 h2 h3⟩
  · right
    have hp2 : probe_cache P a c = false := by
      rw [← Bool.not_eq_true]; exact hp
    by_cases hinv : ∃ j, j < c.linesPerSet ∧
        (!((c.sets (cache_set P a c)).lines j).valid) = true
    · left
      refine ⟨hp2, ?_⟩
      obtain ⟨j0, h1, h2, h3⟩ := exists_first
        (fun j => !((c.sets (cache_set P a c)).lines j).valid) c.linesPerSet hinv
      refine ⟨j0, h1, by simpa using h2, fun j hj => by simpa using h3 j hj, ?_⟩
      exact operateCache_miss P a c j0 h1 hp2 (by simpa using h2)
        (fun j hj => by simpa using h3 j hj)
    · right
      have hall : ∀ j, j < c.linesPerSet →
          ((c.sets (cache_set P a c)).lines j).valid = true := by
        intro j hj
        by_contra hv
        exact hinv ⟨j, hj, by simpa using hv⟩
      exact ⟨hp2, hall, operateCache_evict P a c hp2 hall⟩

/-- The status and the counters after one access: a hit increments `hit_count`, a miss
`miss_count`, an eviction `miss_count` and `eviction_count`, each as an `int`. -/
theorem operateCache_counters (P : ShiftModel) (a : Nat) (c : Cache) :
    ((operateCache P a c).1.status = Status.CACHE_HIT ∧
        (operateCache P a c).2.hit_count = inc32 c.hit_count ∧
        (operateCache P a c).2.miss_count = c.miss_count ∧
        (operateCache P a c).2.eviction_count = c.eviction_count) ∨
    ((operateCache P a c).1.status = Status.CACHE_MISS ∧
        (operateCache P a c).2.hit_count = c.hit_count ∧
        (operateCache P a c).2.miss_count = inc32 c.miss_count ∧
        (operateCache P a c).2.eviction_count = c.eviction_count) ∨
    ((operateCache P a c).1.status = Status.CACHE_EVICT ∧
        (operateCache P a c).2.hit_count = c.hit_count ∧
        (operateCache P a c).2.miss_count = inc32 c.miss_count ∧
        (operateCache P a c).2.eviction_count = inc32 c.eviction_count) := by
  rcases operateCache_cases P a c with ⟨_, j0, _, _, _, h⟩ | ⟨_, j0, _, _, _, h⟩ | ⟨_, _, h⟩
  · left; rw [h]; exact ⟨rfl, rfl, rfl, rfl⟩
  · right; left; rw [h]; exact ⟨rfl, rfl, rfl, rfl⟩
  · right; right; rw [h]; exact ⟨rfl, rfl, rfl, rfl⟩

theorem countStatus_nil (st : Status) : countStatus st [] = 0 := rfl

theorem countStatus_cons (st : Status) (r : result) (rs : List result) :
    countStatus st (r :: rs) = (if r.status = st then 1 else 0) + countStatus st rs := by
  unfold countStatus
  by_cases h : r.status = st
  · simp [List.filter_cons, h]; omega
  · simp [List.filter_cons, h]

/-- Every result of a trace has exactly one of the three statuses. -/
theorem countStatus_total (P : ShiftModel) (addrs : List Nat) (c : Cache) :
    countStatus Status.CACHE_HIT (traceResults P addrs c) +
      countStatus Status.CACHE_MISS (traceResults P addrs c) +
      countStatus Status.CACHE_EVICT (traceResults P addrs c) = addrs.length := by
  induction addrs generalizing c with
  | nil => rfl
  | cons a rest ih =>
    have h := ih (operateCache P a c).2
    simp only [traceResults, countStatus_cons, List.length_cons]
    rcases operateCache_counters P a c with ⟨hs, _⟩ | ⟨hs, _⟩ | ⟨hs, _⟩ <;>
      simp [hs] <;> omega

/-- The counters after a trace, as long as none of them passes `INT_MAX = 2 ^ 31 - 1`:
each grows by the number of results that increment it. -/
theorem runTrace_counters (P : ShiftModel) (addrs : List Nat) :
    ∀ c : Cache,
      (-2 ^ 31 ≤ c.hit_count ∧ -2 ^ 31 ≤ c.miss_count ∧ -2 ^ 31 ≤ c.eviction_count) →
      c.hit_count + countStatus Status.CACHE_HIT (traceResults P addrs c) ≤ 2 ^ 31 - 1 →
      c.miss_count + countStatus Status.CACHE_MISS (traceResults P addrs c) +
        countStatus Status.CACHE_EVICT (traceResults P addrs c) ≤ 2 ^ 31 - 1 →
      c.eviction_count + countStatus Status.CACHE_EVICT (traceResults P addrs c) ≤
        2 ^ 31 - 1 →
      (runTrace P addrs c).hit_count =
          c.hit_count + countStatus Status.CACHE_HIT (traceResults P addrs c) ∧
        (runTrace P addrs c).miss_count =
          c.miss_count + countStatus Status.CACHE_MISS (traceResults P addrs c) +
            countStatus Status.CACHE_EVICT (traceResults P addrs c) ∧
        (runTrace P addrs c).eviction_count =
          c.eviction_count + countStatus Status.CACHE_EVICT (traceResults P addrs c) := by
  induction addrs with
  | nil => intro c _ _ _ _; simp [runTrace, traceResults, countStatus_nil]
  | cons a rest ih =>
    intro c hr hH hM hE
    simp only [traceResults, countStatus_cons] at hH hM hE
    simp only [runTrace, traceResults, countStatus_cons]
    have hH0 := Int.ofNat_nonneg (countStatus Status.CACHE_HIT
      (traceResults P rest (operateCache P a c).2))
    have hM0 := Int.ofNat_nonneg (countStatus Status.CACHE_MISS
      (traceResults P rest (operateCache P a c).2))
    have hE0 := Int.ofNat_nonneg (countStatus Status.CACHE_EVICT
      (traceResults P rest (operateCache P a c).2))
    rcases operateCache_counters P a c with ⟨hs, h1, h2, h3⟩ | ⟨hs, h1, h2, h3⟩ |
      ⟨hs, h1, h2, h3⟩
    · simp only [hs, if_true, reduceCtorEq, if_false, Nat.zero_add] at hH hM hE ⊢
      push_cast at hH hM hE ⊢
      have e1 : inc32 c.hit_count = c.hit_count + 1 := inc32_eq _ ⟨hr.1, by omega⟩
      have := ih (operateCache P a c).2 (by rw [h1, h2, h3, e1]; omega)
        (by rw [h1, e1]; omega) (by rw [h2]; omega) (by rw [h3]; omega)
      rw [h1, h2, h3, e1] at this
      omega
    · simp only [hs, if_true, reduceCtorEq, if_false, Nat.zero_add] at hH hM hE ⊢
      push_cast at hH hM hE ⊢
      have e1 : inc32 c.miss_count = c.miss_count + 1 := inc32_eq _ ⟨hr.2.1, by omega⟩
      have := ih (operateCache P a c).2 (by rw [h1, h2, h3, e1]; omega)
        (by rw [h1]; omega) (by rw [h2, e1]; omega) (by rw [h3]; omega)
      rw [h1, h2, h3, e1] at this
      omega
    · simp only [hs, if_true, reduceCtorEq, if_false, Nat.zero_add] at hH hM hE ⊢
      push_cast at hH hM hE ⊢
      have e1 : inc32 c.miss_count = c.miss_count + 1 := inc32_eq _ ⟨hr.2.1, by omega⟩
      have e2 : inc32 c.eviction_count = c.eviction_count + 1 :=
        inc32_eq _ ⟨hr.2.2, by omega⟩
      have := ih (operateCache P a c).2 (by rw [h1, h2, h3, e1, e2]; omega)
        (by rw [h1]; omega) (by rw [h2, e1]; omega) (by rw [h3, e2]; omega)
      rw [h1, h2, h3, e1, e2] at this
      omega

/-- C6 (amended). Counter bookkeeping within the range of `int`: on an engine whose three
counters start at zero, after a trace of `n` accesses in which at most `2 ^ 31 - 1`
accesses hit and at most `2 ^ 31 - 1` accesses miss (with or without eviction),
`hit_count + miss_count = n` and `eviction_count ≤ miss_count`; and a single access whose
counters are `int` values below `INT_MAX = 2 ^ 31 - 1` adds one to `hit_count` and leaves
the other two on a hit, adds one to `miss_count` and leaves the other two on a miss, and
adds one to `miss_count` and to `eviction_count` and leaves `hit_count` on an eviction, so
no counter decreases.  This holds for every geometry, policy and shift behaviour. -/
theorem C6_counter_bookkeeping (P : ShiftModel) (c : Cache) (addrs : List Nat)
    (hh : c.hit_count = 0) (hm : c.miss_count = 0) (he : c.eviction_count = 0)
    (hH : countStatus Status.CACHE_HIT (traceResults P addrs c) ≤ 2 ^ 31 - 1)
    (hM : countStatus Status.CACHE_MISS (traceResults P addrs c) +
      countStatus Status.CACHE_EVICT (traceResults P addrs c) ≤ 2 ^ 31 - 1) :
    ((runTrace P addrs c).hit_count + (runTrace P addrs c).miss_count = addrs.length ∧
      (runTrace P addrs c).eviction_count ≤ (runTrace P addrs c).miss_count) ∧
    (∀ (a : Nat) (s : Cache),
      ((operateCache P a s).1.status = Status.CACHE_HIT →
        -2 ^ 31 ≤ s.hit_count ∧ s.hit_count < 2 ^ 31 - 1 →
        (operateCache P a s).2.hit_count = s.hit_count + 1 ∧
          (operateCache P a s).2.miss_count = s.miss_count ∧
          (operateCache P a s).2.eviction_count = s.eviction_count) ∧
      ((operateCache P a s).1.status = Status.CACHE_MISS →
        -2 ^ 31 ≤ s.miss_count ∧ s.miss_count < 2 ^ 31 - 1 →
        (operateCache P a s).2.hit_count = s.hit_count ∧
          (operateCache P a s).2.miss_count = s.miss_count + 1 ∧
          (operateCache P a s).2.eviction_count = s.eviction_count) ∧
      ((operateCache P a s).1.status = Status.CACHE_EVICT →
        -2 ^ 31 ≤ s.miss_count ∧ s.miss_count < 2 ^ 31 - 1 →
        -2 ^ 31 ≤ s.eviction_count ∧ s.eviction_count < 2 ^ 31 - 1 →
        (operateCache P a s).2.hit_count = s.hit_count ∧
          (operateCache P a s).2.miss_count = s.miss_count + 1 ∧
          (operateCache P a s).2.eviction_count = s.eviction_count + 1)) := by
  refine ⟨?_, ?_⟩
  · have ht := countStatus_total P addrs c
    have h := runTrace_counters P addrs c (by rw [hh, hm, he]; decide)
      (by rw [hh]; omega) (by rw [hm]; omega) (by rw [he]; omega)
    rw [hh, hm, he] at h
    omega
  · intro a s
    rcases operateCache_counters P a s with ⟨hs, h1, h2, h3⟩ | ⟨hs, h1, h2, h3⟩ |
      ⟨hs, h1, h2, h3⟩
    · refine ⟨fun _ hr => ⟨by rw [h1, inc32_eq _ hr], h2, h3⟩, ?_, ?_⟩ <;>
        (intro h; rw [hs] at h; exact absurd h (by decide))
    · refine ⟨?_, fun _ hr => ⟨h1, by rw [h2, inc32_eq _ hr], h3⟩, ?_⟩ <;>
        (intro h; rw [hs] at h; exact absurd h (by decide))
    · refine ⟨?_, ?_, fun _ hr hr2 =>
        ⟨h1, by rw [h2, inc32_eq _ hr], by rw [h3, inc32_eq _ hr2]⟩⟩ <;>
        (intro h; rw [hs] at h; exact absurd h (by decide))

/-- Witness for C6: a three-access trace on a set-up cache with zeroed counters, and its
first access, a miss that adds one to `miss_count`. -/
theorem C6_counter_bookkeeping_witness :
    ((cacheSetUp (blank 2 1 1 0)).hit_count = 0 ∧
      countStatus Status.CACHE_HIT
        (traceResults hwShift [0, 4, 0] (cacheSetUp (blank 2 1 1 0))) ≤ 2 ^ 31 - 1) ∧
    ((runTrace hwShift [0, 4, 0] (cacheSetUp (blank 2 1 1 0))).hit_count +
        (runTrace hwShift [0, 4, 0] (cacheSetUp (blank 2 1 1 0))).miss_count
          = ([0, 4, 0] : List Nat).length ∧
      (runTrace hwShift [0, 4, 0] (cacheSetUp (blank 2 1 1 0))).eviction_count ≤
        (runTrace hwShift [0, 4, 0] (cacheSetUp (blank 2 1 1 0))).miss_count) ∧
    ((operateCache hwShift 0 (cacheSetUp (blank 2 1 1 0))).2.miss_count =
      (cacheSetUp (blank 2 1 1 0)).miss_count + 1) :=
  ⟨⟨by decide, by decide⟩,
    (C6_counter_bookkeeping hwShift (cacheSetUp (blank 2 1 1 0)) [0, 4, 0]
      (by decide) (by decide) (by decide) (by decide) (by decide)).1,
    (((C6_counter_bookkeeping hwShift (cacheSetUp (blank 2 1 1 0)) [0, 4, 0]
      (by decide) (by decide) (by decide) (by decide) (by decide)).2 0
        (cacheSetUp (blank 2 1 1 0))).2.1 (by decide) (by decide)).2.1⟩

theorem holds_iff (l : Line) (t : Nat) : l.holds t = true ↔ l.valid = true ∧ l.tag = t := by
  simp [Line.holds]

/-- C8. Outcome classification: the status of an access is decided by the set of the
address before the call.  It is HIT exactly when some line of the set is valid with the
tag of the address (exactly when `probe_cache` is true); MISS exactly when no such line
exists and some line of the set is invalid; EVICT exactly when no such line exists and
every line of the set is valid.  On HIT both reported addresses are 0; otherwise
`insert_block_addr` is the block address of the address. -/
theorem C8_outcome_classification (P : ShiftModel) (a : Nat) (c : Cache) :
    ((operateCache P a c).1.status = Status.CACHE_HIT ↔
        ∃ j, j < c.linesPerSet ∧ ((c.sets (cache_set P a c)).lines j).valid = true ∧
          ((c.sets (cache_set P a c)).lines j).tag = cache_tag P a c) ∧
    ((operateCache P a c).1.status = Status.CACHE_HIT ↔ probe_cache P a c = true) ∧
    ((operateCache P a c).1.status = Status.CACHE_MISS ↔
        (¬ ∃ j, j < c.linesPerSet ∧ ((c.sets (cache_set P a c)).lines j).valid = true ∧
          ((c.sets (cache_set P a c)).lines j).tag = cache_tag P a c) ∧
        ∃ j, j < c.linesPerSet ∧ ((c.sets (cache_set P a c)).lines j).valid = false) ∧
    ((operateCache P a c).1.status = Status.CACHE_EVICT ↔
        (¬ ∃ j, j < c.linesPerSet ∧ ((c.sets (cache_set P a c)).lines j).valid = true ∧
          ((c.sets (cache_set P a c)).lines j).tag = cache_tag P a c) ∧
        ∀ j, j < c.linesPerSet → ((c.sets (cache_set P a c)).lines j).valid = true) ∧
    ((operateCache P a c).1.status = Status.CACHE_HIT →
        (operateCache P a c).1.victim_block_addr = 0 ∧
        (operateCache P a c).1.insert_block_addr = 0) ∧
    ((operateCache P a c).1.status ≠ Status.CACHE_HIT →
        (operateCache P a c).1.insert_block_addr = address_to_block P a c) := by
  have hpe : probe_cache P a c = true ↔
      ∃ j, j < c.linesPerSet ∧ ((c.sets (cache_set P a c)).lines j).valid = true ∧
        ((c.sets (cache_set P a c)).lines j).tag = cache_tag P a c := by
    rw [probe_cache_eq_true_iff]
    simp only [holds_iff]
  rcases operateCache_cases P a c with ⟨hp, j0, _, _, _, h⟩ | ⟨hp, j0, hj0, hv, _, h⟩ |
    ⟨hp, hall, h⟩
  · have hex := hpe.1 hp
    rw [h]
    simp [hp, hex]
  · have hnex : ¬ ∃ j, j < c.linesPerSet ∧ ((c.sets (cache_set P a c)).lines j).valid = true ∧
        ((c.sets (cache_set P a c)).lines j).tag = cache_tag P a c := by
      rw [← hpe, hp]; exact Bool.false_ne_true
    have hnall : ¬ ∀ j, j < c.linesPerSet →
        ((c.sets (cache_set P a c)).lines j).valid = true := by
      intro hall
      rw [hall j0 hj0] at hv
      exact Bool.noConfusion hv
    rw [h]
    refine ⟨?_, ?_, ?_, ?_, ?_, ?_⟩
    · simp only [reduceCtorEq, false_iff]; exact hnex
    · simp [hp]
    · simp only [true_iff]; exact ⟨hnex, j0, hj0, hv⟩
    · simp only [reduceCtorEq, false_iff]; exact fun hh => hnall hh.2
    · intro hh; exact Status.noConfusion hh
    · intro _; rfl
  · have hnex : ¬ ∃ j, j < c.linesPerSet ∧ ((c.sets (cache_set P a c)).lines j).valid = true ∧
        ((c.sets (cache_set P a c)).lines j).tag = cache_tag P a c := by
      rw [← hpe, hp]; exact Bool.false_ne_true
    have hninv : ¬ ∃ j, j < c.linesPerSet ∧
        ((c.sets (cache_set P a c)).lines j).valid = false := by
      rintro ⟨j, hj, hv⟩
      rw [hall j hj] at hv
      exact Bool.noConfusion hv
    rw [h]
    refine ⟨?_, ?_, ?_, ?_, ?_, ?_⟩
    · simp only [reduceCtorEq, false_iff]; exact hnex
    · simp [hp]
    · simp only [reduceCtorEq, false_iff]; exact fun hh => hninv hh.2
    · simp only [true_iff]; exact ⟨hnex, hall⟩
    · intro hh; exact Status.noConfusion hh
    · intro _; rfl

theorem victim_step_lru (acc : VictimAcc) (l : Line) :
    victim_step 0 acc l =
      if l.lru_clock < acc.minLru then
        { vict_add := l.block_addr, minLru := l.lru_clock, minaccess := l.access_counter }
      else acc := by
  simp [victim_step]

theorem victim_step_lfu (acc : VictimAcc) (l : Line) :
    victim_step 1 acc l =
      if l.access_counter < acc.minaccess then
        { vict_add := l.block_addr, minLru := l.lru_clock, minaccess := l.access_counter }
      else if l.access_counter = acc.minaccess ∧ l.lru_clock < acc.minLru then
        { acc with vict_add := l.block_addr, minLru := l.lru_clock }
      else acc := by
  unfold victim_step
  by_cases h1 : l.access_counter < acc.minaccess
  · simp [h1]
  · by_cases h2 : l.access_counter = acc.minaccess
    · by_cases h3 : l.lru_clock < acc.minLru
      · simp [h2, h3]
      · simp [h2, h3]
    · simp [h1, h2]

/-- The LRU scan keeps the first line of least timestamp among those seen. -/
theorem lru_scan_spec (S : CacheSet) (n i : Nat) (acc : VictimAcc) (j0 : Nat) (hj0 : j0 < i)
    (hv : acc.vict_add = (S.lines j0).block_addr) (hm : acc.minLru = (S.lines j0).lru_clock)
    (hmin : ∀ j, j < i → (S.lines j0).lru_clock ≤ (S.lines j).lru_clock)
    (hfirst : ∀ j, j < j0 → (S.lines j0).lru_clock < (S.lines j).lru_clock) :
    ∃ j1, j1 < i + n ∧ (victim_scan 0 S n i acc).vict_add = (S.lines j1).block_addr ∧
      (∀ j, j < i + n → (S.lines j1).lru_clock ≤ (S.lines j).lru_clock) ∧
      (∀ j, j < j1 → (S.lines j1).lru_clock < (S.lines j).lru_clock) := by
  induction n generalizing i acc j0 with
  | zero => exact ⟨j0, by omega, hv, hmin, hfirst⟩
  | succ n ih =>
    unfold victim_scan
    rw [victim_step_lru]
    by_cases hlt : (S.lines i).lru_clock < acc.minLru
    · rw [if_pos hlt]
      rw [hm] at hlt
      obtain ⟨j1, h1, h2, h3, h4⟩ := ih (i + 1)
        { vict_add := (S.lines i).block_addr, minLru := (S.lines i).lru_clock,
          minaccess := (S.lines i).access_counter } i (by omega) rfl rfl
        (by
          intro j hj
          by_cases hji : j = i
          · rw [hji]
          · have := hmin j (by omega); omega)
        (by
          intro j hj
          have := hmin j (by omega); omega)
      exact ⟨j1, by omega, h2, fun j hj => h3 j (by omega), h4⟩
    · rw [if_neg hlt]
      rw [hm] at hlt
      obtain ⟨j1, h1, h2, h3, h4⟩ := ih (i + 1) acc j0 (by omega) hv hm
        (by
          intro j hj
          by_cases hji : j = i
          · rw [hji]; omega
          · exact hmin j (by omega))
        hfirst
      exact ⟨j1, by omega, h2, fun j hj => h3 j (by omega), h4⟩

/-- The LFU scan keeps the first line of least `(access_counter, lru_clock)` seen. -/
theorem lfu_scan_spec (S : CacheSet) (n i : Nat) (acc : VictimAcc) (j0 : Nat) (hj0 : j0 < i)
    (hv : acc.vict_add = (S.lines j0).block_addr) (hm : acc.minLru = (S.lines j0).lru_clock)
    (ha : acc.minaccess = (S.lines j0).access_counter)
    (hmin : ∀ j, j < i → (S.lines j0).access_counter < (S.lines j).access_counter ∨
      ((S.lines j0).access_counter = (S.lines j).access_counter ∧
        (S.lines j0).lru_clock ≤ (S.lines j).lru_clock))
    (hfirst : ∀ j, j < j0 → (S.lines j0).access_counter < (S.lines j).access_counter ∨
      ((S.lines j0).access_counter = (S.lines j).access_counter ∧
        (S.lines j0).lru_clock < (S.lines j).lru_clock)) :
    ∃ j1, j1 < i + n ∧ (victim_scan 1 S n i acc).vict_add = (S.lines j1).block_addr ∧
      (∀ j, j < i + n → (S.lines j1).access_counter < (S.lines j).access_counter ∨
        ((S.lines j1).access_counter = (S.lines j).access_counter ∧
          (S.lines j1).lru_clock ≤ (S.lines j).lru_clock)) ∧
      (∀ j, j < j1 → (S.lines j1).access_counter < (S.lines j).access_counter ∨
        ((S.lines j1).access_counter = (S.lines j).access_counter ∧
          (S.lines j1).lru_clock < (S.lines j).lru_clock)) := by
  induction n generalizing i acc j0 with
  | zero => exact ⟨j0, by omega, hv, hmin, hfirst⟩
  | succ n ih =>
    unfold victim_scan
    rw [victim_step_lfu]
    by_cases hlt : (S.lines i).access_counter < acc.minaccess
    · rw [if_pos hlt]
      rw [ha] at hlt
      obtain ⟨j1, h1, h2, h3, h4⟩ := ih (i + 1)
        { vict_add := (S.lines i).block_addr, minLru := (S.lines i).lru_clock,
          minaccess := (S.lines i).access_counter } i (by omega) rfl rfl rfl
        (by
          intro j hj
          by_cases hji : j = i
          · rw [hji]; right; exact ⟨rfl, le_refl _⟩
          · have := hmin j (by omega); omega)
        (by
          intro j hj
          have := hmin j (by omega); omega)
      exact ⟨j1, by omega, h2, fun j hj => h3 j (by omega), h4⟩
    · rw [if_neg hlt]
      by_cases htie : (S.lines i).access_counter = acc.minaccess ∧
          (S.lines i).lru_clock < acc.minLru
      · rw [if_pos htie]
        rw [ha, hm] at htie
        obtain ⟨j1, h1, h2, h3, h4⟩ := ih (i + 1)
          { acc with vict_add := (S.lines i).block_addr, minLru := (S.lines i).lru_clock }
          i (by omega) rfl rfl (by rw [htie.1]; exact ha)
          (by
            intro j hj
            by_cases hji : j = i
            · rw [hji]; right; exact ⟨rfl, le_refl _⟩
            · have := hmin j (by omega); omega)
          (by
            intro j hj
            have := hmin j (by omega); omega)
        exact ⟨j1, by omega, h2, fun j hj => h3 j (by omega), h4⟩
      · rw [if_neg htie]
        rw [ha] at hlt
        rw [ha, hm] at htie
        obtain ⟨j1, h1, h2, h3, h4⟩ := ih (i + 1) acc j0 (by omega) hv hm ha
          (by
            intro j hj
            by_cases hji : j = i
            · rw [hji]; omega
            · exact hmin j (by omega))
          hfirst
        exact ⟨j1, by omega, h2, fun j hj => h3 j (by omega), h4⟩

/-- LRU victim: with a first line whose timestamp is below the initial `minLru`, the scan
returns the block address of the first line of least timestamp. -/
theorem lru_victim_spec (P : ShiftModel) (a : Nat) (c : Cache) (hlfu : c.lfu = 0)
    (hn : 1 ≤ c.linesPerSet)
    (hb : ((c.sets (cache_set P a c)).lines 0).lru_clock < INT64_MAX) :
    ∃ j0, j0 < c.linesPerSet ∧
      victim_cacheline P a c = ((c.sets (cache_set P a c)).lines j0).block_addr ∧
      (∀ j, j < c.linesPerSet → ((c.sets (cache_set P a c)).lines j0).lru_clock ≤
        ((c.sets (cache_set P a c)).lines j).lru_clock) ∧
      (∀ j, j < j0 → ((c.sets (cache_set P a c)).lines j0).lru_clock <
        ((c.sets (cache_set P a c)).lines j).lru_clock) := by
  obtain ⟨n, hn2⟩ : ∃ n, c.linesPerSet = n + 1 := ⟨c.linesPerSet - 1, by omega⟩
  unfold victim_cacheline
  simp only [hn2, hlfu]
  unfold victim_scan
  rw [victim_step_lru]
  simp only [hb, if_true]
  have h := lru_scan_spec (c.sets (cache_set P a c)) n 1
    { vict_add := ((c.sets (cache_set P a c)).lines 0).block_addr,
      minLru := ((c.sets (cache_set P a c)).lines 0).lru_clock,
      minaccess := ((c.sets (cache_set P a c)).lines 0).access_counter } 0 (by omega) rfl rfl
    (by intro j hj; have : j = 0 := by omega
        rw [this])
    (by intro j hj; omega)
  obtain ⟨j1, h1, h2, h3, h4⟩ := h
  exact ⟨j1, by omega, h2, fun j hj => h3 j (by omega), h4⟩

/-- LFU victim: with a first line below the initial pair `(INT32_MAX, INT64_MAX)`, the scan
returns the block address of the first line of least `(access_counter, lru_clock)`. -/
theorem lfu_victim_spec (P : ShiftModel) (a : Nat) (c : Cache) (hlfu : c.lfu = 1)
    (hn : 1 ≤ c.linesPerSet)
    (ha : ((c.sets (cache_set P a c)).lines 0).access_counter ≤ INT32_MAX)
    (hb : ((c.sets (cache_set P a c)).lines 0).lru_clock < INT64_MAX) :
    ∃ j0, j0 < c.linesPerSet ∧
      victim_cacheline P a c = ((c.sets (cache_set P a c)).lines j0).block_addr ∧
      (∀ j, j < c.linesPerSet →
        ((c.sets (cache_set P a c)).lines j0).access_counter <
            ((c.sets (cache_set P a c)).lines j).access_counter ∨
        (((c.sets (cache_set P a c)).lines j0).access_counter =
            ((c.sets (cache_set P a c)).lines j).access_counter ∧
          ((c.sets (cache_set P a c)).lines j0).lru_clock ≤
            ((c.sets (cache_set P a c)).lines j).lru_clock)) ∧
      (∀ j, j < j0 →
        ((c.sets (cache_set P a c)).lines j0).access_counter <
            ((c.sets (cache_set P a c)).lines j).access_counter ∨
        (((c.sets (cache_set P a c)).lines j0).access_counter =
            ((c.sets (cache_set P a c)).lines j).access_counter ∧
          ((c.sets (cache_set P a c)).lines j0).lru_clock <
            ((c.sets (cache_set P a c)).lines j).lru_clock)) := by
  obtain ⟨n, hn2⟩ : ∃ n, c.linesPerSet = n + 1 := ⟨c.linesPerSet - 1, by omega⟩
  unfold victim_cacheline
  simp only [hn2, hlfu]
  unfold victim_scan
  have hstart : ∃ acc : VictimAcc,
      victim_step 1 { vict_add := 0, minLru := INT64_MAX, minaccess := INT32_MAX }
        ((c.sets (cache_set P a c)).lines 0) = acc ∧
      acc.vict_add = ((c.sets (cache_set P a c)).lines 0).block_addr ∧
      acc.minLru = ((c.sets (cache_set P a c)).lines 0).lru_clock ∧
      acc.minaccess = ((c.sets (cache_set P a c)).lines 0).access_counter := by
    rw [victim_step_lfu]
    by_cases h1 : ((c.sets (cache_set P a c)).lines 0).access_counter < INT32_MAX
    · simp only [h1, if_true]
      exact ⟨_, rfl, rfl, rfl, rfl⟩
    · have h2 : ((c.sets (cache_set P a c)).lines 0).access_counter = INT32_MAX := by omega
      simp only [h1, if_false, h2, hb, and_self, if_true]
      exact ⟨_, rfl, rfl, rfl, rfl⟩
  obtain ⟨acc, e, hv, hm, hac⟩ := hstart
  rw [e]
  have h := lfu_scan_spec (c.sets (cache_set P a c)) n 1 acc 0 (by omega) hv hm hac
    (by intro j hj; have : j = 0 := by omega
        rw [this]; right; exact ⟨rfl, le_refl _⟩)
    (by intro j hj; omega)
  obtain ⟨j1, h1, h2, h3, h4⟩ := h
  exact ⟨j1, by omega, h2, fun j hj => h3 j (by omega), h4⟩

/-! ## Address decomposition inside the defined range of the shifts -/

theorem shl64_one (P : ShiftModel) (n : Nat) (h : n < 64) : shl64 P 1 (n : Int) = 2 ^ n := by
  have h1 : (0 : Int) ≤ (n : Int) ∧ (n : Int) < 64 := ⟨by omega, by omega⟩
  unfold shl64
  rw [if_pos h1, Int.toNat_ofNat, Nat.one_mul]
  apply Nat.mod_eq_of_lt
  exact Nat.pow_lt_pow_right (by norm_num) h

theorem shr64_in (P : ShiftModel) (a n : Nat) (h : n < 64) : shr64 P a (n : Int) = a / 2 ^ n := by
  have h1 : (0 : Int) ≤ (n : Int) ∧ (n : Int) < 64 := ⟨by omega, by omega⟩
  unfold shr64
  rw [if_pos h1, Int.toNat_ofNat]

theorem sub64_pow_one (n : Nat) (h : n < 64) : sub64 (2 ^ n) 1 = 2 ^ n - 1 := by
  have hlt : 2 ^ n < 2 ^ 64 := Nat.pow_lt_pow_right (by norm_num) h
  have hpos : 0 < 2 ^ n := Nat.two_pow_pos _
  unfold sub64
  rw [Nat.mod_eq_of_lt hlt]
  have : (1 : Nat) % 2 ^ 64 = 1 := by norm_num
  rw [this]
  have e : 2 ^ n + (2 ^ 64 - 1) = (2 ^ n - 1) + 2 ^ 64 := by omega
  rw [e, Nat.add_mod_right]
  apply Nat.mod_eq_of_lt
  omega

theorem setIdx_eq (P : ShiftModel) (bb sb a : Nat) (hb : bb < 64) (hs : sb < 64) :
    setIdx P bb sb a = a / 2 ^ bb % 2 ^ sb := by
  unfold setIdx
  rw [shr64_in P a bb hb, shl64_one P sb hs, sub64_pow_one sb hs, Nat.and_pow_two_sub_one_eq_mod]

theorem tagOf_eq (P : ShiftModel) (bb sb a : Nat) (h1 : 1 ≤ bb + sb) (h2 : bb + sb ≤ 63) :
    tagOf P bb sb a = a / 2 ^ (bb + sb) % 2 ^ (64 - (bb + sb)) := by
  unfold tagOf
  have e1 : (64 : Int) - (64 - (bb : Int) - (sb : Int)) = ((bb + sb : Nat) : Int) := by
    push_cast; ring
  have e2 : (64 : Int) - (bb : Int) - (sb : Int) = ((64 - (bb + sb) : Nat) : Int) := by
    omega
  rw [e1, e2, shr64_in P a (bb + sb) (by omega), shl64_one P (64 - (bb + sb)) (by omega),
    sub64_pow_one (64 - (bb + sb)) (by omega), Nat.and_pow_two_sub_one_eq_mod]

theorem tagOf_eq_div (P : ShiftModel) (bb sb a : Nat) (h1 : 1 ≤ bb + sb) (h2 : bb + sb ≤ 63)
    (ha : a < 2 ^ 64) : tagOf P bb sb a = a / 2 ^ (bb + sb) := by
  rw [tagOf_eq P bb sb a h1 h2]
  apply Nat.mod_eq_of_lt
  rw [Nat.div_lt_iff_lt_mul (Nat.two_pow_pos _), ← Nat.pow_add]
  have : 64 - (bb + sb) + (bb + sb) = 64 := by omega
  rw [this]
  exact ha

theorem blockOf_eq (P : ShiftModel) (bb a : Nat) (hb : bb < 64) (ha : a < 2 ^ 64) :
    blockOf P bb a = a / 2 ^ bb * 2 ^ bb := by
  unfold blockOf
  rw [shl64_one P bb hb, sub64_pow_one bb hb]
  have hlt : 2 ^ bb < 2 ^ 64 := Nat.pow_lt_pow_right (by norm_num) hb
  have hpos : 0 < 2 ^ bb := Nat.two_pow_pos _
  unfold not64
  rw [Nat.mod_eq_of_lt (by omega : 2 ^ bb - 1 < 2 ^ 64)]
  have e : 2 ^ 64 - 1 - (2 ^ bb - 1) = 2 ^ 64 - ((2 ^ bb - 1) + 1) := by omega
  rw [e]
  apply Nat.eq_of_testBit_eq
  intro i
  rw [Nat.testBit_and, Nat.testBit_two_pow_sub_succ (by omega : 2 ^ bb - 1 < 2 ^ 64),
    Nat.testBit_two_pow_sub_one, ← Nat.shiftRight_eq_div_pow, ← Nat.shiftLeft_eq,
    Nat.testBit_shiftLeft, Nat.testBit_shiftRight]
  by_cases h1 : i < bb
  · have : ¬ i ≥ bb := by omega
    simp [h1, this]
  · have h2 : i ≥ bb := by omega
    have h3 : bb + (i - bb) = i := by omega
    by_cases h4 : i < 64
    · simp [h1, h2, h3, h4]
    · have h5 : a.testBit i = false := by
        apply Nat.testBit_lt_two_pow
        exact lt_of_lt_of_le ha (Nat.pow_le_pow_right (by norm_num) (by omega))
      simp [h1, h2, h3, h4, h5]

/-- In a cache whose bit counts keep every shift inside `0 .. 63`, the set index and the tag
of an address determine its block address. -/
theorem block_eq_of_set_tag_eq (P : ShiftModel) (bb sb a b : Nat) (h1 : 1 ≤ bb + sb)
    (h2 : bb + sb ≤ 63) (ha : a < 2 ^ 64) (hb : b < 2 ^ 64)
    (hs : setIdx P bb sb a = setIdx P bb sb b) (ht : tagOf P bb sb a = tagOf P bb sb b) :
    blockOf P bb a = blockOf P bb b := by
  rw [blockOf_eq P bb a (by omega) ha, blockOf_eq P bb b (by omega) hb]
  rw [setIdx_eq P bb sb a (by omega) (by omega), setIdx_eq P bb sb b (by omega) (by omega)] at hs
  rw [tagOf_eq_div P bb sb a h1 h2 ha, tagOf_eq_div P bb sb b h1 h2 hb, Nat.pow_add,
    ← Nat.div_div_eq_div_mul, ← Nat.div_div_eq_div_mul] at ht
  have ea := Nat.div_add_mod (a / 2 ^ bb) (2 ^ sb)
  have eb := Nat.div_add_mod (b / 2 ^ bb) (2 ^ sb)
  rw [hs, ht] at ea
  have : a / 2 ^ bb = b / 2 ^ bb := by rw [← ea, eb]
  rw [this]

theorem setIdx_lt (P : ShiftModel) (bb sb a : Nat) (hb : bb < 64) (hs : sb < 64) :
    setIdx P bb sb a < 2 ^ sb := by
  rw [setIdx_eq P bb sb a hb hs]
  exact Nat.mod_lt _ (Nat.two_pow_pos _)

/-- Decomposition where every shift is defined: for every 64-bit address and every geometry
with `1 ≤ blockBits + setBits ≤ 63` (every shift count inside `0 .. 63`), the set index lies
below `2 ^ setBits`, the tag lies below `2 ^ (64 - blockBits - setBits)`, the bitwise or of
the block address, the set index shifted by `blockBits` and the tag shifted by
`blockBits + setBits` is the address with its low `blockBits` bits cleared, and the address
is `a mod 2 ^ blockBits + set * 2 ^ blockBits + tag * 2 ^ (blockBits + setBits)`. -/
theorem decomposition_defined_shifts (P : ShiftModel) (c : Cache) (a : Nat)
    (h1 : 1 ≤ c.blockBits + c.setBits) (h2 : c.blockBits + c.setBits ≤ 63) (ha : a < 2 ^ 64) :
    cache_set P a c < 2 ^ c.setBits ∧
    cache_tag P a c < 2 ^ (64 - c.blockBits - c.setBits) ∧
    (address_to_block P a c ||| (cache_set P a c <<< c.blockBits) |||
        (cache_tag P a c <<< (c.blockBits + c.setBits))) = a - a % 2 ^ c.blockBits ∧
    a = a % 2 ^ c.blockBits + cache_set P a c * 2 ^ c.blockBits +
        cache_tag P a c * 2 ^ (c.blockBits + c.setBits) := by
  rw [cache_set_eq, cache_tag_eq, address_to_block_eq]
  generalize c.blockBits = bb at *
  generalize c.setBits = sb at *
  have hset := setIdx_eq P bb sb a (by omega) (by omega)
  have htag := tagOf_eq_div P bb sb a h1 h2 ha
  have hblk := blockOf_eq P bb a (by omega) ha
  have hX : 0 < 2 ^ bb := Nat.two_pow_pos _
  have hY : 0 < 2 ^ sb := Nat.two_pow_pos _
  have ea := Nat.div_add_mod a (2 ^ bb)
  have eq := Nat.div_add_mod (a / 2 ^ bb) (2 ^ sb)
  have etag : a / 2 ^ (bb + sb) = a / 2 ^ bb / 2 ^ sb := by
    rw [Nat.pow_add, Nat.div_div_eq_div_mul]
  refine ⟨?_, ?_, ?_, ?_⟩
  · exact setIdx_lt P bb sb a (by omega) (by omega)
  · rw [tagOf_eq P bb sb a h1 h2]
    have : 64 - bb - sb = 64 - (bb + sb) := by omega
    rw [this]
    exact Nat.mod_lt _ (Nat.two_pow_pos _)
  · have e1 : a - a % 2 ^ bb = a / 2 ^ bb * 2 ^ bb := by
      rw [Nat.mul_comm]; omega
    rw [e1, hset, htag, hblk]
    apply Nat.eq_of_testBit_eq
    intro i
    simp only [Nat.testBit_or, ← Nat.shiftLeft_eq, ← Nat.shiftRight_eq_div_pow,
      Nat.testBit_shiftLeft, Nat.testBit_shiftRight, Nat.testBit_mod_two_pow]
    by_cases hi : i ≥ bb
    · have e2 : bb + (i - bb) = i := by omega
      by_cases hi2 : i ≥ bb + sb
      · have e3 : bb + sb + (i - (bb + sb)) = i := by omega
        simp [hi, hi2, e2, e3]
        tauto
      · simp [hi, hi2, e2]
    · have hi2 : ¬ i ≥ bb + sb := by omega
      simp [hi, hi2]
  · rw [hset, htag, etag, Nat.pow_add]
    generalize 2 ^ bb = X at *
    generalize 2 ^ sb = Y at *
    generalize hq : a / X = q at *
    generalize a % X = r at *
    generalize q / Y = q2 at *
    generalize q % Y = r2 at *
    subst ea
    subst eq
    ring

/-- C7 fails at the failing inputs, the two ends of the range `blockBits + setBits ≤ 64`,
where the code shifts by 64.  With shifts that take the count modulo 64: for
`blockBits = setBits = 0` the tag of address 1 is 0, so the three fields do not add up to
the address; for `blockBits = 64` the block address of 1 is 1, not 1 with its low 64 bits
cleared. -/
theorem C7_failing_input :
    (blank 0 0 1 0).blockBits + (blank 0 0 1 0).setBits ≤ 64 ∧
    (1 : Nat) < 2 ^ 64 ∧
    cache_tag hwShift 1 (blank 0 0 1 0) = 0 ∧
    1 ≠ 1 % 2 ^ (blank 0 0 1 0).blockBits +
        cache_set hwShift 1 (blank 0 0 1 0) * 2 ^ (blank 0 0 1 0).blockBits +
        cache_tag hwShift 1 (blank 0 0 1 0) *
          2 ^ ((blank 0 0 1 0).blockBits + (blank 0 0 1 0).setBits) ∧
    (blank 64 0 1 0).blockBits + (blank 64 0 1 0).setBits ≤ 64 ∧
    (address_to_block hwShift 1 (blank 64 0 1 0) |||
        (cache_set hwShift 1 (blank 64 0 1 0) <<< (blank 64 0 1 0).blockBits) |||
        (cache_tag hwShift 1 (blank 64 0 1 0) <<<
          ((blank 64 0 1 0).blockBits + (blank 64 0 1 0).setBits))) ≠
      1 - 1 % 2 ^ (blank 64 0 1 0).blockBits := by
  decide

/-- C9. LRU victim selection: under LRU, in a set of `linesPerSet ≥ 1` valid lines whose
timestamps are all below `2 ^ 63 - 1`, `victim_cacheline` returns the block address of a
line of least `lru_clock`, and that line is the first, in set order, of the lines with the
least `lru_clock`. -/
theorem C9_lru_victim_selection (P : ShiftModel) (a : Nat) (c : Cache) (hlfu : c.lfu = 0)
    (hn : 1 ≤ c.linesPerSet)
    (_hvalid : ∀ j, j < c.linesPerSet → ((c.sets (cache_set P a c)).lines j).valid = true)
    (hb : ∀ j, j < c.linesPerSet →
      ((c.sets (cache_set P a c)).lines j).lru_clock < 2 ^ 63 - 1) :
    ∃ j0, j0 < c.linesPerSet ∧
      victim_cacheline P a c = ((c.sets (cache_set P a c)).lines j0).block_addr ∧
      (∀ j, j < c.linesPerSet → ((c.sets (cache_set P a c)).lines j0).lru_clock ≤
        ((c.sets (cache_set P a c)).lines j).lru_clock) ∧
      (∀ j, j < j0 → ((c.sets (cache_set P a c)).lines j0).lru_clock <
        ((c.sets (cache_set P a c)).lines j).lru_clock) :=
  lru_victim_spec P a c hlfu hn (hb 0 (by omega))

/-- Witness for C9: in the two-line example set the victim is line 1 (block 8), the line
with the older timestamp. -/
theorem C9_lru_victim_selection_witness :
    victim_cacheline hwShift 0 (demoCache 0) = 8 ∧
    ∃ j0, j0 < (demoCache 0).linesPerSet ∧
      victim_cacheline hwShift 0 (demoCache 0) =
        (((demoCache 0).sets (cache_set hwShift 0 (demoCache 0))).lines j0).block_addr ∧
      (∀ j, j < (demoCache 0).linesPerSet →
        (((demoCache 0).sets (cache_set hwShift 0 (demoCache 0))).lines j0).lru_clock ≤
        (((demoCache 0).sets (cache_set hwShift 0 (demoCache 0))).lines j).lru_clock) ∧
      (∀ j, j < j0 →
        (((demoCache 0).sets (cache_set hwShift 0 (demoCache 0))).lines j0).lru_clock <
        (((demoCache 0).sets (cache_set hwShift 0 (demoCache 0))).lines j).lru_clock) :=
  ⟨by decide, C9_lru_victim_selection hwShift 0 (demoCache 0) (by decide) (by decide)
    (by decide) (by decide)⟩

/-- LFU victim selection below the initial values of the scan: under LFU, in a set of
`linesPerSet ≥ 1` valid lines whose timestamps are all below `2 ^ 63 - 1` and whose access
counters are all at most `2 ^ 31 - 1`, `victim_cacheline` returns the block address of the
line whose pair `(access_counter, lru_clock)` is lexicographically least: its
`access_counter` is least, its `lru_clock` is least among the lines with that
`access_counter`, and no line before it in set order has the same pair. -/
theorem lfu_victim_below_initial (P : ShiftModel) (a : Nat) (c : Cache) (hlfu : c.lfu = 1)
    (hn : 1 ≤ c.linesPerSet)
    (_hvalid : ∀ j, j < c.linesPerSet → ((c.sets (cache_set P a c)).lines j).valid = true)
    (hb : ∀ j, j < c.linesPerSet →
      ((c.sets (cache_set P a c)).lines j).lru_clock < 2 ^ 63 - 1)
    (hac : ∀ j, j < c.linesPerSet →
      ((c.sets (cache_set P a c)).lines j).access_counter ≤ 2 ^ 31 - 1) :
    ∃ j0, j0 < c.linesPerSet ∧
      victim_cacheline P a c = ((c.sets (cache_set P a c)).lines j0).block_addr ∧
      (∀ j, j < c.linesPerSet → ((c.sets (cache_set P a c)).lines j0).access_counter ≤
        ((c.sets (cache_set P a c)).lines j).access_counter) ∧
      (∀ j, j < c.linesPerSet →
        ((c.sets (cache_set P a c)).lines j).access_counter =
          ((c.sets (cache_set P a c)).lines j0).access_counter →
        ((c.sets (cache_set P a c)).lines j0).lru_clock ≤
          ((c.sets (cache_set P a c)).lines j).lru_clock) ∧
      (∀ j, j < j0 →
        ¬ (((c.sets (cache_set P a c)).lines j).access_counter =
            ((c.sets (cache_set P a c)).lines j0).access_counter ∧
          ((c.sets (cache_set P a c)).lines j).lru_clock =
            ((c.sets (cache_set P a c)).lines j0).lru_clock)) := by
  obtain ⟨j0, h1, h2, h3, h4⟩ := lfu_victim_spec P a c hlfu hn (hac 0 (by omega)) (hb 0 (by omega))
  refine ⟨j0, h1, h2, ?_, ?_, ?_⟩
  · intro j hj
    have := h3 j hj
    omega
  · intro j hj he
    have := h3 j hj
    omega
  · intro j hj
    have := h4 j hj
    omega

/-- C10 fails at the failing input: in an LFU set whose only line is valid, stores block 64
and has `access_counter = 2 ^ 31 - 1` and `lru_clock = 2 ^ 63 - 1`, the values at which
the scan starts `minaccess` and `minLru`, `victim_cacheline` returns 0, which is the block
address of no line of the set. -/
theorem C10_failing_input :
    sentinelCache.lfu = 1 ∧ 1 ≤ sentinelCache.linesPerSet ∧
    (∀ j, j < sentinelCache.linesPerSet →
      ((sentinelCache.sets (cache_set hwShift 64 sentinelCache)).lines j).valid = true) ∧
    victim_cacheline hwShift 64 sentinelCache = 0 ∧
    ¬ ∃ j0, j0 < sentinelCache.linesPerSet ∧
      victim_cacheline hwShift 64 sentinelCache =
        ((sentinelCache.sets (cache_set hwShift 64 sentinelCache)).lines j0).block_addr := by
  decide

/-! ## Set-up -/

theorem setUp_inner_eq (i : Nat) (n j0 : Nat) (c : Cache) :
    forLoop (setUpLine i) n j0 c =
      { c with
        sets := store c.sets i
          { lines := fun j =>
              if j0 ≤ j ∧ j < j0 + n then resetLine ((c.sets i).lines j) else (c.sets i).lines j,
            lru_clock := (c.sets i).lru_clock } } := by
  induction n generalizing j0 c with
  | zero =>
    simp only [forLoop]
    have : (fun j => if j0 ≤ j ∧ j < j0 + 0 then resetLine ((c.sets i).lines j)
        else (c.sets i).lines j) = (c.sets i).lines := by
      funext j
      rw [if_neg]
      omega
    rw [this]
    have h2 : store c.sets i { lines := (c.sets i).lines, lru_clock := (c.sets i).lru_clock }
        = c.sets := store_self c.sets i
    rw [h2]
  | succ n ih =>
    unfold forLoop
    rw [ih]
    have key : ∀ (L L2 : Nat → Line), L = L2 →
        ({ c with sets := store c.sets i { lines := L, lru_clock := (c.sets i).lru_clock } } : Cache)
          = { c with sets := store c.sets i { lines := L2, lru_clock := (c.sets i).lru_clock } } := by
      intro L L2 h
      rw [h]
    simp only [setUpLine, Cache.setLine, store_same, store_store]
    apply key
    funext j
    simp only [store]
    by_cases hj : j = j0
    · subst hj
      simp [resetLine]
    · simp only [hj, if_false]
      have e1 : (j0 + 1 ≤ j ∧ j < j0 + 1 + n) ↔ (j0 ≤ j ∧ j < j0 + (n + 1)) := by
        constructor <;> intro h <;> exact ⟨by omega, by omega⟩
      simp only [e1]

theorem setUp_body_eq (i : Nat) (c : Cache) :
    forLoop (setUpLine i) c.linesPerSet 0 (c.setClock i 0) =
      { c with sets := store c.sets i (initSet (c.sets i) c.linesPerSet) } := by
  rw [setUp_inner_eq]
  simp only [Cache.setClock, store_same, store_store, initSet, Nat.zero_add, Nat.zero_le,
    true_and]

theorem setUp_outer_eq (L : Nat) (m i0 : Nat) (c : Cache) (hL : c.linesPerSet = L) :
    forLoop (fun i c => forLoop (setUpLine i) c.linesPerSet 0 (c.setClock i 0)) m i0 c =
      { c with
        sets := fun i => if i0 ≤ i ∧ i < i0 + m then initSet (c.sets i) L else c.sets i } := by
  induction m generalizing i0 c with
  | zero =>
    simp only [forLoop]
    have : (fun i => if i0 ≤ i ∧ i < i0 + 0 then initSet (c.sets i) L else c.sets i) = c.sets := by
      funext i
      rw [if_neg]
      omega
    rw [this]
  | succ m ih =>
    unfold forLoop
    have hL2 : (forLoop (setUpLine i0) c.linesPerSet 0 (c.setClock i0 0)).linesPerSet = L := by
      rw [setUp_body_eq]; exact hL
    show forLoop _ m (i0 + 1) (forLoop (setUpLine i0) c.linesPerSet 0 (c.setClock i0 0)) = _
    rw [ih _ _ hL2, setUp_body_eq]
    have key : ∀ (S S2 : Nat → CacheSet), S = S2 →
        ({ c with sets := S } : Cache) = { c with sets := S2 } := by
      intro S S2 h
      rw [h]
    apply key
    funext i
    simp only [store, hL]
    by_cases hi : i = i0
    · subst hi
      simp
    · simp only [hi, if_false]
      have e1 : (i0 + 1 ≤ i ∧ i < i0 + 1 + m) ↔ (i0 ≤ i ∧ i < i0 + (m + 1)) := by
        constructor <;> intro h <;> exact ⟨by omega, by omega⟩
      simp only [e1]

/-- The state `cacheSetUp` produces, in closed form. -/
theorem cacheSetUp_eq (c : Cache) :
    cacheSetUp c =
      { c with
        sets := fun i => if i < 2 ^ c.setBits then initSet (c.sets i) c.linesPerSet
          else c.sets i } := by
  unfold cacheSetUp
  rw [setUp_outer_eq c.linesPerSet _ _ c rfl]
  simp only [Nat.zero_le, true_and, Nat.zero_add]

theorem cacheSetUp_line_invalid (c : Cache) (i j : Nat) (hi : i < 2 ^ c.setBits)
    (hj : j < c.linesPerSet) : (((cacheSetUp c).sets i).lines j).valid = false := by
  rw [cacheSetUp_eq]
  simp [hi, initSet, hj, resetLine]

theorem cacheSetUp_clock (c : Cache) (i : Nat) (hi : i < 2 ^ c.setBits) :
    ((cacheSetUp c).sets i).lru_clock = 0 := by
  rw [cacheSetUp_eq]
  simp [hi, initSet]

theorem cacheSetUp_geom (c : Cache) :
    (cacheSetUp c).setBits = c.setBits ∧ (cacheSetUp c).linesPerSet = c.linesPerSet ∧
    (cacheSetUp c).blockBits = c.blockBits ∧ (cacheSetUp c).lfu = c.lfu := by
  rw [cacheSetUp_eq]
  exact ⟨rfl, rfl, rfl, rfl⟩

/-! ## Projections of the three successor states -/

theorem hitState_sets_same (c : Cache) (s j0 : Nat) :
    (hitState c s j0).sets s =
      { lines := store (c.sets s).lines j0
          (touchLine c.lfu ((c.sets s).lines j0) (inc64 (c.sets s).lru_clock)),
        lru_clock := inc64 (c.sets s).lru_clock } := by
  simp [hitState]

theorem missState_sets_same (c : Cache) (s j0 t b : Nat) :
    (missState c s j0 t b).sets s =
      { lines := store (c.sets s).lines j0 (freshLine t b (inc64 (c.sets s).lru_clock)),
        lru_clock := inc64 (c.sets s).lru_clock } := by
  simp [missState]

theorem evictState_sets_same (c : Cache) (s v t b : Nat) :
    (evictState c s v t b).sets s =
      { lines := replaceLines (c.sets s).lines v (freshLine t b (inc64 (c.sets s).lru_clock))
          0 c.linesPerSet,
        lru_clock := inc64 (c.sets s).lru_clock } := by
  simp [evictState]

theorem hitState_sets_other (c : Cache) (s j0 s2 : Nat) (h : s2 ≠ s) :
    (hitState c s j0).sets s2 = c.sets s2 := by
  simp [hitState, store, h]

theorem missState_sets_other (c : Cache) (s j0 t b s2 : Nat) (h : s2 ≠ s) :
    (missState c s j0 t b).sets s2 = c.sets s2 := by
  simp [missState, store, h]

theorem evictState_sets_other (c : Cache) (s v t b s2 : Nat) (h : s2 ≠ s) :
    (evictState c s v t b).sets s2 = c.sets s2 := by
  simp [evictState, store, h]

/-- An access leaves the geometry and the policy as they were. -/
theorem operateCache_geom (P : ShiftModel) (a : Nat) (c : Cache) :
    (operateCache P a c).2.setBits = c.setBits ∧
    (operateCache P a c).2.linesPerSet = c.linesPerSet ∧
    (operateCache P a c).2.blockBits = c.blockBits ∧
    (operateCache P a c).2.lfu = c.lfu := by
  rcases operateCache_cases P a c with ⟨_, j0, _, _, _, h⟩ | ⟨_, j0, _, _, _, h⟩ | ⟨_, _, h⟩ <;>
    rw [h] <;> exact ⟨rfl, rfl, rfl, rfl⟩

/-- An access returns HIT exactly when the probe succeeds. -/
theorem operateCache_hit_iff (P : ShiftModel) (a : Nat) (c : Cache) :
    (operateCache P a c).1.status = Status.CACHE_HIT ↔ probe_cache P a c = true := by
  rcases operateCache_cases P a c with ⟨hp, j0, _, _, _, h⟩ | ⟨hp, j0, _, _, _, h⟩ | ⟨hp, _, h⟩ <;>
    rw [h] <;> simp [hp]

theorem probe_of_line (P : ShiftModel) (a : Nat) (c : Cache) (j : Nat) (hj : j < c.linesPerSet)
    (hv : ((c.sets (cache_set P a c)).lines j).valid = true)
    (ht : ((c.sets (cache_set P a c)).lines j).tag = cache_tag P a c) :
    probe_cache P a c = true := by
  rw [probe_cache_eq_true_iff]
  exact ⟨j, hj, (holds_iff _ _).2 ⟨hv, ht⟩⟩

/-! ## Probe / insert coherence -/

/-- After a miss that filled a line, the address is found. -/
theorem probe_after_miss (P : ShiftModel) (a : Nat) (c : Cache) (j0 : Nat)
    (hj0 : j0 < c.linesPerSet) :
    probe_cache P a
      (missState c (cache_set P a c) j0 (cache_tag P a c) (address_to_block P a c)) = true := by
  have hj : j0 < (missState c (cache_set P a c) j0 (cache_tag P a c)
      (address_to_block P a c)).linesPerSet := hj0
  apply probe_of_line P a _ j0 hj
  · show (((missState c (cache_set P a c) j0 _ _).sets (cache_set P a c)).lines j0).valid = true
    rw [missState_sets_same]
    simp [freshLine]
  · show (((missState c (cache_set P a c) j0 _ _).sets (cache_set P a c)).lines j0).tag = _
    rw [missState_sets_same]
    simp [freshLine]
    rfl

/-- After an eviction whose victim is the block address of a line, the address is found. -/
theorem probe_after_evict (P : ShiftModel) (a : Nat) (c : Cache) (j1 : Nat)
    (hj1 : j1 < c.linesPerSet)
    (hv : victim_cacheline P a c = ((c.sets (cache_set P a c)).lines j1).block_addr) :
    probe_cache P a
      (evictState c (cache_set P a c) (victim_cacheline P a c) (cache_tag P a c)
        (address_to_block P a c)) = true := by
  have hj : j1 < (evictState c (cache_set P a c) (victim_cacheline P a c) (cache_tag P a c)
      (address_to_block P a c)).linesPerSet := hj1
  apply probe_of_line P a _ j1 hj
  · show (((evictState c (cache_set P a c) _ _ _).sets (cache_set P a c)).lines j1).valid = true
    rw [evictState_sets_same]
    simp [replaceLines, hj1, hv, freshLine]
  · show (((evictState c (cache_set P a c) _ _ _).sets (cache_set P a c)).lines j1).tag = _
    rw [evictState_sets_same]
    simp [replaceLines, hj1, hv, freshLine]
    rfl

/-- The victim scan finds a line when the first line of the set is below its initial
values. -/
theorem victim_found (P : ShiftModel) (a : Nat) (c : Cache) (hl : c.lfu = 0 ∨ c.lfu = 1)
    (hn : 1 ≤ c.linesPerSet)
    (hb : ((c.sets (cache_set P a c)).lines 0).lru_clock < INT64_MAX)
    (hac : ((c.sets (cache_set P a c)).lines 0).access_counter ≤ INT32_MAX) :
    ∃ j1, j1 < c.linesPerSet ∧
      victim_cacheline P a c = ((c.sets (cache_set P a c)).lines j1).block_addr := by
  rcases hl with h0 | h1
  · obtain ⟨j1, h1, h2, _⟩ := lru_victim_spec P a c h0 hn hb
    exact ⟨j1, h1, h2⟩
  · obtain ⟨j1, h1, h2, _⟩ := lfu_victim_spec P a c h1 hn hac hb
    exact ⟨j1, h1, h2⟩

/-- Probe/insert coherence whenever the victim is found: if the access of `a` returns MISS,
or returns EVICT with a victim that is the block address of a line of the set, the access
of `a` that follows immediately returns HIT. -/
theorem coherence_when_victim_held (P : ShiftModel) (c : Cache) (a : Nat)
    (hv : (operateCache P a c).1.status = Status.CACHE_EVICT →
      ∃ j1, j1 < c.linesPerSet ∧
        victim_cacheline P a c = ((c.sets (cache_set P a c)).lines j1).block_addr)
    (hres : (operateCache P a c).1.status = Status.CACHE_MISS ∨
      (operateCache P a c).1.status = Status.CACHE_EVICT) :
    (operateCache P a (operateCache P a c).2).1.status = Status.CACHE_HIT := by
  rw [operateCache_hit_iff]
  rcases operateCache_cases P a c with ⟨_, j0, _, _, _, h⟩ | ⟨_, j0, hj0, _, _, h⟩ | ⟨_, _, h⟩
  · rw [h] at hres
    rcases hres with hh | hh <;> exact Status.noConfusion hh
  · rw [h]
    exact probe_after_miss P a c j0 hj0
  · rw [h]
    obtain ⟨j1, hj1, hv1⟩ := hv (by rw [h])
    exact probe_after_evict P a c j1 hj1 hv1

/-! ## A long trace: the timestamp reaches the initial value of the victim scan -/

theorem reachable_runTrace (P : ShiftModel) (l : List Nat) (c : Cache) (hr : Reachable P c)
    (hl : ∀ a, a ∈ l → a < 2 ^ 64) : Reachable P (runTrace P l c) := by
  induction l generalizing c with
  | nil => exact hr
  | cons a rest ih =>
    simp only [runTrace]
    apply ih
    · exact Reachable.access a c (hl a (List.mem_cons_self _ _)) hr
    · intro b hb
      exact hl b (List.mem_cons_of_mem _ hb)

/-- One more access of address 4 on the example cache is a hit. -/
theorem hotAt_step (lfu : Int) (n : Nat) (c : Cache) (h : HotAt lfu n c) :
    (operateCache hwShift 4 c).1.status = Status.CACHE_HIT ∧
    HotAt lfu (n + 1) (operateCache hwShift 4 c).2 := by
  obtain ⟨hbb, hsb, hlps, hlfu, hclk, hline, hh, hm, he⟩ := h
  have hset : cache_set hwShift 4 c = 1 := by
    rw [cache_set_eq, hbb, hsb]; decide
  have htag : cache_tag hwShift 4 c = 0 := by
    rw [cache_tag_eq, hbb, hsb]; decide
  have hstep := operateCache_hit hwShift 4 c 0 (by omega)
    (by rw [hset, htag, hline]; rfl) (by intro j hj; omega)
  rw [hstep, hset]
  refine ⟨rfl, hbb, hsb, hlps, hlfu, ?_, ?_, ?_, hm, he⟩
  · show ((hitState c 1 0).sets 1).lru_clock = (n + 1) % 2 ^ 64
    rw [hitState_sets_same, hclk, inc64_mod]
  · show ((hitState c 1 0).sets 1).lines 0 = _
    rw [hitState_sets_same, hclk, hline, hlfu, inc64_mod]
    by_cases h0 : lfu = 0
    · simp [touchLine, hotLine, h0]
    · simp [touchLine, hotLine, h0, inc32_wrap]
  · show inc32 c.hit_count = wrap32 (((n + 1 : Nat) : Int) - 1)
    rw [hh, inc32_wrap]
    congr 1
    push_cast
    ring

theorem runTrace_replicate_succ (P : ShiftModel) (a n : Nat) (c : Cache) :
    runTrace P (List.replicate (n + 1) a) c =
      runTrace P (List.replicate n a) (operateCache P a c).2 := by
  rw [List.replicate_succ]
  simp only [runTrace]

theorem runTrace_append (P : ShiftModel) (l1 l2 : List Nat) (c : Cache) :
    runTrace P (l1 ++ l2) c = runTrace P l2 (runTrace P l1 c) := by
  induction l1 generalizing c with
  | nil => rfl
  | cons a rest ih => exact ih (operateCache P a c).2

theorem runTrace_replicate_end (P : ShiftModel) (a n : Nat) (c : Cache) :
    runTrace P (List.replicate (n + 1) a) c =
      (operateCache P a (runTrace P (List.replicate n a) c)).2 := by
  rw [List.replicate_succ', runTrace_append]
  rfl

/-- The example cache after `n + 1` accesses of address 4, for both policies. -/
theorem hotCache_hot (lfu : Int) (hl : lfu = 0 ∨ lfu = 1) (n : Nat) :
    HotAt lfu (n + 1) (hotCache lfu (n + 1)) := by
  induction n with
  | zero =>
    rcases hl with h | h <;> subst h <;>
      exact ⟨by decide, by decide, by decide, by decide, by decide, by decide, by decide,
        by decide, by decide⟩
  | succ n ih =>
    unfold hotCache at ih ⊢
    rw [runTrace_replicate_end]
    exact (hotAt_step lfu (n + 1) _ ih).2

/-- The example cache after `n ≥ 1` accesses of address 4, for both policies. -/
theorem hotCache_at (lfu : Int) (hl : lfu = 0 ∨ lfu = 1) (n : Nat) (hn : 1 ≤ n) :
    HotAt lfu n (hotCache lfu n) := by
  obtain ⟨m, rfl⟩ : ∃ m, n = m + 1 := ⟨n - 1, by omega⟩
  exact hotCache_hot lfu hl m

/-- The example cache keeps hitting: access number `n + 2` of address 4 is a hit. -/
theorem hotCache_hit (lfu : Int) (hl : lfu = 0 ∨ lfu = 1) (n : Nat) :
    (operateCache hwShift 4 (hotCache lfu (n + 1))).1.status = Status.CACHE_HIT :=
  (hotAt_step lfu (n + 1) _ (hotCache_hot lfu hl n)).1

theorem hotCache_succ (lfu : Int) (n : Nat) :
    hotCache lfu (n + 1) = (operateCache hwShift 4 (hotCache lfu n)).2 := by
  unfold hotCache
  rw [runTrace_replicate_end]

theorem hotCache_reachable (lfu : Int) (n : Nat) : Reachable hwShift (hotCache lfu n) := by
  unfold hotCache
  apply reachable_runTrace
  · exact Reachable.setup _
  · intro a ha
    rw [List.eq_of_mem_replicate ha]
    norm_num

theorem agedCache_eq : agedCache = hotCache 0 (2 ^ 63 - 2 + 1) := by
  unfold agedCache hotCache longTrace
  exact congrArg (fun n => runTrace hwShift (List.replicate n 4) (cacheSetUp (blank 2 1 1 0)))
    (by norm_num : (2 ^ 63 - 1 : Nat) = 2 ^ 63 - 2 + 1)

/-- After `2 ^ 63 - 1` accesses of address 4 the line of set 1 holds block 4 with the
timestamp `2 ^ 63 - 1`. -/
theorem agedCache_aged :
    agedCache.blockBits = 2 ∧ agedCache.setBits = 1 ∧ agedCache.linesPerSet = 1 ∧
    agedCache.lfu = 0 ∧ (agedCache.sets 1).lru_clock = 2 ^ 63 - 1 ∧
    (agedCache.sets 1).lines 0 =
      { valid := true, tag := 0, block_addr := 4, lru_clock := 2 ^ 63 - 1,
        access_counter := 1 } := by
  rw [agedCache_eq]
  obtain ⟨hbb, hsb, hlps, hlfu, hclk, hline, _⟩ := hotCache_hot 0 (Or.inl rfl) (2 ^ 63 - 2)
  refine ⟨hbb, hsb, hlps, hlfu, ?_, ?_⟩
  · rw [hclk]; norm_num
  · rw [hline]; simp [hotLine]

theorem agedCache_reachable : Reachable hwShift agedCache := by
  unfold agedCache longTrace
  apply reachable_runTrace
  · exact Reachable.setup _
  · intro a ha
    rw [List.eq_of_mem_replicate ha]
    norm_num

/-! ## A long trace of evictions: the statistics reach `INT_MAX` -/

/-- On the one-line example cache whose line of set 0 holds the other of the two addresses
0 and 8, with a timestamp below the initial value of the victim scan, the access of
address `8 * p` evicts that line. -/
theorem thrash_evict (c : Cache) (p q k : Nat) (hpq : (p = 0 ∧ q = 1) ∨ (p = 1 ∧ q = 0))
    (hk : k < 2 ^ 63 - 1)
    (hbb : c.blockBits = 2) (hsb : c.setBits = 1) (hlps : c.linesPerSet = 1)
    (hlfu : c.lfu = 0)
    (hline : (c.sets 0).lines 0 =
      { valid := true, tag := q, block_addr := 8 * q, lru_clock := k, access_counter := 1 }) :
    operateCache hwShift (8 * p) c =
      ({ status := Status.CACHE_EVICT, victim_block_addr := 8 * q,
         insert_block_addr := 8 * p },
        evictState c 0 (8 * q) p (8 * p)) := by
  have hset : cache_set hwShift (8 * p) c = 0 := by
    rw [cache_set_eq, hbb, hsb]
    rcases hpq with ⟨h, _⟩ | ⟨h, _⟩ <;> subst h <;> decide
  have htag : cache_tag hwShift (8 * p) c = p := by
    rw [cache_tag_eq, hbb, hsb]
    rcases hpq with ⟨h, _⟩ | ⟨h, _⟩ <;> subst h <;> decide
  have hblk : address_to_block hwShift (8 * p) c = 8 * p := by
    rw [address_to_block_eq, hbb]
    rcases hpq with ⟨h, _⟩ | ⟨h, _⟩ <;> subst h <;> decide
  have hne : q ≠ p := by omega
  have hprobe : probe_cache hwShift (8 * p) c = false := by
    rw [probe_cache_eq_false_iff]
    intro j hj
    have : j = 0 := by omega
    rw [this, hset, htag, hline]
    simp [Line.holds, hne]
  have hall : ∀ j, j < c.linesPerSet →
      ((c.sets (cache_set hwShift (8 * p) c)).lines j).valid = true := by
    intro j hj
    have : j = 0 := by omega
    rw [this, hset, hline]
  have hv : victim_cacheline hwShift (8 * p) c = 8 * q := by
    unfold victim_cacheline
    simp only [hset, hlps, hlfu, victim_scan, hline, victim_step_lru]
    rw [if_pos (by simp only [INT64_MAX]; exact hk)]
  have hstep := operateCache_evict hwShift (8 * p) c hprobe hall
  rw [hstep, hv, hset, htag, hblk]

/-- One more access of the alternating trace is an eviction. -/
theorem thrashAt_step (n : Nat) (c : Cache) (h : ThrashAt n c) (hn : n < 2 ^ 63 - 1) :
    (operateCache hwShift (8 * (n % 2)) c).1 =
      { status := Status.CACHE_EVICT, victim_block_addr := 8 * ((n + 1) % 2),
        insert_block_addr := 8 * (n % 2) } ∧
    ThrashAt (n + 1) (operateCache hwShift (8 * (n % 2)) c).2 := by
  obtain ⟨hbb, hsb, hlps, hlfu, hclk, hline, hs1, hh, hm, he⟩ := h
  have hpq : (n % 2 = 0 ∧ (n + 1) % 2 = 1) ∨ (n % 2 = 1 ∧ (n + 1) % 2 = 0) := by omega
  have hstep := thrash_evict c (n % 2) ((n + 1) % 2) n hpq hn hbb hsb hlps hlfu hline
  rw [hstep]
  refine ⟨rfl, hbb, hsb, hlps, hlfu, ?_, ?_, ?_, hh, ?_, ?_⟩
  · show ((evictState c 0 _ _ _).sets 0).lru_clock = n + 1
    rw [evictState_sets_same, hclk, inc64_eq n (by omega)]
  · show ((evictState c 0 _ _ _).sets 0).lines 0 = _
    rw [evictState_sets_same, hclk, inc64_eq n (by omega)]
    have e : (n + 1 + 1) % 2 = n % 2 := by omega
    simp [replaceLines, hlps, hline, freshLine, e]
  · show (((evictState c 0 _ _ _).sets 1).lines 0).valid = false
    rw [evictState_sets_other _ _ _ _ _ _ (by decide)]
    exact hs1
  · show inc32 c.miss_count = wrap32 ((n + 1 : Nat) : Int)
    rw [hm, inc32_wrap]
    rfl
  · show inc32 c.eviction_count = wrap32 (((n + 1 : Nat) : Int) - 1)
    rw [he, inc32_wrap]
    congr 1
    push_cast
    ring

theorem thrashTrace_succ (n : Nat) : thrashTrace (n + 1) = thrashTrace n ++ [8 * (n % 2)] := by
  unfold thrashTrace
  rw [List.range_succ, List.map_append]
  rfl

theorem thrashCache_succ (n : Nat) :
    thrashCache (n + 1) = (operateCache hwShift (8 * (n % 2)) (thrashCache n)).2 := by
  unfold thrashCache
  rw [thrashTrace_succ, runTrace_append]
  rfl

/-- The example cache after `n + 1 ≤ 2 ^ 63 - 1` accesses of the alternating trace. -/
theorem thrashCache_at (n : Nat) (hn : n + 1 ≤ 2 ^ 63 - 1) :
    ThrashAt (n + 1) (thrashCache (n + 1)) := by
  induction n with
  | zero =>
    exact ⟨by decide, by decide, by decide, by decide, by decide, by decide, by decide,
      by decide, by decide, by decide⟩
  | succ n ih =>
    rw [thrashCache_succ]
    exact (thrashAt_step (n + 1) _ (ih (by omega)) (by omega)).2

/-- On the one-line LRU example cache whose line of set 1 holds block 4 with timestamp
`2 ^ 63 - 1`, an access of address 12 reports an eviction of block 0 and overwrites
nothing. -/
theorem aged_evict (c : Cache) (hbb : c.blockBits = 2) (hsb : c.setBits = 1)
    (hlps : c.linesPerSet = 1) (hlfu : c.lfu = 0)
    (hline : (c.sets 1).lines 0 =
      { valid := true, tag := 0, block_addr := 4, lru_clock := 2 ^ 63 - 1,
        access_counter := 1 }) :
    (operateCache hwShift 12 c).1 =
      { status := Status.CACHE_EVICT, victim_block_addr := 0, insert_block_addr := 12 } ∧
    (operateCache hwShift 12 c).2.blockBits = 2 ∧
    (operateCache hwShift 12 c).2.setBits = 1 ∧
    (operateCache hwShift 12 c).2.linesPerSet = 1 ∧
    (operateCache hwShift 12 c).2.lfu = 0 ∧
    ((operateCache hwShift 12 c).2.sets 1).lines 0 =
      { valid := true, tag := 0, block_addr := 4, lru_clock := 2 ^ 63 - 1,
        access_counter := 1 } := by
  have hset : cache_set hwShift 12 c = 1 := by
    rw [cache_set_eq, hbb, hsb]; decide
  have htag : cache_tag hwShift 12 c = 1 := by
    rw [cache_tag_eq, hbb, hsb]; decide
  have hblk : address_to_block hwShift 12 c = 12 := by
    rw [address_to_block_eq, hbb]; decide
  have hp : probe_cache hwShift 12 c = false := by
    rw [probe_cache_eq_false_iff]
    intro j hj
    have : j = 0 := by omega
    rw [this, hset, htag, hline]
    rfl
  have hall : ∀ j, j < c.linesPerSet →
      ((c.sets (cache_set hwShift 12 c)).lines j).valid = true := by
    intro j hj
    have : j = 0 := by omega
    rw [this, hset, hline]
  have hv : victim_cacheline hwShift 12 c = 0 := by
    unfold victim_cacheline
    simp only [hset, hlps, hlfu, victim_scan, hline, victim_step_lru]
    rw [if_neg]
    simp [INT64_MAX]
  have hstep := operateCache_evict hwShift 12 c hp hall
  rw [hstep, hv, hset, htag, hblk]
  refine ⟨rfl, hbb, hsb, hlps, hlfu, ?_⟩
  show ((evictState c 1 0 1 12).sets 1).lines 0 = _
  rw [evictState_sets_same]
  simp [replaceLines, hline]

/-- C1 fails at the failing input.  After `2 ^ 63 - 1` accesses of address 4 on a fresh LRU
cache with `blockBits = 2`, `setBits = 1`, `linesPerSet = 1`, the line of set 1 has
`lru_clock = 2 ^ 63 - 1`, the value `INT64_MAX` at which `victim_cacheline` starts `minLru`.
The access of address 12 then returns EVICT with victim block 0 and replaces no line, so
the access of address 12 that follows returns EVICT again, not HIT. -/
theorem C1_failing_input :
    Reachable hwShift agedCache ∧ 1 ≤ agedCache.linesPerSet ∧
    agedCache.blockBits + agedCache.setBits ≤ 64 ∧ agedCache.lfu = 0 ∧ (12 : Nat) < 2 ^ 64 ∧
    (operateCache hwShift 12 agedCache).1 =
      { status := Status.CACHE_EVICT, victim_block_addr := 0, insert_block_addr := 12 } ∧
    (operateCache hwShift 12 (operateCache hwShift 12 agedCache).2).1.status =
      Status.CACHE_EVICT := by
  obtain ⟨hbb, hsb, hlps, hlfu, _, hline⟩ := agedCache_aged
  obtain ⟨r1, gbb, gsb, glps, glfu, gline⟩ := aged_evict agedCache hbb hsb hlps hlfu hline
  obtain ⟨r2, _⟩ := aged_evict (operateCache hwShift 12 agedCache).2 gbb gsb glps glfu gline
  refine ⟨agedCache_reachable, by omega, by omega, hlfu, by norm_num, r1, ?_⟩
  rw [r2]

/-! ## Filling a set -/

theorem fill_trace (P : ShiftModel) (bb sb s : Nat) (rest : List Nat) :
    ∀ (c : Cache) (k : Nat) (T : List Nat), c.blockBits = bb → c.setBits = sb →
      Filled c s k T →
      (∀ a, a ∈ rest → setIdx P bb sb a = s ∧ tagOf P bb sb a ∉ T) →
      rest.Pairwise (fun a b => tagOf P bb sb a ≠ tagOf P bb sb b) →
      k + rest.length = c.linesPerSet + 1 →
      (traceResults P rest c).map (fun r => r.status) =
        List.replicate (c.linesPerSet - k) Status.CACHE_MISS ++ [Status.CACHE_EVICT] := by
  induction rest with
  | nil =>
    intro c k T _ _ hF _ _ hlen
    have := hF.1
    simp at hlen
    omega
  | cons a rest ih =>
    intro c k T hbb hsb hF hmem hpw hlen
    obtain ⟨hk, hvalid, hinvalid⟩ := hF
    have hset : cache_set P a c = s := by
      rw [cache_set_eq, hbb, hsb]; exact (hmem a (List.mem_cons_self _ _)).1
    have htag : cache_tag P a c = tagOf P bb sb a := by
      rw [cache_tag_eq, hbb, hsb]
    have hnotin : tagOf P bb sb a ∉ T := (hmem a (List.mem_cons_self _ _)).2
    have hp : probe_cache P a c = false := by
      rw [probe_cache_eq_false_iff]
      intro j hj
      rw [hset, htag, ← Bool.not_eq_true, holds_iff]
      rintro ⟨hv, ht⟩
      by_cases hjk : j < k
      · exact hnotin (ht ▸ (hvalid j hjk).2)
      · rw [hinvalid j (by omega) hj] at hv
        exact Bool.noConfusion hv
    simp only [traceResults, List.map_cons, List.length_cons] at hlen ⊢
    by_cases hlt : k < c.linesPerSet
    · have hstep := operateCache_miss P a c k hlt hp
        (by rw [hset]; exact hinvalid k (le_refl _) hlt)
        (by intro j hj; rw [hset]; exact (hvalid j hj).1)
      rw [hstep, hset, htag]
      have hF2 : Filled (missState c s k (tagOf P bb sb a) (address_to_block P a c)) s (k + 1)
          (tagOf P bb sb a :: T) := by
        refine ⟨hlt, ?_, ?_⟩
        · intro j hj
          rw [missState_sets_same]
          by_cases hjk : j = k
          · subst hjk
            simp [freshLine]
          · simp only [store, hjk, if_false]
            have := hvalid j (by omega)
            exact ⟨this.1, List.mem_cons_of_mem _ this.2⟩
        · intro j hj1 hj2
          rw [missState_sets_same]
          have hjk : j ≠ k := by omega
          simp only [store, hjk, if_false]
          exact hinvalid j (by omega) hj2
      have hrec := ih (missState c s k (tagOf P bb sb a) (address_to_block P a c)) (k + 1)
        (tagOf P bb sb a :: T) hbb hsb hF2
        (by
          intro b hb
          refine ⟨(hmem b (List.mem_cons_of_mem _ hb)).1, ?_⟩
          intro hin
          rcases List.mem_cons.1 hin with h | h
          · exact (List.rel_of_pairwise_cons hpw hb) h.symm
          · exact (hmem b (List.mem_cons_of_mem _ hb)).2 h)
        (List.Pairwise.of_cons hpw)
        (by show k + 1 + rest.length = c.linesPerSet + 1; omega)
      rw [hrec]
      show Status.CACHE_MISS :: (List.replicate (c.linesPerSet - (k + 1)) Status.CACHE_MISS ++
        [Status.CACHE_EVICT]) = _
      have e : c.linesPerSet - k = (c.linesPerSet - (k + 1)) + 1 := by omega
      rw [e, List.replicate_succ]
      rfl
    · have hkeq : k = c.linesPerSet := by omega
      have hrest : rest = [] := by
        apply List.eq_nil_of_length_eq_zero
        omega
      have hstep := operateCache_evict P a c hp
        (by intro j hj; rw [hset]; exact (hvalid j (by omega)).1)
      rw [hstep, hrest, hkeq]
      simp [traceResults]

/-- Distinct block addresses in one set have distinct tags, inside the defined range of the
shifts. -/
theorem tag_ne_of_block_ne (P : ShiftModel) (bb sb a b : Nat) (h1 : 1 ≤ bb + sb)
    (h2 : bb + sb ≤ 63) (ha : a < 2 ^ 64) (hb : b < 2 ^ 64)
    (hs : setIdx P bb sb a = setIdx P bb sb b) (hne : blockOf P bb a ≠ blockOf P bb b) :
    tagOf P bb sb a ≠ tagOf P bb sb b :=
  fun ht => hne (block_eq_of_set_tag_eq P bb sb a b h1 h2 ha hb hs ht)

theorem fresh_filled (c0 : Cache) (s : Nat) (hs : s < 2 ^ c0.setBits) :
    Filled (cacheSetUp c0) s 0 [] := by
  refine ⟨Nat.zero_le _, ?_, ?_⟩
  · intro j hj
    omega
  · intro j _ hj
    rw [(cacheSetUp_geom c0).2.1] at hj
    exact cacheSetUp_line_invalid c0 s j hs hj

/-- Capacity bound where every shift is defined: for every geometry with `linesPerSet ≥ 1`
and `1 ≤ blockBits + setBits ≤ 63` and every policy, on a freshly set-up cache, accessing
`linesPerSet + 1` 64-bit addresses whose block addresses are pairwise distinct and which
all map to the same set returns MISS for each of the first `linesPerSet` accesses and EVICT
for the last one. -/
theorem capacity_bound_defined_shifts (P : ShiftModel) (c0 : Cache) (addrs : List Nat)
    (_hn : 1 ≤ c0.linesPerSet)
    (h1 : 1 ≤ c0.blockBits + c0.setBits) (h2 : c0.blockBits + c0.setBits ≤ 63)
    (hlen : addrs.length = c0.linesPerSet + 1)
    (ha : ∀ a, a ∈ addrs → a < 2 ^ 64)
    (hblk : addrs.Pairwise
      (fun a b => address_to_block P a c0 ≠ address_to_block P b c0))
    (hset : ∀ a, a ∈ addrs → ∀ b, b ∈ addrs → cache_set P a c0 = cache_set P b c0) :
    (traceResults P addrs (cacheSetUp c0)).map (fun r => r.status) =
      List.replicate c0.linesPerSet Status.CACHE_MISS ++ [Status.CACHE_EVICT] := by
  obtain ⟨a0, tl, haddrs⟩ : ∃ a0 tl, addrs = a0 :: tl := by
    cases addrs with
    | nil => simp at hlen
    | cons a0 tl => exact ⟨a0, tl, rfl⟩
  have ha0 : a0 ∈ addrs := by rw [haddrs]; exact List.mem_cons_self _ _
  obtain ⟨g1, g2, g3, _⟩ := cacheSetUp_geom c0
  have hs : setIdx P c0.blockBits c0.setBits a0 < 2 ^ c0.setBits :=
    setIdx_lt P _ _ _ (by omega) (by omega)
  have h := fill_trace P c0.blockBits c0.setBits (setIdx P c0.blockBits c0.setBits a0) addrs
    (cacheSetUp c0) 0 [] g3 g1 (fresh_filled c0 _ hs)
    (by
      intro a hmem
      exact ⟨hset a hmem a0 ha0, List.not_mem_nil _⟩)
    (by
      refine List.Pairwise.imp_of_mem ?_ hblk
      intro a b hma hmb hne
      exact tag_ne_of_block_ne P _ _ a b h1 h2 (ha a hma) (ha b hmb) (hset a hma b hmb) hne)
    (by rw [g2, hlen]; omega)
  rw [g2] at h
  exact h

/-! ## Two-line sets -/

theorem two_probe_false (P : ShiftModel) (a : Nat) (c : Cache) (bb sb : Nat) (lfu : Int)
    (l0 l1 : Line) (clk : Nat)
    (h : TwoLineSet c bb sb lfu (setIdx P bb sb a) l0 l1 clk)
    (h0 : l0.holds (tagOf P bb sb a) = false) (h1 : l1.holds (tagOf P bb sb a) = false) :
    probe_cache P a c = false := by
  obtain ⟨hbb, hsb, hlps, _, e0, e1, _⟩ := h
  rw [probe_cache_eq_false_iff]
  intro j hj
  rw [cache_set_eq, cache_tag_eq, hbb, hsb]
  have : j = 0 ∨ j = 1 := by omega
  rcases this with rfl | rfl
  · rw [e0]; exact h0
  · rw [e1]; exact h1

theorem two_miss0 (P : ShiftModel) (a : Nat) (c : Cache) (bb sb : Nat) (lfu : Int)
    (l0 l1 : Line) (clk : Nat)
    (h : TwoLineSet c bb sb lfu (setIdx P bb sb a) l0 l1 clk)
    (h0 : l0.valid = false) (h1 : l1.holds (tagOf P bb sb a) = false) :
    (operateCache P a c).1 =
      { status := Status.CACHE_MISS, victim_block_addr := 0,
        insert_block_addr := blockOf P bb a } ∧
    TwoLineSet (operateCache P a c).2 bb sb lfu (setIdx P bb sb a)
      (freshLine (tagOf P bb sb a) (blockOf P bb a) (inc64 clk)) l1 (inc64 clk) := by
  have hp := two_probe_false P a c bb sb lfu l0 l1 clk h (by simp [Line.holds, h0]) h1
  obtain ⟨hbb, hsb, hlps, hlfu, e0, e1, eclk⟩ := h
  have hset : cache_set P a c = setIdx P bb sb a := by rw [cache_set_eq, hbb, hsb]
  have htag : cache_tag P a c = tagOf P bb sb a := by rw [cache_tag_eq, hbb, hsb]
  have hblk : address_to_block P a c = blockOf P bb a := by rw [address_to_block_eq, hbb]
  have hstep := operateCache_miss P a c 0 (by omega) hp (by rw [hset, e0]; exact h0)
    (by intro j hj; omega)
  rw [hstep, hset, htag, hblk]
  refine ⟨rfl, hbb, hsb, hlps, hlfu, ?_, ?_, ?_⟩
  · rw [missState_sets_same, eclk]; simp [store]
  · rw [missState_sets_same]; simp [store, e1]
  · rw [missState_sets_same, eclk]

theorem two_miss1 (P : ShiftModel) (a : Nat) (c : Cache) (bb sb : Nat) (lfu : Int)
    (l0 l1 : Line) (clk : Nat)
    (h : TwoLineSet c bb sb lfu (setIdx P bb sb a) l0 l1 clk)
    (h0 : l0.valid = true) (h0t : l0.tag ≠ tagOf P bb sb a) (h1 : l1.valid = false) :
    (operateCache P a c).1 =
      { status := Status.CACHE_MISS, victim_block_addr := 0,
        insert_block_addr := blockOf P bb a } ∧
    TwoLineSet (operateCache P a c).2 bb sb lfu (setIdx P bb sb a)
      l0 (freshLine (tagOf P bb sb a) (blockOf P bb a) (inc64 clk)) (inc64 clk) := by
  have hp := two_probe_false P a c bb sb lfu l0 l1 clk h (by simp [Line.holds, h0t])
    (by simp [Line.holds, h1])
  obtain ⟨hbb, hsb, hlps, hlfu, e0, e1, eclk⟩ := h
  have hset : cache_set P a c = setIdx P bb sb a := by rw [cache_set_eq, hbb, hsb]
  have htag : cache_tag P a c = tagOf P bb sb a := by rw [cache_tag_eq, hbb, hsb]
  have hblk : address_to_block P a c = blockOf P bb a := by rw [address_to_block_eq, hbb]
  have hstep := operateCache_miss P a c 1 (by omega) hp (by rw [hset, e1]; exact h1)
    (by intro j hj; have : j = 0 := by omega
        rw [this, hset, e0]; exact h0)
  rw [hstep, hset, htag, hblk]
  refine ⟨rfl, hbb, hsb, hlps, hlfu, ?_, ?_, ?_⟩
  · rw [missState_sets_same]; simp [store, e0]
  · rw [missState_sets_same, eclk]; simp [store]
  · rw [missState_sets_same, eclk]

theorem two_hit0 (P : ShiftModel) (a : Nat) (c : Cache) (bb sb : Nat) (lfu : Int)
    (l0 l1 : Line) (clk : Nat)
    (h : TwoLineSet c bb sb lfu (setIdx P bb sb a) l0 l1 clk)
    (h0 : l0.holds (tagOf P bb sb a) = true) :
    (operateCache P a c).1 =
      { status := Status.CACHE_HIT, victim_block_addr := 0, insert_block_addr := 0 } ∧
    TwoLineSet (operateCache P a c).2 bb sb lfu (setIdx P bb sb a)
      (touchLine lfu l0 (inc64 clk)) l1 (inc64 clk) := by
  obtain ⟨hbb, hsb, hlps, hlfu, e0, e1, eclk⟩ := h
  have hset : cache_set P a c = setIdx P bb sb a := by rw [cache_set_eq, hbb, hsb]
  have htag : cache_tag P a c = tagOf P bb sb a := by rw [cache_tag_eq, hbb, hsb]
  have hstep := operateCache_hit P a c 0 (by omega) (by rw [hset, htag, e0]; exact h0)
    (by intro j hj; omega)
  rw [hstep, hset]
  refine ⟨rfl, hbb, hsb, hlps, hlfu, ?_, ?_, ?_⟩
  · rw [hitState_sets_same, eclk, e0, hlfu]; simp [store]
  · rw [hitState_sets_same]; simp [store, e1]
  · rw [hitState_sets_same, eclk]

theorem two_hit1 (P : ShiftModel) (a : Nat) (c : Cache) (bb sb : Nat) (lfu : Int)
    (l0 l1 : Line) (clk : Nat)
    (h : TwoLineSet c bb sb lfu (setIdx P bb sb a) l0 l1 clk)
    (h0 : l0.holds (tagOf P bb sb a) = false) (h1 : l1.holds (tagOf P bb sb a) = true) :
    (operateCache P a c).1 =
      { status := Status.CACHE_HIT, victim_block_addr := 0, insert_block_addr := 0 } ∧
    TwoLineSet (operateCache P a c).2 bb sb lfu (setIdx P bb sb a)
      l0 (touchLine lfu l1 (inc64 clk)) (inc64 clk) := by
  obtain ⟨hbb, hsb, hlps, hlfu, e0, e1, eclk⟩ := h
  have hset : cache_set P a c = setIdx P bb sb a := by rw [cache_set_eq, hbb, hsb]
  have htag : cache_tag P a c = tagOf P bb sb a := by rw [cache_tag_eq, hbb, hsb]
  have hstep := operateCache_hit P a c 1 (by omega) (by rw [hset, htag, e1]; exact h1)
    (by intro j hj; have : j = 0 := by omega
        rw [this, hset, htag, e0]; exact h0)
  rw [hstep, hset]
  refine ⟨rfl, hbb, hsb, hlps, hlfu, ?_, ?_, ?_⟩
  · rw [hitState_sets_same]; simp [store, e0]
  · rw [hitState_sets_same, eclk, e1, hlfu]; simp [store]
  · rw [hitState_sets_same, eclk]

theorem two_evict (P : ShiftModel) (a : Nat) (c : Cache) (bb sb : Nat) (lfu : Int)
    (l0 l1 : Line) (clk : Nat)
    (h : TwoLineSet c bb sb lfu (setIdx P bb sb a) l0 l1 clk)
    (h0 : l0.valid = true) (h0t : l0.tag ≠ tagOf P bb sb a)
    (h1 : l1.valid = true) (h1t : l1.tag ≠ tagOf P bb sb a) :
    (operateCache P a c).1 =
      { status := Status.CACHE_EVICT, victim_block_addr := twoVictim lfu l0 l1,
        insert_block_addr := blockOf P bb a } ∧
    TwoLineSet (operateCache P a c).2 bb sb lfu (setIdx P bb sb a)
      (if l0.block_addr = twoVictim lfu l0 l1 then
        freshLine (tagOf P bb sb a) (blockOf P bb a) (inc64 clk) else l0)
      (if l1.block_addr = twoVictim lfu l0 l1 then
        freshLine (tagOf P bb sb a) (blockOf P bb a) (inc64 clk) else l1)
      (inc64 clk) := by
  have hp := two_probe_false P a c bb sb lfu l0 l1 clk h (by simp [Line.holds, h0t])
    (by simp [Line.holds, h1t])
  obtain ⟨hbb, hsb, hlps, hlfu, e0, e1, eclk⟩ := h
  have hset : cache_set P a c = setIdx P bb sb a := by rw [cache_set_eq, hbb, hsb]
  have htag : cache_tag P a c = tagOf P bb sb a := by rw [cache_tag_eq, hbb, hsb]
  have hblk : address_to_block P a c = blockOf P bb a := by rw [address_to_block_eq, hbb]
  have hv : victim_cacheline P a c = twoVictim lfu l0 l1 := by
    unfold victim_cacheline twoVictim
    simp only [hset, hlps, hlfu, victim_scan, e0, e1]
  have hstep := operateCache_evict P a c hp
    (by intro j hj
        have : j = 0 ∨ j = 1 := by omega
        rcases this with rfl | rfl
        · rw [hset, e0]; exact h0
        · rw [hset, e1]; exact h1)
  rw [hstep, hv, hset, htag, hblk]
  refine ⟨rfl, hbb, hsb, hlps, hlfu, ?_, ?_, ?_⟩
  · rw [evictState_sets_same, eclk]; simp [replaceLines, hlps, e0]
  · rw [evictState_sets_same, eclk]; simp [replaceLines, hlps, e1]
  · rw [evictState_sets_same, eclk]

theorem fresh_twoLineSet (c0 : Cache) (s : Nat) (hs : s < 2 ^ c0.setBits)
    (hl : c0.linesPerSet = 2) :
    TwoLineSet (cacheSetUp c0) c0.blockBits c0.setBits c0.lfu s
      (resetLine ((c0.sets s).lines 0)) (resetLine ((c0.sets s).lines 1)) 0 := by
  rw [cacheSetUp_eq]
  refine ⟨rfl, rfl, hl, rfl, ?_, ?_, ?_⟩ <;> simp [hs, initSet, hl]

/-- LRU eviction order where every shift is defined: with `linesPerSet = 2`, LRU policy and
a geometry with `1 ≤ blockBits + setBits ≤ 63`, for all 64-bit addresses A, B, C, D with
pairwise distinct block addresses that map to the same set, the accesses A, B, C, B, D on a
freshly set-up cache return MISS (insert A), MISS (insert B), EVICT (victim A, insert C),
HIT, EVICT (victim C, insert D), each address standing for its block address. -/
theorem lru_eviction_order_defined_shifts (P : ShiftModel) (c0 : Cache) (A B C D : Nat)
    (hl : c0.linesPerSet = 2) (hlfu : c0.lfu = 0)
    (h1 : 1 ≤ c0.blockBits + c0.setBits) (h2 : c0.blockBits + c0.setBits ≤ 63)
    (hA : A < 2 ^ 64) (hB : B < 2 ^ 64) (hC : C < 2 ^ 64) (hD : D < 2 ^ 64)
    (hblk : [A, B, C, D].Pairwise
      (fun x y => address_to_block P x c0 ≠ address_to_block P y c0))
    (hsB : cache_set P B c0 = cache_set P A c0) (hsC : cache_set P C c0 = cache_set P A c0)
    (hsD : cache_set P D c0 = cache_set P A c0) :
    traceResults P [A, B, C, B, D] (cacheSetUp c0) =
      [{ status := Status.CACHE_MISS, victim_block_addr := 0,
         insert_block_addr := address_to_block P A c0 },
       { status := Status.CACHE_MISS, victim_block_addr := 0,
         insert_block_addr := address_to_block P B c0 },
       { status := Status.CACHE_EVICT, victim_block_addr := address_to_block P A c0,
         insert_block_addr := address_to_block P C c0 },
       { status := Status.CACHE_HIT, victim_block_addr := 0, insert_block_addr := 0 },
       { status := Status.CACHE_EVICT, victim_block_addr := address_to_block P C c0,
         insert_block_addr := address_to_block P D c0 }] := by
  simp only [cache_set_eq, address_to_block_eq] at hblk hsB hsC hsD ⊢
  generalize hbb : c0.blockBits = bb at *
  generalize hsb : c0.setBits = sb at *
  simp only [List.pairwise_cons, List.mem_cons, List.mem_singleton, forall_eq_or_imp, forall_eq,
    List.not_mem_nil, IsEmpty.forall_iff, implies_true, List.Pairwise.nil, and_true] at hblk
  obtain ⟨⟨bAB, bAC, bAD⟩, ⟨bBC, bBD⟩, bCD⟩ := hblk
  have tAB := tag_ne_of_block_ne P bb sb A B h1 h2 hA hB hsB.symm bAB
  have tAC := tag_ne_of_block_ne P bb sb A C h1 h2 hA hC hsC.symm bAC
  have tBC := tag_ne_of_block_ne P bb sb B C h1 h2 hB hC (hsB.trans hsC.symm) bBC
  have tBD := tag_ne_of_block_ne P bb sb B D h1 h2 hB hD (hsB.trans hsD.symm) bBD
  have tCD := tag_ne_of_block_ne P bb sb C D h1 h2 hC hD (hsC.trans hsD.symm) bCD
  have hs : setIdx P bb sb A < 2 ^ c0.setBits := by
    rw [hsb]; exact setIdx_lt P bb sb A (by omega) (by omega)
  have s0 := fresh_twoLineSet c0 (setIdx P bb sb A) hs hl
  rw [hbb, hsb, hlfu] at s0
  obtain ⟨rA, sA⟩ := two_miss0 P A _ bb sb 0 _ _ 0 s0 (by simp [resetLine])
    (by simp [Line.holds, resetLine])
  rw [← hsB] at sA
  obtain ⟨rB, sB⟩ := two_miss1 P B _ bb sb 0 _ _ _ sA (by simp [freshLine])
    (by simp [freshLine]; exact tAB) (by simp [resetLine])
  rw [hsB, ← hsC] at sB
  obtain ⟨rC, sC⟩ := two_evict P C _ bb sb 0 _ _ _ sB (by simp [freshLine])
    (by simp [freshLine]; exact tAC) (by simp [freshLine]) (by simp [freshLine]; exact tBC)
  have bBA : ¬ blockOf P bb B = blockOf P bb A := fun h => bAB h.symm
  simp [twoVictim, victim_step, freshLine, INT64_MAX, bBA] at rC sC
  rw [hsC, ← hsB] at sC
  obtain ⟨rB2, sB2⟩ := two_hit1 P B _ bb sb 0 _ _ _ sC
    (by simp [Line.holds]; exact fun h => absurd h.symm tBC) (by simp [Line.holds])
  rw [hsB, ← hsD] at sB2
  obtain ⟨rD, sD⟩ := two_evict P D _ bb sb 0 _ _ _ sB2 (by simp)
    (by simp; exact tCD) (by simp [touchLine]) (by simp [touchLine]; exact tBD)
  simp [twoVictim, victim_step, touchLine, INT64_MAX] at rD
  simp only [traceResults, rA, rB, rC, rB2, rD]

/-- C3 fails at the failing input `blockBits = setBits = 0`, where `cache_tag` evaluates
`1ULL << 64`: with shifts that take the count modulo 64 every address has tag 0, so on a
fresh two-line LRU cache the accesses 1, 2, 3, 2, 4 (distinct block addresses, all in
set 0) return MISS and then four times HIT. -/
theorem C3_failing_input :
    (blank 0 0 2 0).linesPerSet = 2 ∧ (blank 0 0 2 0).lfu = 0 ∧
    [1, 2, 3, 4].Pairwise (fun x y =>
      address_to_block hwShift x (blank 0 0 2 0) ≠ address_to_block hwShift y (blank 0 0 2 0)) ∧
    (∀ x, x ∈ [1, 2, 3, 4] →
      cache_set hwShift x (blank 0 0 2 0) = cache_set hwShift 1 (blank 0 0 2 0)) ∧
    (traceResults hwShift [1, 2, 3, 2, 4] (cacheSetUp (blank 0 0 2 0))).map (fun r => r.status) =
      [Status.CACHE_MISS, Status.CACHE_HIT, Status.CACHE_HIT, Status.CACHE_HIT,
       Status.CACHE_HIT] := by
  decide

/-- LFU eviction order where every shift is defined: with `linesPerSet = 2`, LFU policy and
a geometry with `1 ≤ blockBits + setBits ≤ 63`, for all 64-bit addresses A, B, C with
pairwise distinct block addresses that map to the same set, the accesses A, B, A, C on a
freshly set-up cache return MISS (insert A), MISS (insert B), HIT, EVICT (victim B,
insert C), each address standing for its block address. -/
theorem lfu_eviction_order_defined_shifts (P : ShiftModel) (c0 : Cache) (A B C : Nat)
    (hl : c0.linesPerSet = 2) (hlfu : c0.lfu = 1)
    (h1 : 1 ≤ c0.blockBits + c0.setBits) (h2 : c0.blockBits + c0.setBits ≤ 63)
    (hA : A < 2 ^ 64) (hB : B < 2 ^ 64) (hC : C < 2 ^ 64)
    (hblk : [A, B, C].Pairwise
      (fun x y => address_to_block P x c0 ≠ address_to_block P y c0))
    (hsB : cache_set P B c0 = cache_set P A c0) (hsC : cache_set P C c0 = cache_set P A c0) :
    traceResults P [A, B, A, C] (cacheSetUp c0) =
      [{ status := Status.CACHE_MISS, victim_block_addr := 0,
         insert_block_addr := address_to_block P A c0 },
       { status := Status.CACHE_MISS, victim_block_addr := 0,
         insert_block_addr := address_to_block P B c0 },
       { status := Status.CACHE_HIT, victim_block_addr := 0, insert_block_addr := 0 },
       { status := Status.CACHE_EVICT, victim_block_addr := address_to_block P B c0,
         insert_block_addr := address_to_block P C c0 }] := by
  simp only [cache_set_eq, address_to_block_eq] at hblk hsB hsC ⊢
  generalize hbb : c0.blockBits = bb at *
  generalize hsb : c0.setBits = sb at *
  simp only [List.pairwise_cons, List.mem_cons, List.mem_singleton, forall_eq_or_imp, forall_eq,
    List.not_mem_nil, IsEmpty.forall_iff, implies_true, List.Pairwise.nil, and_true] at hblk
  obtain ⟨⟨bAB, bAC⟩, bBC⟩ := hblk
  have tAB := tag_ne_of_block_ne P bb sb A B h1 h2 hA hB hsB.symm bAB
  have tAC := tag_ne_of_block_ne P bb sb A C h1 h2 hA hC hsC.symm bAC
  have tBC := tag_ne_of_block_ne P bb sb B C h1 h2 hB hC (hsB.trans hsC.symm) bBC
  have hs : setIdx P bb sb A < 2 ^ c0.setBits := by
    rw [hsb]; exact setIdx_lt P bb sb A (by omega) (by omega)
  have s0 := fresh_twoLineSet c0 (setIdx P bb sb A) hs hl
  rw [hbb, hsb, hlfu] at s0
  obtain ⟨rA, sA⟩ := two_miss0 P A _ bb sb 1 _ _ 0 s0 (by simp [resetLine])
    (by simp [Line.holds, resetLine])
  rw [← hsB] at sA
  obtain ⟨rB, sB⟩ := two_miss1 P B _ bb sb 1 _ _ _ sA (by simp [freshLine])
    (by simp [freshLine]; exact tAB) (by simp [resetLine])
  rw [hsB] at sB
  obtain ⟨rA2, sA2⟩ := two_hit0 P A _ bb sb 1 _ _ _ sB (by simp [Line.holds, freshLine])
  rw [← hsC] at sA2
  obtain ⟨rC, sC⟩ := two_evict P C _ bb sb 1 _ _ _ sA2 (by simp [touchLine, freshLine])
    (by simp [touchLine, freshLine]; exact tAC) (by simp [freshLine])
    (by simp [freshLine]; exact tBC)
  simp [twoVictim, victim_step, touchLine, freshLine, INT32_MAX] at rC
  simp only [traceResults, rA, rB, rA2, rC]

/-- C4 fails at the failing input `blockBits = setBits = 0`, where `cache_tag` evaluates
`1ULL << 64`: with shifts that take the count modulo 64 every address has tag 0, so on a
fresh two-line LFU cache the accesses 1, 2, 1, 3 (distinct block addresses, all in set 0)
return MISS and then three times HIT. -/
theorem C4_failing_input :
    (blank 0 0 2 1).linesPerSet = 2 ∧ (blank 0 0 2 1).lfu = 1 ∧
    [1, 2, 3].Pairwise (fun x y =>
      address_to_block hwShift x (blank 0 0 2 1) ≠ address_to_block hwShift y (blank 0 0 2 1)) ∧
    (∀ x, x ∈ [1, 2, 3] →
      cache_set hwShift x (blank 0 0 2 1) = cache_set hwShift 1 (blank 0 0 2 1)) ∧
    (traceResults hwShift [1, 2, 1, 3] (cacheSetUp (blank 0 0 2 1))).map (fun r => r.status) =
      [Status.CACHE_MISS, Status.CACHE_HIT, Status.CACHE_HIT, Status.CACHE_HIT] := by
  decide

/-- C2 fails at the failing input `blockBits = setBits = 0`, where `cache_tag` evaluates
`1ULL << 64`: with shifts that take the count modulo 64 every address has tag 0, so on a
fresh one-line cache the accesses 1, 2 (distinct block addresses, both in set 0) return
MISS, HIT and no EVICT. -/
theorem C2_failing_input :
    1 ≤ (blank 0 0 1 0).linesPerSet ∧
    ([1, 2] : List Nat).length = (blank 0 0 1 0).linesPerSet + 1 ∧
    [1, 2].Pairwise (fun x y =>
      address_to_block hwShift x (blank 0 0 1 0) ≠ address_to_block hwShift y (blank 0 0 1 0)) ∧
    (∀ x, x ∈ [1, 2] → ∀ y, y ∈ [1, 2] →
      cache_set hwShift x (blank 0 0 1 0) = cache_set hwShift y (blank 0 0 1 0)) ∧
    (traceResults hwShift [1, 2] (cacheSetUp (blank 0 0 1 0))).map (fun r => r.status) =
      [Status.CACHE_MISS, Status.CACHE_HIT] := by
  decide

/-! ## The worked example -/

/-- C5 (amended). Worked example: with `blockBits = 2`, `setBits = 1`, `linesPerSet = 1`
and LRU policy, the addresses `0x0` and `0x4` map to different sets (0 and 1), and the
accesses `0x0`, `0x4`, `0x0` on a freshly set-up cache return MISS (insert `0x0`), MISS
(insert `0x4`), HIT. -/
theorem C5_worked_example (P : ShiftModel) (c0 : Cache) (hbb : c0.blockBits = 2)
    (hsb : c0.setBits = 1) (hl : c0.linesPerSet = 1) (_hlfu : c0.lfu = 0) :
    cache_set P 0x0 c0 = 0 ∧ cache_set P 0x4 c0 = 1 ∧
    traceResults P [0x0, 0x4, 0x0] (cacheSetUp c0) =
      [{ status := Status.CACHE_MISS, victim_block_addr := 0, insert_block_addr := 0x0 },
       { status := Status.CACHE_MISS, victim_block_addr := 0, insert_block_addr := 0x4 },
       { status := Status.CACHE_HIT, victim_block_addr := 0, insert_block_addr := 0 }] := by
  obtain ⟨g1, g2, g3, _⟩ := cacheSetUp_geom c0
  have set0 : ∀ c : Cache, c.blockBits = 2 → c.setBits = 1 → cache_set P 0 c = 0 := by
    intro c e1 e2
    rw [cache_set_eq, e1, e2, setIdx_eq P 2 1 0 (by norm_num) (by norm_num)]
    norm_num
  have set4 : ∀ c : Cache, c.blockBits = 2 → c.setBits = 1 → cache_set P 4 c = 1 := by
    intro c e1 e2
    rw [cache_set_eq, e1, e2, setIdx_eq P 2 1 4 (by norm_num) (by norm_num)]
    norm_num
  have tag0 : ∀ c : Cache, c.blockBits = 2 → c.setBits = 1 → cache_tag P 0 c = 0 := by
    intro c e1 e2
    rw [cache_tag_eq, e1, e2, tagOf_eq P 2 1 0 (by norm_num) (by norm_num)]
    norm_num
  have tag4 : ∀ c : Cache, c.blockBits = 2 → c.setBits = 1 → cache_tag P 4 c = 0 := by
    intro c e1 e2
    rw [cache_tag_eq, e1, e2, tagOf_eq P 2 1 4 (by norm_num) (by norm_num)]
    norm_num
  have blk0 : ∀ c : Cache, c.blockBits = 2 → address_to_block P 0 c = 0 := by
    intro c e1
    rw [address_to_block_eq, e1, blockOf_eq P 2 0 (by norm_num) (by norm_num)]
    norm_num
  have blk4 : ∀ c : Cache, c.blockBits = 2 → address_to_block P 4 c = 4 := by
    intro c e1
    rw [address_to_block_eq, e1, blockOf_eq P 2 4 (by norm_num) (by norm_num)]
    norm_num
  refine ⟨set0 c0 hbb hsb, set4 c0 hbb hsb, ?_⟩
  have b1 : (cacheSetUp c0).blockBits = 2 := by rw [g3, hbb]
  have s1 : (cacheSetUp c0).setBits = 1 := by rw [g1, hsb]
  have l1 : (cacheSetUp c0).linesPerSet = 1 := by rw [g2, hl]
  -- first access: address 0 misses in set 0
  have inv0 : (((cacheSetUp c0).sets 0).lines 0).valid = false :=
    cacheSetUp_line_invalid c0 0 0 (by rw [hsb]; norm_num) (by omega)
  have inv1 : (((cacheSetUp c0).sets 1).lines 0).valid = false :=
    cacheSetUp_line_invalid c0 1 0 (by rw [hsb]; norm_num) (by omega)
  have p1 : probe_cache P 0 (cacheSetUp c0) = false := by
    rw [probe_cache_eq_false_iff]
    intro j hj
    have : j = 0 := by omega
    rw [this, set0 _ b1 s1]
    simp [Line.holds, inv0]
  have r1 := operateCache_miss P 0 (cacheSetUp c0) 0 (by omega) p1
    (by rw [set0 _ b1 s1]; exact inv0) (by intro j hj; omega)
  rw [set0 _ b1 s1, tag0 _ b1 s1, blk0 _ b1] at r1
  -- second access: address 4 misses in set 1
  have b2 : (missState (cacheSetUp c0) 0 0 0 0).blockBits = 2 := b1
  have s2 : (missState (cacheSetUp c0) 0 0 0 0).setBits = 1 := s1
  have l2 : (missState (cacheSetUp c0) 0 0 0 0).linesPerSet = 1 := l1
  have p2 : probe_cache P 4 (missState (cacheSetUp c0) 0 0 0 0) = false := by
    rw [probe_cache_eq_false_iff]
    intro j hj
    have : j = 0 := by omega
    rw [this, set4 _ b2 s2, missState_sets_other _ _ _ _ _ _ (by norm_num)]
    simp [Line.holds, inv1]
  have r2 := operateCache_miss P 4 (missState (cacheSetUp c0) 0 0 0 0) 0 (by omega) p2
    (by rw [set4 _ b2 s2, missState_sets_other _ _ _ _ _ _ (by norm_num)]; exact inv1)
    (by intro j hj; omega)
  rw [set4 _ b2 s2, tag4 _ b2 s2, blk4 _ b2] at r2
  -- third access: address 0 hits in set 0
  have b3 : (missState (missState (cacheSetUp c0) 0 0 0 0) 1 0 0 4).blockBits = 2 := b1
  have s3 : (missState (missState (cacheSetUp c0) 0 0 0 0) 1 0 0 4).setBits = 1 := s1
  have l3 : (missState (missState (cacheSetUp c0) 0 0 0 0) 1 0 0 4).linesPerSet = 1 := l1
  have r3 := operateCache_hit P 0 (missState (missState (cacheSetUp c0) 0 0 0 0) 1 0 0 4) 0
    (by omega)
    (by
      rw [set0 _ b3 s3, tag0 _ b3 s3, missState_sets_other _ _ _ _ _ _ (by norm_num),
        missState_sets_same]
      simp [Line.holds, freshLine])
    (by intro j hj; omega)
  rw [set0 _ b3 s3] at r3
  simp only [traceResults, r1, r2, r3]

/-- Witness for C5: the example on a cache record whose memory is all zero. -/
theorem C5_worked_example_witness :
    cache_set hwShift 0x0 (blank 2 1 1 0) = 0 ∧ cache_set hwShift 0x4 (blank 2 1 1 0) = 1 ∧
    traceResults hwShift [0x0, 0x4, 0x0] (cacheSetUp (blank 2 1 1 0)) =
      [{ status := Status.CACHE_MISS, victim_block_addr := 0, insert_block_addr := 0x0 },
       { status := Status.CACHE_MISS, victim_block_addr := 0, insert_block_addr := 0x4 },
       { status := Status.CACHE_HIT, victim_block_addr := 0, insert_block_addr := 0 }] :=
  C5_worked_example hwShift (blank 2 1 1 0) (by decide) (by decide) (by decide) (by decide)

/-- C5 as stated fails: with `blockBits = 2` and `setBits = 1` the set index is bit 2 of
the address, so `0x0` maps to set 0 and `0x4` to set 1, and the accesses `0x0`, `0x4`,
`0x0` on a fresh one-line LRU cache do not return MISS, EVICT, EVICT. -/
theorem C5_counterexample :
    cache_set hwShift 0x0 (blank 2 1 1 0) ≠ cache_set hwShift 0x4 (blank 2 1 1 0) ∧
    traceResults hwShift [0x0, 0x4, 0x0] (cacheSetUp (blank 2 1 1 0)) ≠
      [{ status := Status.CACHE_MISS, victim_block_addr := 0, insert_block_addr := 0x0 },
       { status := Status.CACHE_EVICT, victim_block_addr := 0x0, insert_block_addr := 0x4 },
       { status := Status.CACHE_EVICT, victim_block_addr := 0x4, insert_block_addr := 0x0 }] := by
  decide

/-! ## The miss path and the hit path -/

/-- The clocks after one access. -/
theorem operateCache_clock (P : ShiftModel) (a : Nat) (c : Cache) :
    ((operateCache P a c).2.sets (cache_set P a c)).lru_clock =
        inc64 (c.sets (cache_set P a c)).lru_clock ∧
    ∀ i, i ≠ cache_set P a c →
      ((operateCache P a c).2.sets i).lru_clock = (c.sets i).lru_clock := by
  rcases operateCache_cases P a c with ⟨_, j0, _, _, _, h⟩ | ⟨_, j0, _, _, _, h⟩ | ⟨_, _, h⟩
  · rw [h]
    refine ⟨?_, ?_⟩
    · show ((hitState c _ j0).sets (cache_set P a c)).lru_clock = _
      rw [hitState_sets_same]
    · intro i hi
      show ((hitState c _ j0).sets i).lru_clock = _
      rw [hitState_sets_other _ _ _ _ hi]
  · rw [h]
    refine ⟨?_, ?_⟩
    · show ((missState c _ j0 _ _).sets (cache_set P a c)).lru_clock = _
      rw [missState_sets_same]
    · intro i hi
      show ((missState c _ j0 _ _).sets i).lru_clock = _
      rw [missState_sets_other _ _ _ _ _ _ hi]
  · rw [h]
    refine ⟨?_, ?_⟩
    · show ((evictState c _ _ _ _).sets (cache_set P a c)).lru_clock = _
      rw [evictState_sets_same]
    · intro i hi
      show ((evictState c _ _ _ _).sets i).lru_clock = _
      rw [evictState_sets_other _ _ _ _ _ _ hi]

theorem cache_set_congr (P : ShiftModel) (a : Nat) (c c2 : Cache)
    (hb : c2.blockBits = c.blockBits) (hs : c2.setBits = c.setBits) :
    cache_set P a c2 = cache_set P a c := by
  rw [cache_set_eq, cache_set_eq, hb, hs]

/-- The clock of set `i` after a trace: one `unsigned long long` tick per address that maps
to `i`. -/
theorem runTrace_clock (P : ShiftModel) (c0 : Cache) (addrs : List Nat) (i : Nat) :
    ∀ c : Cache, c.blockBits = c0.blockBits → c.setBits = c0.setBits →
      (c.sets i).lru_clock < 2 ^ 64 →
      ((runTrace P addrs c).sets i).lru_clock =
        ((c.sets i).lru_clock +
          (addrs.filter (fun a => decide (cache_set P a c0 = i))).length) % 2 ^ 64 := by
  induction addrs with
  | nil =>
    intro c _ _ hc
    simp only [runTrace, List.filter_nil, List.length_nil, Nat.add_zero]
    exact (Nat.mod_eq_of_lt hc).symm
  | cons a rest ih =>
    intro c hb hs hc
    obtain ⟨g1, _, g3, _⟩ := operateCache_geom P a c
    have hset : cache_set P a c = cache_set P a c0 := cache_set_congr P a c0 c hb hs
    obtain ⟨k1, k2⟩ := operateCache_clock P a c
    simp only [runTrace]
    by_cases hi : cache_set P a c0 = i
    · have hi2 : cache_set P a c = i := by rw [hset, hi]
      rw [hi2] at k1
      have hrec := ih (operateCache P a c).2 (by rw [g3, hb]) (by rw [g1, hs])
        (by rw [k1]; unfold inc64; omega)
      rw [hrec, k1, List.filter_cons_of_pos (by simpa using hi), List.length_cons]
      unfold inc64
      omega
    · have hi2 : i ≠ cache_set P a c := by
        rw [hset]; exact fun e => hi e.symm
      have hrec := ih (operateCache P a c).2 (by rw [g3, hb]) (by rw [g1, hs])
        (by rw [k2 i hi2]; exact hc)
      rw [hrec, k2 i hi2, List.filter_cons_of_neg (by simpa using hi)]

/-- C14 (amended). Set clock: an access adds exactly 1 to the clock of the set of its
address when that clock is below `2 ^ 64 - 1`, the largest `unsigned long long`, and sets
it to 0 when it is `2 ^ 64 - 1`, whatever the outcome, and leaves the clock of every other
set; hence after any trace on a freshly set-up cache the clock of each of the
`2 ^ setBits` sets is the number of accesses whose address mapped to that set, reduced
modulo `2 ^ 64`: the number itself when it is below `2 ^ 64`. -/
theorem C14_set_clock (P : ShiftModel) :
    (∀ (a : Nat) (c : Cache),
      ((c.sets (cache_set P a c)).lru_clock < 2 ^ 64 - 1 →
        ((operateCache P a c).2.sets (cache_set P a c)).lru_clock =
          (c.sets (cache_set P a c)).lru_clock + 1) ∧
      ((c.sets (cache_set P a c)).lru_clock = 2 ^ 64 - 1 →
        ((operateCache P a c).2.sets (cache_set P a c)).lru_clock = 0) ∧
      ∀ i, i ≠ cache_set P a c →
        ((operateCache P a c).2.sets i).lru_clock = (c.sets i).lru_clock) ∧
    (∀ (c0 : Cache) (addrs : List Nat) (i : Nat), i < 2 ^ c0.setBits →
      ((runTrace P addrs (cacheSetUp c0)).sets i).lru_clock =
        (addrs.filter (fun a => decide (cache_set P a c0 = i))).length % 2 ^ 64 ∧
      ((addrs.filter (fun a => decide (cache_set P a c0 = i))).length < 2 ^ 64 →
        ((runTrace P addrs (cacheSetUp c0)).sets i).lru_clock =
          (addrs.filter (fun a => decide (cache_set P a c0 = i))).length)) := by
  refine ⟨fun a c => ?_, ?_⟩
  · obtain ⟨k1, k2⟩ := operateCache_clock P a c
    refine ⟨fun h => by rw [k1, inc64_eq _ h], fun h => by rw [k1, h]; decide, k2⟩
  · intro c0 addrs i hi
    obtain ⟨g1, _, g3, _⟩ := cacheSetUp_geom c0
    have h := runTrace_clock P c0 addrs i (cacheSetUp c0) g3 g1
      (by rw [cacheSetUp_clock c0 i hi]; norm_num)
    rw [cacheSetUp_clock c0 i hi, Nat.zero_add] at h
    exact ⟨h, fun hlt => by rw [h, Nat.mod_eq_of_lt hlt]⟩

/-- Witness for C14: after the trace 0, 4, 0, 8 on a two-set cache, set 0 has seen three
accesses and set 1 one; the fourth access finds the clock of set 0 at 2. -/
theorem C14_set_clock_witness :
    ((runTrace hwShift [0, 4, 0, 8] (cacheSetUp (blank 2 1 1 0))).sets 0).lru_clock =
      ([0, 4, 0, 8].filter
        (fun a => decide (cache_set hwShift a (blank 2 1 1 0) = 0))).length ∧
    ((runTrace hwShift [0, 4, 0, 8] (cacheSetUp (blank 2 1 1 0))).sets 0).lru_clock = 3 ∧
    ((runTrace hwShift [0, 4, 0, 8] (cacheSetUp (blank 2 1 1 0))).sets 1).lru_clock = 1 ∧
    ((operateCache hwShift 8 (runTrace hwShift [0, 4, 0] (cacheSetUp (blank 2 1 1 0)))).2.sets
        (cache_set hwShift 8 (runTrace hwShift [0, 4, 0] (cacheSetUp (blank 2 1 1 0))))).lru_clock =
      ((runTrace hwShift [0, 4, 0] (cacheSetUp (blank 2 1 1 0))).sets
        (cache_set hwShift 8 (runTrace hwShift [0, 4, 0] (cacheSetUp (blank 2 1 1 0))))).lru_clock
        + 1 :=
  ⟨((C14_set_clock hwShift).2 (blank 2 1 1 0) [0, 4, 0, 8] 0 (by decide)).2 (by decide),
    by decide, by decide,
    ((C14_set_clock hwShift).1 8
      (runTrace hwShift [0, 4, 0] (cacheSetUp (blank 2 1 1 0)))).1 (by decide)⟩

/-! ## Set-up postcondition -/

/-- The set index is below `2 ^ setBits` for every geometry and every shift behaviour. -/
theorem setIdx_lt_all (P : ShiftModel) (bb sb a : Nat) : setIdx P bb sb a < 2 ^ sb := by
  unfold setIdx
  by_cases hs : sb < 64
  · rw [shl64_one P sb hs, sub64_pow_one sb hs, Nat.and_pow_two_sub_one_eq_mod]
    exact Nat.mod_lt _ (Nat.two_pow_pos _)
  · have h1 : shr64 P a ↑bb &&& sub64 (shl64 P 1 ↑sb) 1 ≤ sub64 (shl64 P 1 ↑sb) 1 :=
      Nat.and_le_right
    have h2 : sub64 (shl64 P 1 ↑sb) 1 < 2 ^ 64 := by
      unfold sub64
      exact Nat.mod_lt _ (Nat.two_pow_pos _)
    have h3 : 2 ^ 64 ≤ 2 ^ sb := Nat.pow_le_pow_right (by norm_num) (by omega)
    omega

theorem probe_cache_setUp (P : ShiftModel) (a : Nat) (c : Cache) :
    probe_cache P a (cacheSetUp c) = false := by
  obtain ⟨g1, g2, g3, _⟩ := cacheSetUp_geom c
  rw [probe_cache_eq_false_iff]
  intro j hj
  have hs : cache_set P a (cacheSetUp c) < 2 ^ c.setBits := by
    rw [cache_set_eq, g1]
    exact setIdx_lt_all P _ _ _
  rw [g2] at hj
  have hv := cacheSetUp_line_invalid c _ j hs hj
  simp [Line.holds, hv]

/-- C15 (amended). Set-up postcondition: after `cacheSetUp` the geometry and the policy
are those of the input, each of the `2 ^ setBits` sets has clock 0 and each of its
`linesPerSet` lines has `valid = false`; nothing outside these sets and lines is written,
and `hit_count`, `miss_count` and `eviction_count` keep the values of the input engine;
consequently the probe returns false for every address. -/
theorem C15_setup_postcondition (c : Cache) :
    ((cacheSetUp c).setBits = c.setBits ∧ (cacheSetUp c).linesPerSet = c.linesPerSet ∧
      (cacheSetUp c).blockBits = c.blockBits ∧ (cacheSetUp c).lfu = c.lfu) ∧
    (∀ i, i < 2 ^ c.setBits →
      ((cacheSetUp c).sets i).lru_clock = 0 ∧
      ∀ j, j < c.linesPerSet → (((cacheSetUp c).sets i).lines j).valid = false) ∧
    (∀ i, 2 ^ c.setBits ≤ i → (cacheSetUp c).sets i = c.sets i) ∧
    (∀ i j, c.linesPerSet ≤ j → ((cacheSetUp c).sets i).lines j = (c.sets i).lines j) ∧
    ((cacheSetUp c).hit_count = c.hit_count ∧ (cacheSetUp c).miss_count = c.miss_count ∧
      (cacheSetUp c).eviction_count = c.eviction_count) ∧
    (∀ (P : ShiftModel) (a : Nat), probe_cache P a (cacheSetUp c) = false) := by
  refine ⟨cacheSetUp_geom c, ?_, ?_, ?_, ?_, fun P a => probe_cache_setUp P a c⟩
  · intro i hi
    exact ⟨cacheSetUp_clock c i hi, fun j hj => cacheSetUp_line_invalid c i j hi hj⟩
  · intro i hi
    rw [cacheSetUp_eq]
    have : ¬ i < 2 ^ c.setBits := by omega
    simp [this]
  · intro i j hj
    rw [cacheSetUp_eq]
    have hj2 : ¬ j < c.linesPerSet := by omega
    by_cases hi : i < 2 ^ c.setBits
    · simp [hi, initSet, hj2]
    · simp [hi]
  · rw [cacheSetUp_eq]
    exact ⟨rfl, rfl, rfl⟩

/-- Witness for C15: the set-up of a used engine with two sets of one line. -/
theorem C15_setup_postcondition_witness :
    ((cacheSetUp usedCache).sets 1).lru_clock = 0 ∧
    (((cacheSetUp usedCache).sets 1).lines 0).valid = false ∧
    (cacheSetUp usedCache).sets 2 = usedCache.sets 2 ∧
    probe_cache hwShift 4 (cacheSetUp usedCache) = false :=
  ⟨((C15_setup_postcondition usedCache).2.1 1 (by decide)).1,
    ((C15_setup_postcondition usedCache).2.1 1 (by decide)).2 0 (by decide),
    (C15_setup_postcondition usedCache).2.2.1 2 (by decide),
    (C15_setup_postcondition usedCache).2.2.2.2.2 hwShift 4⟩

/-- C15 as stated fails: `cacheSetUp` does not write the statistics.  On an engine whose
counters are 7, 5 and 2 they are still 7, 5 and 2 after set-up, not 0. -/
theorem C15_counterexample :
    (cacheSetUp usedCache).hit_count = 7 ∧ (cacheSetUp usedCache).miss_count = 5 ∧
    (cacheSetUp usedCache).eviction_count = 2 := by
  decide

/-! ## Block address, set index and tag -/

theorem blockOf_lt (P : ShiftModel) (bb a : Nat) (ha : a < 2 ^ 64) : blockOf P bb a < 2 ^ 64 :=
  lt_of_le_of_lt Nat.and_le_left ha

theorem blockOf_idem (P : ShiftModel) (bb a : Nat) :
    blockOf P bb (blockOf P bb a) = blockOf P bb a := by
  unfold blockOf
  rw [Nat.and_assoc, Nat.and_self]

/-- C20. For every geometry with `1 ≤ blockBits + setBits ≤ 63` and all 64-bit addresses
`a`, `b`: the block addresses are equal exactly when the set indices and the tags are
equal; `address_to_block` is idempotent and keeps the set index and the tag. -/
theorem C20_block_identity (P : ShiftModel) (c : Cache) (a b : Nat)
    (h1 : 1 ≤ c.blockBits + c.setBits) (h2 : c.blockBits + c.setBits ≤ 63)
    (ha : a < 2 ^ 64) (hb : b < 2 ^ 64) :
    (address_to_block P a c = address_to_block P b c ↔
      cache_set P a c = cache_set P b c ∧ cache_tag P a c = cache_tag P b c) ∧
    address_to_block P (address_to_block P a c) c = address_to_block P a c ∧
    cache_set P (address_to_block P a c) c = cache_set P a c ∧
    cache_tag P (address_to_block P a c) c = cache_tag P a c := by
  simp only [cache_set_eq, cache_tag_eq, address_to_block_eq]
  generalize c.blockBits = bb at *
  generalize c.setBits = sb at *
  have hX : 0 < 2 ^ bb := Nat.two_pow_pos _
  have hba := blockOf_lt P bb a ha
  have divblk : ∀ x, x < 2 ^ 64 → blockOf P bb x / 2 ^ bb = x / 2 ^ bb := by
    intro x hx
    rw [blockOf_eq P bb x (by omega) hx, Nat.mul_div_cancel _ hX]
  have tagdiv : ∀ x, x < 2 ^ 64 → tagOf P bb sb x = x / 2 ^ bb / 2 ^ sb := by
    intro x hx
    rw [tagOf_eq_div P bb sb x h1 h2 hx, Nat.pow_add, Nat.div_div_eq_div_mul]
  refine ⟨⟨?_, ?_⟩, blockOf_idem P bb a, ?_, ?_⟩
  · intro he
    have hq : a / 2 ^ bb = b / 2 ^ bb := by
      rw [← divblk a ha, ← divblk b hb, he]
    rw [setIdx_eq P bb sb a (by omega) (by omega), setIdx_eq P bb sb b (by omega) (by omega),
      tagdiv a ha, tagdiv b hb, hq]
    exact ⟨rfl, rfl⟩
  · rintro ⟨hs, ht⟩
    exact block_eq_of_set_tag_eq P bb sb a b h1 h2 ha hb hs ht
  · rw [setIdx_eq P bb sb _ (by omega) (by omega), setIdx_eq P bb sb a (by omega) (by omega),
      divblk a ha]
  · rw [tagdiv _ hba, tagdiv a ha, divblk a ha]

/-- Witness for C20: addresses `0x1234` and `0x1236` share their block in the geometry
`blockBits = 2`, `setBits = 1`. -/
theorem C20_block_identity_witness :
    (address_to_block hwShift 0x1234 (blank 2 1 1 0) =
        address_to_block hwShift 0x1236 (blank 2 1 1 0) ↔
      cache_set hwShift 0x1234 (blank 2 1 1 0) = cache_set hwShift 0x1236 (blank 2 1 1 0) ∧
      cache_tag hwShift 0x1234 (blank 2 1 1 0) = cache_tag hwShift 0x1236 (blank 2 1 1 0)) ∧
    address_to_block hwShift (address_to_block hwShift 0x1234 (blank 2 1 1 0)) (blank 2 1 1 0) =
      address_to_block hwShift 0x1234 (blank 2 1 1 0) ∧
    cache_set hwShift (address_to_block hwShift 0x1234 (blank 2 1 1 0)) (blank 2 1 1 0) =
      cache_set hwShift 0x1234 (blank 2 1 1 0) ∧
    cache_tag hwShift (address_to_block hwShift 0x1234 (blank 2 1 1 0)) (blank 2 1 1 0) =
      cache_tag hwShift 0x1234 (blank 2 1 1 0) :=
  C20_block_identity hwShift (blank 2 1 1 0) 0x1234 0x1236 (by decide) (by decide) (by decide)
    (by decide)

/-! ## Invariants of the reachable states -/

theorem hitState_line (c : Cache) (s j0 i j : Nat) :
    ((hitState c s j0).sets i).lines j =
      if i = s ∧ j = j0 then
        touchLine c.lfu ((c.sets s).lines j0) (inc64 (c.sets s).lru_clock)
      else (c.sets i).lines j := by
  by_cases hi : i = s
  · subst hi
    rw [hitState_sets_same]
    by_cases hj : j = j0
    · subst hj; simp
    · simp [store, hj]
  · rw [hitState_sets_other _ _ _ _ hi]
    simp [hi]

theorem missState_line (c : Cache) (s j0 t b i j : Nat) :
    ((missState c s j0 t b).sets i).lines j =
      if i = s ∧ j = j0 then freshLine t b (inc64 (c.sets s).lru_clock)
      else (c.sets i).lines j := by
  by_cases hi : i = s
  · subst hi
    rw [missState_sets_same]
    by_cases hj : j = j0
    · subst hj; simp
    · simp [store, hj]
  · rw [missState_sets_other _ _ _ _ _ _ hi]
    simp [hi]

theorem evictState_line (c : Cache) (s v t b i j : Nat) :
    ((evictState c s v t b).sets i).lines j =
      if i = s ∧ j < c.linesPerSet ∧ ((c.sets s).lines j).block_addr = v then
        freshLine t b (inc64 (c.sets s).lru_clock)
      else (c.sets i).lines j := by
  by_cases hi : i = s
  · subst hi
    rw [evictState_sets_same]
    simp [replaceLines]
  · rw [evictState_sets_other _ _ _ _ _ _ hi]
    simp [hi]

theorem hitState_clock (c : Cache) (s j0 i : Nat) :
    ((hitState c s j0).sets i).lru_clock =
      if i = s then inc64 (c.sets s).lru_clock else (c.sets i).lru_clock := by
  by_cases hi : i = s
  · subst hi; rw [hitState_sets_same]; simp
  · rw [hitState_sets_other _ _ _ _ hi]; simp [hi]

theorem missState_clock (c : Cache) (s j0 t b i : Nat) :
    ((missState c s j0 t b).sets i).lru_clock =
      if i = s then inc64 (c.sets s).lru_clock else (c.sets i).lru_clock := by
  by_cases hi : i = s
  · subst hi; rw [missState_sets_same]; simp
  · rw [missState_sets_other _ _ _ _ _ _ hi]; simp [hi]

theorem evictState_clock (c : Cache) (s v t b i : Nat) :
    ((evictState c s v t b).sets i).lru_clock =
      if i = s then inc64 (c.sets s).lru_clock else (c.sets i).lru_clock := by
  by_cases hi : i = s
  · subst hi; rw [evictState_sets_same]; simp
  · rw [evictState_sets_other _ _ _ _ _ _ hi]; simp [hi]

/-- For `blockBits + setBits ≤ 64` the block address of an address has the set index and
the tag of the address, whatever a shift outside `0 .. 63` yields. -/
theorem decomp_block (P : ShiftModel) (bb sb a : Nat) (h : bb + sb ≤ 64) (ha : a < 2 ^ 64) :
    setIdx P bb sb (blockOf P bb a) = setIdx P bb sb a ∧
    tagOf P bb sb (blockOf P bb a) = tagOf P bb sb a := by
  have mask0 : sub64 (shl64 P 1 ((0 : Nat) : Int)) 1 = 0 := by
    rw [shl64_one P 0 (by norm_num), sub64_pow_one 0 (by norm_num)]
    norm_num
  by_cases hb : bb < 64
  · have hX : 0 < 2 ^ bb := Nat.two_pow_pos _
    have hblk := blockOf_eq P bb a hb ha
    refine ⟨?_, ?_⟩
    · unfold setIdx
      rw [shr64_in P _ bb hb, shr64_in P a bb hb, hblk, Nat.mul_div_cancel _ hX]
    · unfold tagOf
      have e1 : (64 : Int) - (64 - (bb : Int) - (sb : Int)) = ((bb + sb : Nat) : Int) := by
        push_cast; ring
      rw [e1]
      by_cases h63 : bb + sb ≤ 63
      · rw [shr64_in P _ (bb + sb) (by omega), shr64_in P a (bb + sb) (by omega), hblk]
        have : a / 2 ^ bb * 2 ^ bb / 2 ^ (bb + sb) = a / 2 ^ (bb + sb) := by
          rw [Nat.pow_add, ← Nat.div_div_eq_div_mul, Nat.mul_div_cancel _ hX,
            Nat.div_div_eq_div_mul]
        rw [this]
      · have e2 : (64 : Int) - (bb : Int) - (sb : Int) = ((0 : Nat) : Int) := by
          push_cast; omega
        rw [e2, mask0, Nat.and_zero, Nat.and_zero]
  · have hbb : bb = 64 := by omega
    have hsb : sb = 0 := by omega
    subst hbb; subst hsb
    refine ⟨?_, ?_⟩
    · unfold setIdx
      rw [mask0, Nat.and_zero, Nat.and_zero]
    · unfold tagOf
      have e2 : (64 : Int) - ((64 : Nat) : Int) - ((0 : Nat) : Int) = ((0 : Nat) : Int) := by
        norm_num
      rw [e2, mask0, Nat.and_zero, Nat.and_zero]

/-- The line an insertion or a replacement writes satisfies the tagging invariant. -/
theorem fresh_wellTagged (P : ShiftModel) (a : Nat) (c : Cache)
    (hg : c.blockBits + c.setBits ≤ 64) (ha : a < 2 ^ 64) :
    cache_set P (address_to_block P a c) c = cache_set P a c ∧
    cache_tag P (address_to_block P a c) c = cache_tag P a c ∧
    address_to_block P (address_to_block P a c) c = address_to_block P a c := by
  simp only [cache_set_eq, cache_tag_eq, address_to_block_eq]
  obtain ⟨h1, h2⟩ := decomp_block P c.blockBits c.setBits a hg ha
  exact ⟨h1, h2, blockOf_idem P _ a⟩

/-- Under the invariants two valid lines of a set with the same block address coincide. -/
theorem block_unique (P : ShiftModel) (c : Cache) (h1 : WellTagged P c) (h2 : DistinctTags c)
    (i j k : Nat) (hi : i < 2 ^ c.setBits) (hj : j < c.linesPerSet) (hk : k < c.linesPerSet)
    (vj : ((c.sets i).lines j).valid = true) (vk : ((c.sets i).lines k).valid = true)
    (hb : ((c.sets i).lines j).block_addr = ((c.sets i).lines k).block_addr) : j = k := by
  apply h2 i j k hi hj hk vj vk
  rw [← (h1 i j hi hj vj).2.1, ← (h1 i k hi hk vk).2.1, hb]

theorem touchLine_fields (lfu : Int) (l : Line) (clk : Nat) :
    (touchLine lfu l clk).valid = l.valid ∧ (touchLine lfu l clk).tag = l.tag ∧
    (touchLine lfu l clk).block_addr = l.block_addr ∧
    (touchLine lfu l clk).lru_clock = if lfu = 0 then clk else l.lru_clock := by
  unfold touchLine
  split <;> simp [*]

/-- A hit keeps the `valid` flag, the tag and the block address of every line. -/
theorem hitState_line_fields (c : Cache) (s j0 i j : Nat) :
    (((hitState c s j0).sets i).lines j).valid = ((c.sets i).lines j).valid ∧
    (((hitState c s j0).sets i).lines j).tag = ((c.sets i).lines j).tag ∧
    (((hitState c s j0).sets i).lines j).block_addr = ((c.sets i).lines j).block_addr := by
  rw [hitState_line]
  by_cases h : i = s ∧ j = j0
  · obtain ⟨hi, hj⟩ := h
    subst hi; subst hj
    simp only [and_self, if_true]
    obtain ⟨h1, h2, h3, _⟩ :=
      touchLine_fields c.lfu ((c.sets i).lines j) (inc64 (c.sets i).lru_clock)
    exact ⟨h1, h2, h3⟩
  · rw [if_neg h]
    exact ⟨rfl, rfl, rfl⟩

theorem hitState_line_lru (c : Cache) (s j0 i j : Nat) :
    (((hitState c s j0).sets i).lines j).lru_clock =
      if i = s ∧ j = j0 ∧ c.lfu = 0 then inc64 (c.sets s).lru_clock
      else ((c.sets i).lines j).lru_clock := by
  rw [hitState_line]
  by_cases h : i = s ∧ j = j0
  · obtain ⟨hi, hj⟩ := h
    subst hi; subst hj
    simp only [and_self, if_true, true_and]
    exact (touchLine_fields c.lfu ((c.sets i).lines j) (inc64 (c.sets i).lru_clock)).2.2.2
  · rw [if_neg h, if_neg (fun hh => h ⟨hh.1, hh.2.1⟩)]

/-- A hit keeps the tagging invariants. -/
theorem tags_hit (P : ShiftModel) (c : Cache) (s j0 : Nat) (h : TagInv P c) :
    TagInv P (hitState c s j0) := by
  obtain ⟨h1, h2⟩ := h
  refine ⟨?_, ?_⟩
  · intro i j hi hj hv
    obtain ⟨f1, f2, f3⟩ := hitState_line_fields c s j0 i j
    rw [f1] at hv
    rw [f2, f3]
    exact h1 i j hi hj hv
  · intro i j k hi hj hk vj vk ht
    obtain ⟨f1, f2, _⟩ := hitState_line_fields c s j0 i j
    obtain ⟨g1, g2, _⟩ := hitState_line_fields c s j0 i k
    rw [f1] at vj
    rw [g1] at vk
    rw [f2, g2] at ht
    exact h2 i j k hi hj hk vj vk ht

/-- A miss that fills a line keeps the tagging invariants. -/
theorem tags_miss (P : ShiftModel) (a : Nat) (c : Cache) (j0 : Nat)
    (hg : c.blockBits + c.setBits ≤ 64) (ha : a < 2 ^ 64)
    (hp : probe_cache P a c = false)
    (h : TagInv P c) :
    TagInv P (missState c (cache_set P a c) j0 (cache_tag P a c) (address_to_block P a c)) := by
  obtain ⟨h1, h2⟩ := h
  obtain ⟨w1, w2, w3⟩ := fresh_wellTagged P a c hg ha
  have hno : ∀ j, j < c.linesPerSet → ((c.sets (cache_set P a c)).lines j).valid = true →
      ((c.sets (cache_set P a c)).lines j).tag ≠ cache_tag P a c := by
    intro j hj hv ht
    have := (probe_cache_eq_false_iff P a c).1 hp j hj
    rw [(holds_iff _ _).2 ⟨hv, ht⟩] at this
    exact Bool.noConfusion this
  refine ⟨?_, ?_⟩
  · intro i j hi hj hv
    rw [missState_line] at hv ⊢
    by_cases hh : i = cache_set P a c ∧ j = j0
    · rw [if_pos hh]
      rw [hh.1]
      exact ⟨w1, w2, w3⟩
    · rw [if_neg hh] at hv ⊢
      exact h1 i j hi hj hv
  · intro i j k hi hj hk vj vk ht
    rw [missState_line] at vj ht
    rw [missState_line] at vk ht
    by_cases ej : i = cache_set P a c ∧ j = j0
    · by_cases ek : i = cache_set P a c ∧ k = j0
      · rw [ej.2, ek.2]
      · rw [if_neg ek] at vk
        rw [if_pos ej, if_neg ek] at ht
        exfalso
        have := ej.1
        subst this
        exact hno k hk vk ht.symm
    · by_cases ek : i = cache_set P a c ∧ k = j0
      · rw [if_neg ej] at vj
        rw [if_neg ej, if_pos ek] at ht
        exfalso
        have := ek.1
        subst this
        exact hno j hj vj ht
      · rw [if_neg ej] at vj
        rw [if_neg ek] at vk
        rw [if_neg ej, if_neg ek] at ht
        exact h2 i j k hi hj hk vj vk ht

/-- An eviction keeps the tagging invariants, whatever the victim is. -/
theorem tags_evict (P : ShiftModel) (a : Nat) (c : Cache) (v : Nat)
    (hg : c.blockBits + c.setBits ≤ 64) (ha : a < 2 ^ 64)
    (hp : probe_cache P a c = false)
    (hall : ∀ j, j < c.linesPerSet → ((c.sets (cache_set P a c)).lines j).valid = true)
    (h : TagInv P c) :
    TagInv P (evictState c (cache_set P a c) v (cache_tag P a c) (address_to_block P a c)) := by
  obtain ⟨h1, h2⟩ := h
  obtain ⟨w1, w2, w3⟩ := fresh_wellTagged P a c hg ha
  have hno : ∀ j, j < c.linesPerSet → ((c.sets (cache_set P a c)).lines j).valid = true →
      ((c.sets (cache_set P a c)).lines j).tag ≠ cache_tag P a c := by
    intro j hj hv ht
    have := (probe_cache_eq_false_iff P a c).1 hp j hj
    rw [(holds_iff _ _).2 ⟨hv, ht⟩] at this
    exact Bool.noConfusion this
  refine ⟨?_, ?_⟩
  · intro i j hi hj hv
    rw [evictState_line] at hv ⊢
    by_cases hh : i = cache_set P a c ∧ j < c.linesPerSet ∧
        ((c.sets (cache_set P a c)).lines j).block_addr = v
    · rw [if_pos hh]
      rw [hh.1]
      exact ⟨w1, w2, w3⟩
    · rw [if_neg hh] at hv ⊢
      exact h1 i j hi hj hv
  · intro i j k hi hj hk vj vk ht
    have hj2 : j < c.linesPerSet := hj
    have hk2 : k < c.linesPerSet := hk
    have hi2 : i < 2 ^ c.setBits := hi
    rw [evictState_line] at vj ht
    rw [evictState_line] at vk ht
    by_cases hs : i = cache_set P a c
    · subst hs
      simp only [true_and, hj2, hk2] at vj vk ht
      by_cases ej : ((c.sets (cache_set P a c)).lines j).block_addr = v
      · by_cases ek : ((c.sets (cache_set P a c)).lines k).block_addr = v
        · exact block_unique P c h1 h2 _ j k hi2 hj2 hk2 (hall j hj2) (hall k hk2)
            (ej.trans ek.symm)
        · rw [if_neg ek] at vk
          rw [if_pos ej, if_neg ek] at ht
          exact absurd ht.symm (hno k hk2 vk)
      · by_cases ek : ((c.sets (cache_set P a c)).lines k).block_addr = v
        · rw [if_neg ej] at vj
          rw [if_neg ej, if_pos ek] at ht
          exact absurd ht (hno j hj2 vj)
        · rw [if_neg ej] at vj
          rw [if_neg ek] at vk
          rw [if_neg ej, if_neg ek] at ht
          exact h2 _ j k hi hj hk vj vk ht
    · simp only [hs, false_and, if_false] at vj vk ht
      exact h2 i j k hi hj hk vj vk ht

/-- One access keeps the tagging invariants when `blockBits + setBits ≤ 64`. -/
theorem tags_step (P : ShiftModel) (a : Nat) (c : Cache)
    (hg : c.blockBits + c.setBits ≤ 64) (ha : a < 2 ^ 64) (h : TagInv P c) :
    TagInv P (operateCache P a c).2 := by
  rcases operateCache_cases P a c with ⟨_, j0, _, _, _, e⟩ | ⟨hp, j0, _, _, _, e⟩ |
    ⟨hp, hall, e⟩
  · rw [e]; exact tags_hit P c _ j0 h
  · rw [e]; exact tags_miss P a c j0 hg ha hp h
  · rw [e]; exact tags_evict P a c _ hg ha hp hall h

theorem setUp_no_valid (c0 : Cache) (i j : Nat) (hi : i < 2 ^ (cacheSetUp c0).setBits)
    (hj : j < (cacheSetUp c0).linesPerSet)
    (hv : (((cacheSetUp c0).sets i).lines j).valid = true) : False := by
  obtain ⟨g1, g2, _, _⟩ := cacheSetUp_geom c0
  rw [g1] at hi
  rw [g2] at hj
  rw [cacheSetUp_line_invalid c0 i j hi hj] at hv
  exact Bool.noConfusion hv

theorem tags_setUp (P : ShiftModel) (c0 : Cache) : TagInv P (cacheSetUp c0) := by
  refine ⟨?_, ?_⟩
  · intro i j hi hj hv
    exact (setUp_no_valid c0 i j hi hj hv).elim
  · intro i j k hi hj _ vj _ _
    exact (setUp_no_valid c0 i j hi hj vj).elim

/-- The tagging invariants hold in every reachable state with `blockBits + setBits ≤ 64`. -/
theorem reachable_tags (P : ShiftModel) (c : Cache) (hr : Reachable P c)
    (hg : c.blockBits + c.setBits ≤ 64) : TagInv P c := by
  induction hr with
  | setup c0 => exact tags_setUp P c0
  | access a c ha _ ih =>
    obtain ⟨g1, _, g3, _⟩ := operateCache_geom P a c
    rw [g1, g3] at hg
    exact tags_step P a c hg ha (ih hg)

/-- A hit keeps the timestamp invariant while the clock does not wrap around. -/
theorem stamps_hit (c : Cache) (s j0 : Nat) (h3 : Timestamps c)
    (hclk : (c.sets s).lru_clock < 2 ^ 64 - 1) :
    Timestamps (hitState c s j0) := by
  have e := inc64_eq _ hclk
  intro i hi
  obtain ⟨b1, b2⟩ := h3 i hi
  refine ⟨?_, ?_⟩
  · intro j hj vj
    rw [(hitState_line_fields c s j0 i j).1] at vj
    have := b1 j hj vj
    rw [hitState_line_lru, hitState_clock]
    by_cases hs : i = s
    · subst hs
      simp only [true_and, if_true]
      split <;> omega
    · simp only [hs, false_and, if_false]
      exact this
  · intro j k hj hk vj vk hl
    rw [(hitState_line_fields c s j0 i j).1] at vj
    rw [(hitState_line_fields c s j0 i k).1] at vk
    rw [hitState_line_lru, hitState_line_lru] at hl
    have bj := b1 j hj vj
    have bk := b1 k hk vk
    by_cases hs : i = s ∧ c.lfu = 0
    · obtain ⟨hs1, hs2⟩ := hs
      subst hs1
      simp only [hs2, true_and, and_true] at hl
      by_cases ej : j = j0
      · by_cases ek : k = j0
        · rw [ej, ek]
        · rw [if_pos ej, if_neg ek] at hl
          omega
      · by_cases ek : k = j0
        · rw [if_neg ej, if_pos ek] at hl
          omega
        · rw [if_neg ej, if_neg ek] at hl
          exact b2 j k hj hk vj vk hl
    · have n1 : ¬ (i = s ∧ j = j0 ∧ c.lfu = 0) := fun hh => hs ⟨hh.1, hh.2.2⟩
      have n2 : ¬ (i = s ∧ k = j0 ∧ c.lfu = 0) := fun hh => hs ⟨hh.1, hh.2.2⟩
      rw [if_neg n1, if_neg n2] at hl
      exact b2 j k hj hk vj vk hl

/-- A miss that fills a line keeps the timestamp invariant while the clock does not wrap
around. -/
theorem stamps_miss (P : ShiftModel) (a : Nat) (c : Cache) (j0 : Nat) (h3 : Timestamps c)
    (hclk : (c.sets (cache_set P a c)).lru_clock < 2 ^ 64 - 1) :
    Timestamps
      (missState c (cache_set P a c) j0 (cache_tag P a c) (address_to_block P a c)) := by
  have e := inc64_eq _ hclk
  intro i hi
  obtain ⟨b1, b2⟩ := h3 i hi
  refine ⟨?_, ?_⟩
  · intro j hj vj
    rw [missState_line] at vj ⊢
    rw [missState_clock]
    by_cases hs : i = cache_set P a c
    · subst hs
      simp only [true_and, if_true] at vj ⊢
      by_cases ej : j = j0
      · rw [if_pos ej]
        simp [freshLine, e]
      · rw [if_neg ej] at vj ⊢
        have := b1 j hj vj
        omega
    · simp only [hs, false_and, if_false] at vj ⊢
      exact b1 j hj vj
  · intro j k hj hk vj vk hl
    rw [missState_line] at vj hl
    rw [missState_line] at vk hl
    by_cases hs : i = cache_set P a c
    · subst hs
      simp only [true_and] at vj vk hl
      by_cases ej : j = j0
      · by_cases ek : k = j0
        · rw [ej, ek]
        · rw [if_neg ek] at vk
          rw [if_pos ej, if_neg ek] at hl
          have := b1 k hk vk
          simp [freshLine] at hl
          omega
      · by_cases ek : k = j0
        · rw [if_neg ej] at vj
          rw [if_neg ej, if_pos ek] at hl
          have := b1 j hj vj
          simp [freshLine] at hl
          omega
        · rw [if_neg ej] at vj
          rw [if_neg ek] at vk
          rw [if_neg ej, if_neg ek] at hl
          exact b2 j k hj hk vj vk hl
    · simp only [hs, false_and, if_false] at vj vk hl
      exact b2 j k hj hk vj vk hl

/-- An eviction keeps the timestamp invariant while the clock does not wrap around. -/
theorem stamps_evict (P : ShiftModel) (a : Nat) (c : Cache) (v : Nat)
    (hall : ∀ j, j < c.linesPerSet → ((c.sets (cache_set P a c)).lines j).valid = true)
    (h : TagInv P c) (h3 : Timestamps c)
    (hclk : (c.sets (cache_set P a c)).lru_clock < 2 ^ 64 - 1) :
    Timestamps
      (evictState c (cache_set P a c) v (cache_tag P a c) (address_to_block P a c)) := by
  obtain ⟨h1, h2⟩ := h
  have e := inc64_eq _ hclk
  intro i hi
  have hi2 : i < 2 ^ c.setBits := hi
  obtain ⟨b1, b2⟩ := h3 i hi
  refine ⟨?_, ?_⟩
  · intro j hj vj
    have hj2 : j < c.linesPerSet := hj
    rw [evictState_line] at vj ⊢
    rw [evictState_clock]
    by_cases hs : i = cache_set P a c
    · subst hs
      simp only [true_and, if_true, hj2] at vj ⊢
      by_cases ej : ((c.sets (cache_set P a c)).lines j).block_addr = v
      · rw [if_pos ej]
        simp [freshLine, e]
      · rw [if_neg ej] at vj ⊢
        have := b1 j hj vj
        omega
    · simp only [hs, false_and, if_false] at vj ⊢
      exact b1 j hj vj
  · intro j k hj hk vj vk hl
    have hj2 : j < c.linesPerSet := hj
    have hk2 : k < c.linesPerSet := hk
    rw [evictState_line] at vj hl
    rw [evictState_line] at vk hl
    by_cases hs : i = cache_set P a c
    · subst hs
      simp only [true_and, hj2, hk2] at vj vk hl
      by_cases ej : ((c.sets (cache_set P a c)).lines j).block_addr = v
      · by_cases ek : ((c.sets (cache_set P a c)).lines k).block_addr = v
        · exact block_unique P c h1 h2 _ j k hi2 hj2 hk2 (hall j hj2) (hall k hk2)
            (ej.trans ek.symm)
        · rw [if_neg ek] at vk
          rw [if_pos ej, if_neg ek] at hl
          have := b1 k hk vk
          simp [freshLine] at hl
          omega
      · by_cases ek : ((c.sets (cache_set P a c)).lines k).block_addr = v
        · rw [if_neg ej] at vj
          rw [if_neg ej, if_pos ek] at hl
          have := b1 j hj vj
          simp [freshLine] at hl
          omega
        · rw [if_neg ej] at vj
          rw [if_neg ek] at vk
          rw [if_neg ej, if_neg ek] at hl
          exact b2 j k hj hk vj vk hl
    · simp only [hs, false_and, if_false] at vj vk hl
      exact b2 j k hj hk vj vk hl

/-- One access keeps the timestamp invariant while the clock of its set does not wrap
around. -/
theorem stamps_step (P : ShiftModel) (a : Nat) (c : Cache) (h : TagInv P c)
    (h3 : Timestamps c) (hclk : (c.sets (cache_set P a c)).lru_clock < 2 ^ 64 - 1) :
    Timestamps (operateCache P a c).2 := by
  rcases operateCache_cases P a c with ⟨_, j0, _, _, _, e⟩ | ⟨_, j0, _, _, _, e⟩ |
    ⟨_, hall, e⟩
  · rw [e]; exact stamps_hit c _ j0 h3 hclk
  · rw [e]; exact stamps_miss P a c j0 h3 hclk
  · rw [e]; exact stamps_evict P a c _ hall h h3 hclk

theorem stamps_setUp (c0 : Cache) : Timestamps (cacheSetUp c0) := by
  intro i hi
  refine ⟨?_, ?_⟩
  · intro j hj vj
    exact (setUp_no_valid c0 i j hi hj vj).elim
  · intro j k hj _ vj _ _
    exact (setUp_no_valid c0 i j hi hj vj).elim

theorem reachable_of_noWrap (P : ShiftModel) (c : Cache) (hr : ReachableNoWrap P c) :
    Reachable P c := by
  induction hr with
  | setup c0 => exact Reachable.setup c0
  | access a c ha _ _ ih => exact Reachable.access a c ha ih

/-- The timestamp invariant holds in every state reached with `blockBits + setBits ≤ 64`
before a clock wraps around. -/
theorem reachable_stamps (P : ShiftModel) (c : Cache) (hr : ReachableNoWrap P c)
    (hg : c.blockBits + c.setBits ≤ 64) : Timestamps c := by
  induction hr with
  | setup c0 => exact stamps_setUp c0
  | access a c _ hclk hr2 ih =>
    obtain ⟨g1, _, g3, _⟩ := operateCache_geom P a c
    rw [g1, g3] at hg
    exact stamps_step P a c (reachable_tags P c (reachable_of_noWrap P c hr2) hg) (ih hg) hclk

/-! ## Residents and timestamps of the reachable states -/

/-- C18. No duplicate residents: in every state reachable from set-up through accesses, on
a geometry the specification allows (`blockBits + setBits ≤ 64`), for each of the
`2 ^ setBits` sets, no two valid lines of the set have the same tag, every valid line of
set `i` stores a block address `b` with `cache_set(b) = i`, `cache_tag(b)` the tag of the
line and `address_to_block(b) = b`, and no two valid lines of the set have the same block
address.  This holds for every policy, every shift behaviour and however far the clocks
and counters have run. -/
theorem C18_no_duplicate_residents (P : ShiftModel) (c : Cache) (hr : Reachable P c)
    (hg : c.blockBits + c.setBits ≤ 64) (i : Nat) (hi : i < 2 ^ c.setBits) :
    (∀ j k, j < c.linesPerSet → k < c.linesPerSet →
      ((c.sets i).lines j).valid = true → ((c.sets i).lines k).valid = true →
      ((c.sets i).lines j).tag = ((c.sets i).lines k).tag → j = k) ∧
    (∀ j, j < c.linesPerSet → ((c.sets i).lines j).valid = true →
      cache_set P ((c.sets i).lines j).block_addr c = i ∧
      cache_tag P ((c.sets i).lines j).block_addr c = ((c.sets i).lines j).tag ∧
      address_to_block P ((c.sets i).lines j).block_addr c =
        ((c.sets i).lines j).block_addr) ∧
    (∀ j k, j < c.linesPerSet → k < c.linesPerSet →
      ((c.sets i).lines j).valid = true → ((c.sets i).lines k).valid = true →
      ((c.sets i).lines j).block_addr = ((c.sets i).lines k).block_addr → j = k) := by
  obtain ⟨h1, h2⟩ := reachable_tags P c hr hg
  refine ⟨?_, ?_, ?_⟩
  · intro j k hj hk vj vk ht
    exact h2 i j k hi hj hk vj vk ht
  · intro j hj vj
    exact h1 i j hi hj vj
  · intro j k hj hk vj vk hb
    exact block_unique P c h1 h2 i j k hi hj hk vj vk hb

theorem fullCache_reachable : Reachable hwShift fullCache := by
  unfold fullCache
  apply reachable_runTrace
  · exact Reachable.setup _
  · decide

/-- Witness for C18: set 0 of a two-line cache filled by the accesses 0 and 8. -/
theorem C18_no_duplicate_residents_witness :
    (((fullCache.sets 0).lines 0).valid = true ∧ ((fullCache.sets 0).lines 1).valid = true) ∧
    (∀ j k, j < fullCache.linesPerSet → k < fullCache.linesPerSet →
      ((fullCache.sets 0).lines j).valid = true → ((fullCache.sets 0).lines k).valid = true →
      ((fullCache.sets 0).lines j).block_addr = ((fullCache.sets 0).lines k).block_addr →
      j = k) :=
  ⟨by decide,
    (C18_no_duplicate_residents hwShift fullCache fullCache_reachable (by decide) 0
      (by decide)).2.2⟩

theorem fullCache_noWrap : ReachableNoWrap hwShift fullCache :=
  ReachableNoWrap.access 8 _ (by decide) (by decide)
    (ReachableNoWrap.access 0 _ (by decide) (by decide) (ReachableNoWrap.setup _))

/-- C19 (amended). Timestamps: in every state reachable from set-up through accesses none
of which finds the clock of its set at `2 ^ 64 - 1` (no clock has wrapped around), on a
geometry the specification allows (`blockBits + setBits ≤ 64`), under every policy, within
each of the `2 ^ setBits` sets the `lru_clock` values of the valid lines are pairwise
distinct, each at least 1 and at most the clock of the set; hence in a full set no two
different lines have the same `lru_clock`, and the LRU scan never meets a tie. -/
theorem C19_timestamps (P : ShiftModel) (c : Cache) (hr : ReachableNoWrap P c)
    (hg : c.blockBits + c.setBits ≤ 64) (i : Nat) (hi : i < 2 ^ c.setBits) :
    (∀ j k, j < c.linesPerSet → k < c.linesPerSet →
      ((c.sets i).lines j).valid = true → ((c.sets i).lines k).valid = true →
      ((c.sets i).lines j).lru_clock = ((c.sets i).lines k).lru_clock → j = k) ∧
    (∀ j, j < c.linesPerSet → ((c.sets i).lines j).valid = true →
      1 ≤ ((c.sets i).lines j).lru_clock ∧
      ((c.sets i).lines j).lru_clock ≤ (c.sets i).lru_clock) ∧
    ((∀ j, j < c.linesPerSet → ((c.sets i).lines j).valid = true) →
      ∀ j k, j < c.linesPerSet → k < c.linesPerSet → j ≠ k →
        ((c.sets i).lines j).lru_clock ≠ ((c.sets i).lines k).lru_clock) := by
  obtain ⟨b1, b2⟩ := reachable_stamps P c hr hg i hi
  refine ⟨b2, b1, ?_⟩
  intro hall j k hj hk hne hl
  exact hne (b2 j k hj hk (hall j hj) (hall k hk) hl)

/-- Witness for C19: set 0 of a two-line cache filled by the accesses 0 and 8. -/
theorem C19_timestamps_witness :
    (((fullCache.sets 0).lines 0).valid = true ∧ ((fullCache.sets 0).lines 1).valid = true) ∧
    (∀ j, j < fullCache.linesPerSet → ((fullCache.sets 0).lines j).valid = true →
      1 ≤ ((fullCache.sets 0).lines j).lru_clock ∧
      ((fullCache.sets 0).lines j).lru_clock ≤ (fullCache.sets 0).lru_clock) ∧
    ((fullCache.sets 0).lines 0).lru_clock ≠ ((fullCache.sets 0).lines 1).lru_clock :=
  ⟨by decide,
    (C19_timestamps hwShift fullCache fullCache_noWrap (by decide) 0 (by decide)).2.1,
    (C19_timestamps hwShift fullCache fullCache_noWrap (by decide) 0 (by decide)).2.2
      (by decide) 0 1 (by decide) (by decide) (by decide)⟩

/-- C19 as stated fails once a clock has wrapped around.  After `2 ^ 64` accesses of
address 4 on a fresh LRU cache with `blockBits = 2`, `setBits = 1`, `linesPerSet = 1`, the
`unsigned long long` clock of set 1 is 0 again and the valid line of the set carries the
timestamp 0, which is not at least 1. -/
theorem C19_counterexample :
    Reachable hwShift (hotCache 0 (2 ^ 64)) ∧
    (hotCache 0 (2 ^ 64)).blockBits + (hotCache 0 (2 ^ 64)).setBits ≤ 64 ∧
    1 < 2 ^ (hotCache 0 (2 ^ 64)).setBits ∧ 0 < (hotCache 0 (2 ^ 64)).linesPerSet ∧
    (((hotCache 0 (2 ^ 64)).sets 1).lines 0).valid = true ∧
    (((hotCache 0 (2 ^ 64)).sets 1).lines 0).lru_clock = 0 ∧
    ((hotCache 0 (2 ^ 64)).sets 1).lru_clock = 0 := by
  obtain ⟨hbb, hsb, hlps, _, hclk, hline, _⟩ := hotCache_at 0 (Or.inl rfl) (2 ^ 64) (by norm_num)
  refine ⟨hotCache_reachable 0 _, by rw [hbb, hsb]; decide, by rw [hsb]; decide,
    by rw [hlps]; decide, by rw [hline]; rfl, by rw [hline]; decide, by rw [hclk]; decide⟩

/-! ## The eviction path -/

/-- On the one-line LRU example cache whose line of set 1 holds block 4 with timestamp
`2 ^ 63 - 1`, address 12 maps to set 1 with tag 1 and the victim scan returns 0. -/
theorem aged_victim (c : Cache) (hbb : c.blockBits = 2) (hsb : c.setBits = 1)
    (hlps : c.linesPerSet = 1) (hlfu : c.lfu = 0)
    (hline : (c.sets 1).lines 0 =
      { valid := true, tag := 0, block_addr := 4, lru_clock := 2 ^ 63 - 1,
        access_counter := 1 }) :
    cache_set hwShift 12 c = 1 ∧ cache_tag hwShift 12 c = 1 ∧
    victim_cacheline hwShift 12 c = 0 := by
  have hset : cache_set hwShift 12 c = 1 := by
    rw [cache_set_eq, hbb, hsb]; decide
  have htag : cache_tag hwShift 12 c = 1 := by
    rw [cache_tag_eq, hbb, hsb]; decide
  refine ⟨hset, htag, ?_⟩
  unfold victim_cacheline
  simp only [hset, hlps, hlfu, victim_scan, hline, victim_step_lru]
  rw [if_neg]
  simp [INT64_MAX]

/-- C17 fails at the failing input.  On the reachable state `agedCache` (a one-line LRU
cache, `blockBits = 2`, `setBits = 1`, after `2 ^ 63 - 1` accesses of address 4, whose
line holds block 4 with `lru_clock = 2 ^ 63 - 1 = INT64_MAX`) the access of address 12
takes the eviction path, `victim_cacheline` returns 0, and no line of set 1 has block
address 0: the access reports the eviction of block 0 and overwrites nothing. -/
theorem C17_failing_input :
    Reachable hwShift agedCache ∧ 1 ≤ agedCache.linesPerSet ∧
    agedCache.blockBits + agedCache.setBits ≤ 64 ∧ agedCache.lfu = 0 ∧
    (agedCache.sets 1).lines 0 =
      { valid := true, tag := 0, block_addr := 4, lru_clock := 2 ^ 63 - 1,
        access_counter := 1 } ∧
    (operateCache hwShift 12 agedCache).1.status = Status.CACHE_EVICT ∧
    cache_set hwShift 12 agedCache = 1 ∧
    victim_cacheline hwShift 12 agedCache = 0 ∧
    (∀ j, j < agedCache.linesPerSet → ((agedCache.sets 1).lines j).block_addr ≠ 0) ∧
    ((operateCache hwShift 12 agedCache).2.sets 1).lines 0 = (agedCache.sets 1).lines 0 := by
  obtain ⟨hbb, hsb, hlps, hlfu, _, hline⟩ := agedCache_aged
  obtain ⟨hset, _, hv⟩ := aged_victim agedCache hbb hsb hlps hlfu hline
  obtain ⟨r1, _, _, _, _, l1⟩ := aged_evict agedCache hbb hsb hlps hlfu hline
  refine ⟨agedCache_reachable, by omega, by omega, hlfu, hline, by rw [r1], hset, hv, ?_,
    by rw [l1, hline]⟩
  intro j hj
  have : j = 0 := by omega
  rw [this, hline]
  decide

theorem thrashCache_shape (n : Nat) (h1 : 1 ≤ n) (h2 : n ≤ 2 ^ 63 - 1) :
    ThrashAt n (thrashCache n) := by
  obtain ⟨m, rfl⟩ : ∃ m, n = m + 1 := ⟨n - 1, by omega⟩
  exact thrashCache_at m h2

/-- The example cache after `2 ^ 31 - 1` accesses of the alternating trace: the line of
set 0 holds block 0, set 1 is empty, and `miss_count` is `INT_MAX`. -/
theorem thrashCache_full :
    (thrashCache (2 ^ 31 - 1)).blockBits = 2 ∧ (thrashCache (2 ^ 31 - 1)).setBits = 1 ∧
    (thrashCache (2 ^ 31 - 1)).linesPerSet = 1 ∧ (thrashCache (2 ^ 31 - 1)).lfu = 0 ∧
    ((thrashCache (2 ^ 31 - 1)).sets 0).lines 0 =
      { valid := true, tag := 0, block_addr := 0, lru_clock := 2 ^ 31 - 1,
        access_counter := 1 } ∧
    (((thrashCache (2 ^ 31 - 1)).sets 1).lines 0).valid = false ∧
    (thrashCache (2 ^ 31 - 1)).hit_count = 0 ∧
    (thrashCache (2 ^ 31 - 1)).miss_count = 2 ^ 31 - 1 ∧
    (thrashCache (2 ^ 31 - 1)).eviction_count = 2 ^ 31 - 2 := by
  obtain ⟨hbb, hsb, hlps, hlfu, _, hline, hs1, hh, hm, he⟩ :=
    thrashCache_shape (2 ^ 31 - 1) (by norm_num) (by norm_num)
  refine ⟨hbb, hsb, hlps, hlfu, ?_, hs1, hh, ?_, ?_⟩
  · rw [hline]; norm_num
  · rw [hm]; decide
  · rw [he]; decide

/-- The access of address 8 that follows is an eviction of block 0 that takes
`miss_count` from `INT_MAX` to `INT_MIN`. -/
theorem thrashCache_overflow :
    (operateCache hwShift 8 (thrashCache (2 ^ 31 - 1))).1 =
      { status := Status.CACHE_EVICT, victim_block_addr := 0, insert_block_addr := 8 } ∧
    (operateCache hwShift 8 (thrashCache (2 ^ 31 - 1))).2.hit_count = 0 ∧
    (operateCache hwShift 8 (thrashCache (2 ^ 31 - 1))).2.miss_count = -2 ^ 31 ∧
    (operateCache hwShift 8 (thrashCache (2 ^ 31 - 1))).2.eviction_count = 2 ^ 31 - 1 := by
  have h := thrashAt_step (2 ^ 31 - 1) _
    (thrashCache_shape (2 ^ 31 - 1) (by norm_num) (by norm_num)) (by norm_num)
  have e8 : 8 * ((2 ^ 31 - 1) % 2) = 8 := by norm_num
  have e0 : 8 * ((2 ^ 31 - 1 + 1) % 2) = 0 := by norm_num
  rw [e8, e0] at h
  obtain ⟨r, _, _, _, _, _, _, _, hh, hm, he⟩ := h
  refine ⟨r, hh, ?_, ?_⟩
  · rw [hm]; decide
  · rw [he]; decide

theorem thrashTrace_length (n : Nat) : (thrashTrace n).length = n := by
  unfold thrashTrace
  rw [List.length_map, List.length_range]

/-- C6 as stated fails on a long trace.  On a fresh one-line LRU cache with
`blockBits = 2`, `setBits = 1` and zeroed statistics, the `2 ^ 31` accesses that alternate
between the addresses 0 and 8 are one miss and `2 ^ 31 - 1` evictions.  Afterwards
`miss_count`, an `int`, is `-2 ^ 31`: `hit_count + miss_count` is `-2 ^ 31`, not the number
`2 ^ 31` of accesses, `eviction_count = 2 ^ 31 - 1` is above `miss_count`, and the last
access made `miss_count` smaller. -/
theorem C6_counterexample :
    ((cacheSetUp (blank 2 1 1 0)).hit_count = 0 ∧ (cacheSetUp (blank 2 1 1 0)).miss_count = 0 ∧
      (cacheSetUp (blank 2 1 1 0)).eviction_count = 0) ∧
    thrashCache (2 ^ 31) = runTrace hwShift (thrashTrace (2 ^ 31)) (cacheSetUp (blank 2 1 1 0)) ∧
    (thrashTrace (2 ^ 31)).length = 2 ^ 31 ∧
    (thrashCache (2 ^ 31)).hit_count + (thrashCache (2 ^ 31)).miss_count = -2 ^ 31 ∧
    (thrashCache (2 ^ 31)).miss_count < (thrashCache (2 ^ 31)).eviction_count ∧
    (operateCache hwShift 8 (thrashCache (2 ^ 31 - 1))).2.miss_count <
      (thrashCache (2 ^ 31 - 1)).miss_count := by
  obtain ⟨_, _, _, _, _, _, _, hh, hm, he⟩ :=
    thrashCache_shape (2 ^ 31) (by norm_num) (by norm_num)
  obtain ⟨_, _, _, _, _, _, _, hm1, _⟩ := thrashCache_full
  obtain ⟨_, _, hm2, _⟩ := thrashCache_overflow
  refine ⟨⟨by decide, by decide, by decide⟩, rfl, thrashTrace_length _, ?_, ?_, ?_⟩
  · rw [hh, hm]; decide
  · rw [hm, he]; decide
  · rw [hm1, hm2]; decide

/-- C14 as stated fails when the clock is at its maximum.  On a fresh one-line LRU cache
with `blockBits = 2`, `setBits = 1`, after `2 ^ 64 - 1` accesses of address 4 the clock of
set 1 is `2 ^ 64 - 1`; the next access of 4 sets it to 0 instead of adding 1, so after
`2 ^ 64` accesses, all of which map to set 1, the clock of set 1 is 0. -/
theorem C14_counterexample :
    cache_set hwShift 4 (hotCache 0 (2 ^ 64 - 1)) = 1 ∧
    ((hotCache 0 (2 ^ 64 - 1)).sets 1).lru_clock = 2 ^ 64 - 1 ∧
    ((operateCache hwShift 4 (hotCache 0 (2 ^ 64 - 1))).2.sets 1).lru_clock = 0 ∧
    hotCache 0 (2 ^ 64) =
      runTrace hwShift (List.replicate (2 ^ 64) 4) (cacheSetUp (blank 2 1 1 0)) ∧
    ((List.replicate (2 ^ 64) 4).filter
      (fun a => decide (cache_set hwShift a (blank 2 1 1 0) = 1))).length = 2 ^ 64 ∧
    ((hotCache 0 (2 ^ 64)).sets 1).lru_clock = 0 := by
  have h1 := hotCache_at 0 (Or.inl rfl) (2 ^ 64 - 1) (by norm_num)
  have s1 := (hotAt_step 0 (2 ^ 64 - 1) _ h1).2
  have h2 := hotCache_at 0 (Or.inl rfl) (2 ^ 64) (by norm_num)
  obtain ⟨hbb, hsb, _, _, hclk, _⟩ := h1
  obtain ⟨_, _, _, _, hclk1, _⟩ := s1
  obtain ⟨_, _, _, _, hclk2, _⟩ := h2
  refine ⟨by rw [cache_set_eq, hbb, hsb]; decide, by rw [hclk]; norm_num,
    by rw [hclk1]; norm_num, rfl, ?_, by rw [hclk2]; norm_num⟩
  rw [List.filter_eq_self.2, List.length_replicate]
  intro a ha
  rw [List.eq_of_mem_replicate ha]
  decide

/-! ## Stale fields of invalid lines -/

theorem staleEq_holds (c d : Cache) (h : StaleEq c d) (i j t : Nat) :
    ((c.sets i).lines j).holds t = ((d.sets i).lines j).holds t := by
  obtain ⟨hv, hl⟩ := h.2.2.2.2.2.2.2.2 i j
  by_cases hc : ((c.sets i).lines j).valid = true
  · rw [hl hc]
  · have hc2 : ((c.sets i).lines j).valid = false := by simpa using hc
    have hd2 : ((d.sets i).lines j).valid = false := by rw [← hv]; exact hc2
    simp [Line.holds, hc2, hd2]

theorem staleEq_geom (P : ShiftModel) (c d : Cache) (h : StaleEq c d) (a : Nat) :
    cache_set P a d = cache_set P a c ∧ cache_tag P a d = cache_tag P a c ∧
    address_to_block P a d = address_to_block P a c := by
  obtain ⟨hsb, _, hbb, _⟩ := h
  simp only [cache_set_eq, cache_tag_eq, address_to_block_eq, hsb, hbb, and_self]

theorem staleEq_probe (P : ShiftModel) (c d : Cache) (h : StaleEq c d) (a : Nat) :
    probe_cache P a c = probe_cache P a d := by
  obtain ⟨hs, ht, _⟩ := staleEq_geom P c d h a
  rw [Bool.eq_iff_iff, probe_cache_eq_true_iff, probe_cache_eq_true_iff, hs, ht, ← h.2.1]
  constructor
  · rintro ⟨j, hj, hm⟩
    exact ⟨j, hj, by rw [← staleEq_holds c d h]; exact hm⟩
  · rintro ⟨j, hj, hm⟩
    exact ⟨j, hj, by rw [staleEq_holds c d h]; exact hm⟩

theorem setLine_line (c : Cache) (s j0 : Nat) (l : Line) (i j : Nat) :
    ((c.setLine s j0 l).sets i).lines j =
      if i = s ∧ j = j0 then l else (c.sets i).lines j := by
  by_cases hi : i = s
  · subst hi
    by_cases hj : j = j0
    · subst hj; simp [Cache.setLine, store]
    · simp [Cache.setLine, store, hj]
  · simp [Cache.setLine, store, hi]

theorem setLine_clock (c : Cache) (s j0 : Nat) (l : Line) (i : Nat) :
    ((c.setLine s j0 l).sets i).lru_clock = (c.sets i).lru_clock := by
  by_cases hi : i = s
  · subst hi; simp [Cache.setLine, store]
  · simp [Cache.setLine, store, hi]

theorem staleEq_setLine (c d : Cache) (h : StaleEq c d) (s j0 : Nat) (l : Line) :
    StaleEq (c.setLine s j0 l) (d.setLine s j0 l) := by
  obtain ⟨h1, h2, h3, h4, h5, h6, h7, h8, h9⟩ := h
  refine ⟨h1, h2, h3, h4, h5, h6, h7, ?_, ?_⟩
  · intro i
    rw [setLine_clock, setLine_clock]; exact h8 i
  · intro i j
    rw [setLine_line, setLine_line]
    by_cases hc : i = s ∧ j = j0
    · simp [hc]
    · simp only [hc, if_false]; exact h9 i j

theorem staleEq_hitState (c d : Cache) (h : StaleEq c d) (s j0 : Nat)
    (hv : ((c.sets s).lines j0).valid = true) :
    StaleEq (hitState c s j0) (hitState d s j0) := by
  obtain ⟨h1, h2, h3, h4, h5, h6, h7, h8, h9⟩ := h
  refine ⟨h1, h2, h3, h4, ?_, h6, h7, ?_, ?_⟩
  · show inc32 c.hit_count = inc32 d.hit_count
    rw [h5]
  · intro i
    rw [hitState_clock, hitState_clock, h8 s, h8 i]
  · intro i j
    rw [hitState_line, hitState_line]
    by_cases hc : i = s ∧ j = j0
    · simp only [hc, and_self, if_true]
      rw [← (h9 s j0).2 hv, ← h4, ← h8 s]
      simp
    · simp only [hc, if_false]; exact h9 i j

theorem staleEq_missState (c d : Cache) (h : StaleEq c d) (s j0 t b : Nat) :
    StaleEq (missState c s j0 t b) (missState d s j0 t b) := by
  obtain ⟨h1, h2, h3, h4, h5, h6, h7, h8, h9⟩ := h
  refine ⟨h1, h2, h3, h4, h5, ?_, h7, ?_, ?_⟩
  · show inc32 c.miss_count = inc32 d.miss_count
    rw [h6]
  · intro i
    rw [missState_clock, missState_clock, h8 s, h8 i]
  · intro i j
    rw [missState_line, missState_line]
    by_cases hc : i = s ∧ j = j0
    · simp only [hc, and_self, if_true]
      rw [← h8 s]
      simp
    · simp only [hc, if_false]; exact h9 i j

theorem staleEq_evictState (c d : Cache) (h : StaleEq c d) (s v t b : Nat)
    (hall : ∀ j, j < c.linesPerSet → ((c.sets s).lines j).valid = true) :
    StaleEq (evictState c s v t b) (evictState d s v t b) := by
  obtain ⟨h1, h2, h3, h4, h5, h6, h7, h8, h9⟩ := h
  refine ⟨h1, h2, h3, h4, h5, ?_, ?_, ?_, ?_⟩
  · show inc32 c.miss_count = inc32 d.miss_count
    rw [h6]
  · show inc32 c.eviction_count = inc32 d.eviction_count
    rw [h7]
  · intro i
    rw [evictState_clock, evictState_clock, h8 s, h8 i]
  · intro i j
    rw [evictState_line, evictState_line, ← h2, ← h8 s]
    by_cases hj : j < c.linesPerSet
    · rw [← (h9 s j).2 (hall j hj)]
      by_cases hc : i = s ∧ j < c.linesPerSet ∧ ((c.sets s).lines j).block_addr = v
      · simp [hc]
      · simp only [hc, if_false]; exact h9 i j
    · have hc : ¬ (i = s ∧ j < c.linesPerSet ∧ ((c.sets s).lines j).block_addr = v) :=
        fun hh => hj hh.2.1
      have hd : ¬ (i = s ∧ j < c.linesPerSet ∧ ((d.sets s).lines j).block_addr = v) :=
        fun hh => hj hh.2.1
      simp only [hc, hd, if_false]; exact h9 i j

theorem victim_scan_congr (lfu : Int) (S T : CacheSet) (n i : Nat) (acc : VictimAcc)
    (h : ∀ j, i ≤ j → j < i + n → S.lines j = T.lines j) :
    victim_scan lfu S n i acc = victim_scan lfu T n i acc := by
  induction n generalizing i acc with
  | zero => rfl
  | succ n ih =>
    simp only [victim_scan]
    rw [h i (le_refl _) (by omega)]
    exact ih (i + 1) _ (fun j hj1 hj2 => h j (by omega) (by omega))

theorem staleEq_victim (P : ShiftModel) (c d : Cache) (h : StaleEq c d) (a : Nat)
    (hall : ∀ j, j < c.linesPerSet → ((c.sets (cache_set P a c)).lines j).valid = true) :
    victim_cacheline P a c = victim_cacheline P a d := by
  obtain ⟨hs, _, _⟩ := staleEq_geom P c d h a
  unfold victim_cacheline
  simp only [hs, ← h.2.1, ← h.2.2.2.1]
  rw [victim_scan_congr c.lfu (c.sets (cache_set P a c)) (d.sets (cache_set P a c))
    c.linesPerSet 0 _
    (fun j _ hj => (h.2.2.2.2.2.2.2.2 _ j).2 (hall j (by omega)))]

theorem staleEq_operate (P : ShiftModel) (c d : Cache) (h : StaleEq c d) (a : Nat) :
    (operateCache P a c).1 = (operateCache P a d).1 ∧
    StaleEq (operateCache P a c).2 (operateCache P a d).2 := by
  obtain ⟨hs, ht, hb⟩ := staleEq_geom P c d h a
  have hlps : c.linesPerSet = d.linesPerSet := h.2.1
  have hval : ∀ j, ((d.sets (cache_set P a c)).lines j).valid =
      ((c.sets (cache_set P a c)).lines j).valid :=
    fun j => ((h.2.2.2.2.2.2.2.2 _ j).1).symm
  rcases operateCache_cases P a c with ⟨_, j0, hj0, hm, hfirst, heq⟩ |
    ⟨hp, j0, hj0, hm, hfirst, heq⟩ | ⟨hp, hall, heq⟩
  · have heq2 := operateCache_hit P a d j0 (hlps ▸ hj0)
      (by rw [hs, ht, ← staleEq_holds c d h]; exact hm)
      (by intro j hj; rw [hs, ht, ← staleEq_holds c d h]; exact hfirst j hj)
    rw [heq, heq2, hs]
    refine ⟨rfl, staleEq_hitState c d h _ j0 ?_⟩
    exact ((holds_iff _ _).1 hm).1
  · have heq2 := operateCache_miss P a d j0 (hlps ▸ hj0)
      (by rw [← staleEq_probe P c d h]; exact hp)
      (by rw [hs, hval]; exact hm)
      (by intro j hj; rw [hs, hval]; exact hfirst j hj)
    rw [heq, heq2, hs, ht, hb]
    exact ⟨rfl, staleEq_missState c d h _ j0 _ _⟩
  · have heq2 := operateCache_evict P a d
      (by rw [← staleEq_probe P c d h]; exact hp)
      (by intro j hj; rw [hs, hval]; exact hall j (hlps ▸ hj))
    rw [heq, heq2, hs, ht, hb, ← staleEq_victim P c d h a hall]
    exact ⟨rfl, staleEq_evictState c d h _ _ _ _ hall⟩

theorem staleEq_insert (P : ShiftModel) (c d : Cache) (h : StaleEq c d) (a : Nat) :
    (insert_cacheline P a c).1 = (insert_cacheline P a d).1 ∧
    StaleEq (insert_cacheline P a c).2 (insert_cacheline P a d).2 := by
  obtain ⟨hs, ht, hb⟩ := staleEq_geom P c d h a
  have hlps : c.linesPerSet = d.linesPerSet := h.2.1
  have hval : ∀ j, ((d.sets (cache_set P a c)).lines j).valid =
      ((c.sets (cache_set P a c)).lines j).valid :=
    fun j => ((h.2.2.2.2.2.2.2.2 _ j).1).symm
  unfold insert_cacheline
  simp only [hs, ← hlps]
  by_cases hinv : ∃ j, j < c.linesPerSet ∧
      (!((c.sets (cache_set P a c)).lines j).valid) = true
  · obtain ⟨j0, h1, h2, h3⟩ := exists_first
      (fun j => !((c.sets (cache_set P a c)).lines j).valid) c.linesPerSet hinv
    rw [insert_scan_first P a c _ c.linesPerSet 0 j0 (Nat.zero_le _) (by omega)
        (by simpa using h2) (fun j _ hj => by simpa using h3 j hj),
      insert_scan_first P a d _ c.linesPerSet 0 j0 (Nat.zero_le _) (by omega)
        (by rw [hval]; simpa using h2) (fun j _ hj => by rw [hval]; simpa using h3 j hj),
      ht, hb, ← h.2.2.2.2.2.2.2.1]
    exact ⟨rfl, staleEq_setLine c d h _ _ _⟩
  · have hall : ∀ j, j < c.linesPerSet →
        ((c.sets (cache_set P a c)).lines j).valid = true := by
      intro j hj
      by_contra hv
      exact hinv ⟨j, hj, by simpa using hv⟩
    rw [insert_scan_full P a c _ c.linesPerSet 0 (fun j _ hj => hall j (by omega)),
      insert_scan_full P a d _ c.linesPerSet 0
        (fun j _ hj => by rw [hval]; exact hall j (by omega))]
    exact ⟨rfl, h⟩

theorem staleEq_replace (P : ShiftModel) (c d : Cache) (h : StaleEq c d) (v a : Nat)
    (hall : ∀ j, j < c.linesPerSet → ((c.sets (cache_set P a c)).lines j).valid = true) :
    StaleEq (replace_cacheline P v a c) (replace_cacheline P v a d) := by
  obtain ⟨hs, ht, hb⟩ := staleEq_geom P c d h a
  obtain ⟨h1, h2, h3, h4, h5, h6, h7, h8, h9⟩ := h
  unfold replace_cacheline
  rw [replace_scan_eq, replace_scan_eq, hs, ht, hb, ← h2, ← h8 (cache_set P a c)]
  refine ⟨h1, rfl, h3, h4, h5, h6, h7, ?_, ?_⟩
  · intro i
    by_cases hi : i = cache_set P a c
    · subst hi; simp [store, h8]
    · simp [store, hi, h8]
  · intro i j
    by_cases hi : i = cache_set P a c
    · subst hi
      simp only [store, if_true, replaceLines, Nat.zero_le, true_and, Nat.zero_add]
      by_cases hj : j < c.linesPerSet
      · rw [← (h9 _ j).2 (hall j hj)]
        simp
      · simp only [hj, false_and, if_false]; exact h9 _ j
    · simp only [store, hi, if_false]; exact h9 i j

theorem setUp_staleEq : StaleEq cleanSetUp dirtySetUp := by
  unfold cleanSetUp dirtySetUp
  rw [cacheSetUp_eq, cacheSetUp_eq]
  refine ⟨rfl, rfl, rfl, rfl, rfl, rfl, rfl, ?_, ?_⟩
  · intro i
    by_cases hi : i < 2 <;> simp [blank, dirtyBlank, initSet, hi]
  · intro i j
    by_cases hi : i < 2 <;> by_cases hj : j < 1 <;>
      simp [blank, dirtyBlank, initSet, resetLine, hi, hj]

/-- C16, for the operations and states for which it holds.  Let two states agree on
everything except the tag, block address, timestamp and counter of invalid lines
(`StaleEq`).  Then `probe_cache` returns the same value on both; `insert_cacheline` and
`operateCache` return the same result on both and produce states that again agree in that
sense; and when every line of the addressed set is valid, which is when `operateCache`
calls them, `victim_cacheline` returns the same block address on both and
`replace_cacheline` produces states that again agree in that sense. -/
theorem C16_stale_fields (P : ShiftModel) (c d : Cache) (h : StaleEq c d) (a v : Nat) :
    probe_cache P a c = probe_cache P a d ∧
    ((insert_cacheline P a c).1 = (insert_cacheline P a d).1 ∧
      StaleEq (insert_cacheline P a c).2 (insert_cacheline P a d).2) ∧
    ((operateCache P a c).1 = (operateCache P a d).1 ∧
      StaleEq (operateCache P a c).2 (operateCache P a d).2) ∧
    ((∀ j, j < c.linesPerSet → ((c.sets (cache_set P a c)).lines j).valid = true) →
      victim_cacheline P a c = victim_cacheline P a d ∧
      StaleEq (replace_cacheline P v a c) (replace_cacheline P v a d)) :=
  ⟨staleEq_probe P c d h a, staleEq_insert P c d h a, staleEq_operate P c d h a,
    fun hall => ⟨staleEq_victim P c d h a hall, staleEq_replace P c d h v a hall⟩⟩

/-- The theorem at two states that differ in the block address of the invalid line of
set 1 (0 and 4) and whose set 0 is full, for address 8 and victim block 0. -/
theorem C16_stale_fields_witness :
    StaleEq cleanFilled dirtyFilled ∧
    ((cleanFilled.sets 1).lines 0).valid = false ∧
    ((cleanFilled.sets 1).lines 0).block_addr = 0 ∧
    ((dirtyFilled.sets 1).lines 0).block_addr = 4 ∧
    (∀ j, j < cleanFilled.linesPerSet →
      ((cleanFilled.sets (cache_set hwShift 8 cleanFilled)).lines j).valid = true) ∧
    probe_cache hwShift 8 cleanFilled = probe_cache hwShift 8 dirtyFilled ∧
    ((insert_cacheline hwShift 8 cleanFilled).1 = (insert_cacheline hwShift 8 dirtyFilled).1 ∧
      StaleEq (insert_cacheline hwShift 8 cleanFilled).2
        (insert_cacheline hwShift 8 dirtyFilled).2) ∧
    ((operateCache hwShift 8 cleanFilled).1 = (operateCache hwShift 8 dirtyFilled).1 ∧
      StaleEq (operateCache hwShift 8 cleanFilled).2 (operateCache hwShift 8 dirtyFilled).2) ∧
    victim_cacheline hwShift 8 cleanFilled = victim_cacheline hwShift 8 dirtyFilled ∧
    StaleEq (replace_cacheline hwShift 0 8 cleanFilled)
      (replace_cacheline hwShift 0 8 dirtyFilled) := by
  have hs : StaleEq cleanFilled dirtyFilled :=
    (staleEq_operate hwShift cleanSetUp dirtySetUp setUp_staleEq 0).2
  have hall : ∀ j, j < cleanFilled.linesPerSet →
      ((cleanFilled.sets (cache_set hwShift 8 cleanFilled)).lines j).valid = true := by
    decide
  obtain ⟨h1, h2, h3, h4⟩ := C16_stale_fields hwShift cleanFilled dirtyFilled hs 8 0
  exact ⟨hs, by decide, by decide, by decide, hall, h1, h2, h3, (h4 hall).1, (h4 hall).2⟩

/-- C16 as stated fails for `victim_cacheline` and `replace_cacheline`.  The states
`cleanSetUp` and `dirtySetUp` are both produced by `cacheSetUp` (one line per set,
`blockBits = 2`, `setBits = 1`, LRU) and differ only in the block address of their invalid
lines (0 and 4).  On them `victim_cacheline` returns 0 and 4, and `replace_cacheline` with
victim block 0 and address 0 makes line 0 of set 0 valid in the first state and leaves it
invalid in the second. -/
theorem C16_counterexample :
    StaleEq cleanSetUp dirtySetUp ∧
    Reachable hwShift cleanSetUp ∧ Reachable hwShift dirtySetUp ∧
    victim_cacheline hwShift 0 cleanSetUp = 0 ∧
    victim_cacheline hwShift 0 dirtySetUp = 4 ∧
    (((replace_cacheline hwShift 0 0 cleanSetUp).sets 0).lines 0).valid = true ∧
    (((replace_cacheline hwShift 0 0 dirtySetUp).sets 0).lines 0).valid = false ∧
    ¬ StaleEq (replace_cacheline hwShift 0 0 cleanSetUp)
      (replace_cacheline hwShift 0 0 dirtySetUp) := by
  refine ⟨setUp_staleEq, Reachable.setup _, Reachable.setup _, by decide, by decide,
    by decide, by decide, ?_⟩
  intro h
  have h2 := (h.2.2.2.2.2.2.2.2 0 0).1
  revert h2
  decide

end CacheSim
